import Mathlib

/-
Shallow embedding of parseinstrs.py (the fadec table generator).
Python dictionaries are modelled as insertion-ordered association lists,
Python exceptions as the Except monad, and Python arbitrary-precision
integers as Nat / Int with explicit truncation where the source masks.
-/

set_option maxRecDepth 10000

namespace Fadec

/-- Payload word of a trie entry: either a symbolic mnemonic tag (a string
such as FDI_NOP, later resolved by the C preprocessor) or a numeric
16-bit word.  Models the heterogeneous Python tuple of str and int. -/
inductive PWord where
  | str (s : String)
  | num (n : Int)
deriving DecidableEq, Repr

/-- Node kinds of the decode trie (class EntryKind of the source).
TABLE_PFX and TABLE_PFX_REP model the source names TABLE_PREFIX and
TABLE_PREFIX_REP (renamed for this development). -/
inductive EntryKind where
  | NONE
  | INSTR
  | TABLE256
  | TABLE8
  | TABLE72
  | TABLE_PFX
  | TABLE_VEX
  | TABLE_PFX_REP
  | TABLE_ROOT
deriving DecidableEq, Repr

/-- Numeric value of each kind (the Enum values of the source). -/
def EntryKind.value : EntryKind → Int
  | .NONE => 0
  | .INSTR => 1
  | .TABLE256 => 2
  | .TABLE8 => 3
  | .TABLE72 => 4
  | .TABLE_PFX => 5
  | .TABLE_VEX => 6
  | .TABLE_PFX_REP => 7
  | .TABLE_ROOT => -1

/-- Fan-out of each table kind (TrieEntry.TABLE_LENGTH).  The source
dictionary has no entry for NONE and INSTR; those are never passed to
TrieEntry.table, so the default 0 is unreachable in mirrored code. -/
def EntryKind.tableLength : EntryKind → Nat
  | .TABLE256 => 256
  | .TABLE8 => 8
  | .TABLE72 => 72
  | .TABLE_PFX => 4
  | .TABLE_VEX => 4
  | .TABLE_PFX_REP => 4
  | .TABLE_ROOT => 8
  | _ => 0

/-- A trie node (class TrieEntry): a kind, a tuple of optional child
names, and a payload of words. -/
structure TrieEntry where
  kind : EntryKind
  items : List (Option String)
  payload : List PWord
deriving DecidableEq, Repr

/-- TrieEntry.table: a fresh table node with all children absent. -/
def TrieEntry.table (k : EntryKind) : TrieEntry :=
  ⟨k, List.replicate k.tableLength none, []⟩

/-- TrieEntry.instr: a terminal node holding an encoded record. -/
def TrieEntry.instr (payload : List PWord) : TrieEntry :=
  ⟨.INSTR, [], payload⟩

/-- TrieEntry.encode_length: number of 16-bit words the node serializes to
(before alignment padding). -/
def TrieEntry.encodeLength (e : TrieEntry) : Nat :=
  e.payload.length + e.items.length

/-- TrieEntry.encode: payload words followed by one word per child slot;
absent children encode as 0. -/
def TrieEntry.encode (e : TrieEntry) (encodeItem : String → Int) : List PWord :=
  e.payload ++ e.items.map (fun it => match it with
    | some n => PWord.num (encodeItem n)
    | none => PWord.num 0)

/-- TrieEntry.map: rebuild the child tuple through a function of slot
index and current value. -/
def TrieEntry.mapItems (e : TrieEntry) (f : Nat → Option String → Option String) : TrieEntry :=
  ⟨e.kind, e.items.mapIdx f, e.payload⟩

/-- TrieEntry.update: replace the child at one slot. -/
def TrieEntry.update (e : TrieEntry) (idx : Nat) (newVal : Option String) : TrieEntry :=
  e.mapItems (fun i v => if i = idx then newVal else v)

/-- The 48-bit record bit-struct (InstrFlags of the source).  Every field
is a plain Nat truncated to its width at encoding time, exactly like the
Python bitstruct _encode. -/
structure InstrFlags where
  modrm_idx : Nat := 0
  modreg_idx : Nat := 0
  vexreg_idx : Nat := 0
  zeroreg_idx : Nat := 0
  imm_idx : Nat := 0
  zeroreg_val : Nat := 0
  lock : Nat := 0
  imm_control : Nat := 0
  vsib : Nat := 0
  op0_size : Nat := 0
  op1_size : Nat := 0
  op2_size : Nat := 0
  op3_size : Nat := 0
  size8 : Nat := 0
  sized64 : Nat := 0
  size_fix1 : Nat := 0
  size_fix2 : Nat := 0
  instr_width : Nat := 0
  op0_regty : Nat := 0
  op1_regty : Nat := 0
  op2_regty : Nat := 0
  unusedBits : Nat := 0
deriving DecidableEq, Repr

/-- Field list of the bit-struct, with widths, in declaration order
(LSB first).  unusedBits models the source field named with a leading
underscore. -/
def InstrFlags.fieldList (f : InstrFlags) : List (Nat × Nat) :=
  [(f.modrm_idx, 2), (f.modreg_idx, 2), (f.vexreg_idx, 2), (f.zeroreg_idx, 2),
   (f.imm_idx, 2), (f.zeroreg_val, 1), (f.lock, 1), (f.imm_control, 3), (f.vsib, 1),
   (f.op0_size, 2), (f.op1_size, 2), (f.op2_size, 2), (f.op3_size, 2),
   (f.size8, 1), (f.sized64, 1), (f.size_fix1, 3), (f.size_fix2, 2), (f.instr_width, 1),
   (f.op0_regty, 3), (f.op1_regty, 3), (f.op2_regty, 3), (f.unusedBits, 7)]

/-- Pack a list of (value, width) fields LSB-first starting at a bit
offset; each value is truncated to its width (the source masks with
(1 shl size) - 1). -/
def packFields : List (Nat × Nat) → Nat → Nat
  | [], _ => 0
  | (v, sz) :: rest, off => (v % 2 ^ sz) * 2 ^ off + packFields rest (off + sz)

/-- InstrFlags._encode(6) as a 48-bit natural number (the six bytes,
little endian, reassembled). -/
def InstrFlags.encode48 (f : InstrFlags) : Nat :=
  packFields f.fieldList 0

/-- Split a 48-bit value into three little-endian 16-bit words, as the
source does with int.from_bytes over byte pairs. -/
def words48 (n : Nat) : List Nat :=
  [n % 65536, n / 65536 % 65536, n / 65536 / 65536 % 65536]

/-- The ENCODINGS table.  Index fields are stored with the xor-3
convention of the source.  The source additionally passes imm_byte := 1
for RVMI, RVMR and VMI; the bitstruct constructor silently drops unknown
keyword arguments, so no such field exists and it is omitted here. -/
def ENCODINGS : String → Option InstrFlags
  | "NP" => some {}
  | "M" => some { modrm_idx := 0 ^^^ 3 }
  | "M1" => some { modrm_idx := 0 ^^^ 3, imm_idx := 1 ^^^ 3, imm_control := 1 }
  | "MI" => some { modrm_idx := 0 ^^^ 3, imm_idx := 1 ^^^ 3, imm_control := 4 }
  | "MC" => some { modrm_idx := 0 ^^^ 3, zeroreg_idx := 1 ^^^ 3, zeroreg_val := 1 }
  | "MR" => some { modrm_idx := 0 ^^^ 3, modreg_idx := 1 ^^^ 3 }
  | "RM" => some { modrm_idx := 1 ^^^ 3, modreg_idx := 0 ^^^ 3 }
  | "RMA" => some { modrm_idx := 1 ^^^ 3, modreg_idx := 0 ^^^ 3, zeroreg_idx := 2 ^^^ 3 }
  | "MRI" => some { modrm_idx := 0 ^^^ 3, modreg_idx := 1 ^^^ 3, imm_idx := 2 ^^^ 3, imm_control := 4 }
  | "RMI" => some { modrm_idx := 1 ^^^ 3, modreg_idx := 0 ^^^ 3, imm_idx := 2 ^^^ 3, imm_control := 4 }
  | "MRC" => some { modrm_idx := 0 ^^^ 3, modreg_idx := 1 ^^^ 3, zeroreg_idx := 2 ^^^ 3, zeroreg_val := 1 }
  | "I" => some { imm_idx := 0 ^^^ 3, imm_control := 4 }
  | "IA" => some { zeroreg_idx := 0 ^^^ 3, imm_idx := 1 ^^^ 3, imm_control := 4 }
  | "O" => some { modreg_idx := 0 ^^^ 3 }
  | "OI" => some { modreg_idx := 0 ^^^ 3, imm_idx := 1 ^^^ 3, imm_control := 4 }
  | "OA" => some { modreg_idx := 0 ^^^ 3, zeroreg_idx := 1 ^^^ 3 }
  | "AO" => some { modreg_idx := 1 ^^^ 3, zeroreg_idx := 0 ^^^ 3 }
  | "A" => some { zeroreg_idx := 0 ^^^ 3 }
  | "D" => some { imm_idx := 0 ^^^ 3, imm_control := 6 }
  | "FD" => some { zeroreg_idx := 0 ^^^ 3, imm_idx := 1 ^^^ 3, imm_control := 2 }
  | "TD" => some { zeroreg_idx := 1 ^^^ 3, imm_idx := 0 ^^^ 3, imm_control := 2 }
  | "RVM" => some { modrm_idx := 2 ^^^ 3, modreg_idx := 0 ^^^ 3, vexreg_idx := 1 ^^^ 3 }
  | "RVMI" => some { modrm_idx := 2 ^^^ 3, modreg_idx := 0 ^^^ 3, vexreg_idx := 1 ^^^ 3, imm_idx := 3 ^^^ 3, imm_control := 4 }
  | "RVMR" => some { modrm_idx := 2 ^^^ 3, modreg_idx := 0 ^^^ 3, vexreg_idx := 1 ^^^ 3, imm_idx := 3 ^^^ 3, imm_control := 3 }
  | "RMV" => some { modrm_idx := 1 ^^^ 3, modreg_idx := 0 ^^^ 3, vexreg_idx := 2 ^^^ 3 }
  | "VM" => some { modrm_idx := 1 ^^^ 3, vexreg_idx := 0 ^^^ 3 }
  | "VMI" => some { modrm_idx := 1 ^^^ 3, vexreg_idx := 0 ^^^ 3, imm_idx := 2 ^^^ 3, imm_control := 4 }
  | "MVR" => some { modrm_idx := 0 ^^^ 3, modreg_idx := 2 ^^^ 3, vexreg_idx := 1 ^^^ 3 }
  | _ => none

/-- An operand kind (class OpKind): a size code and a category string.
SZ_OP is -1, SZ_VEC is -2; the categories mem and imm are the lowercase
strings of the source. -/
structure OpKind where
  size : Int
  kind : String
deriving DecidableEq, Repr

/-- The OPKINDS vocabulary. -/
def OPKINDS : String → Option OpKind
  | "IMM" => some ⟨-1, "imm"⟩
  | "IMM8" => some ⟨1, "imm"⟩
  | "IMM16" => some ⟨2, "imm"⟩
  | "IMM32" => some ⟨4, "imm"⟩
  | "GP" => some ⟨-1, "GP"⟩
  | "GP8" => some ⟨1, "GP"⟩
  | "GP16" => some ⟨2, "GP"⟩
  | "GP32" => some ⟨4, "GP"⟩
  | "GP64" => some ⟨8, "GP"⟩
  | "MMX" => some ⟨8, "MMX"⟩
  | "XMM" => some ⟨-2, "XMM"⟩
  | "XMM8" => some ⟨1, "XMM"⟩
  | "XMM16" => some ⟨2, "XMM"⟩
  | "XMM32" => some ⟨4, "XMM"⟩
  | "XMM64" => some ⟨8, "XMM"⟩
  | "XMM128" => some ⟨16, "XMM"⟩
  | "XMM256" => some ⟨32, "XMM"⟩
  | "SREG" => some ⟨2, "SEG"⟩
  | "FPU" => some ⟨10, "FPU"⟩
  | "MEM" => some ⟨-1, "mem"⟩
  | "MEMV" => some ⟨-2, "mem"⟩
  | "MEMZ" => some ⟨0, "mem"⟩
  | "MEM8" => some ⟨1, "mem"⟩
  | "MEM16" => some ⟨2, "mem"⟩
  | "MEM32" => some ⟨4, "mem"⟩
  | "MEM64" => some ⟨8, "mem"⟩
  | "MEM128" => some ⟨16, "mem"⟩
  | "MASK8" => some ⟨1, "MASK"⟩
  | "MASK16" => some ⟨2, "MASK"⟩
  | "MASK32" => some ⟨4, "MASK"⟩
  | "MASK64" => some ⟨8, "MASK"⟩
  | "BND" => some ⟨0, "BND"⟩
  | "CR" => some ⟨0, "CR"⟩
  | "DR" => some ⟨0, "DR"⟩
  | _ => none

/-- InstrDesc.OPKIND_REGTYS; lookups fall back to 7 via getD. -/
def OPKIND_REGTYS : String → Option Nat
  | "GP" => some 0
  | "FPU" => some 1
  | "XMM" => some 2
  | "MASK" => some 3
  | "MMX" => some 4
  | "BND" => some 5
  | _ => none

/-- InstrDesc.OPKIND_SIZES: size code normalisation. -/
def OPKIND_SIZES : Int → Option Int
  | 0 => some 0
  | 1 => some 1
  | 2 => some 2
  | 4 => some 3
  | 8 => some 4
  | 16 => some 5
  | 32 => some 6
  | 10 => some 0
  | -1 => some (-2)
  | -2 => some (-3)
  | _ => none

/-- A logical instruction descriptor (class InstrDesc).  The frozenset of
flags is modelled as a list queried only for membership. -/
structure InstrDesc where
  mnemonic : String
  encoding : String
  operands : List OpKind
  flags : List String
deriving DecidableEq, Repr

/-- Insert into an ascending list of distinct integers, skipping
duplicates. -/
def insertAsc (x : Int) : List Int → List Int
  | [] => [x]
  | y :: ys => if x < y then x :: y :: ys else if x = y then y :: ys else y :: insertAsc x ys

/-- The set comprehension over normalised operand size codes.  The source
iterates a CPython set of small integers; for every descriptor whose
encoding survives the fixed-size check that iteration order is the
ascending order modelled here (values 0..6 hash to distinct slots and the
negative codes -2, -3 can never reorder two codes that both land in the
fixed-size list without the check raising first). -/
def opszCodes (operands : List OpKind) : Except String (List Int) :=
  operands.foldlM (fun acc op =>
    match OPKIND_SIZES op.size with
    | some c => .ok (insertAsc c acc)
    | none => .error "KeyError: OPKIND_SIZES") []

/-- The stable sort of the nonnegative size codes with key (1 le x le 4):
codes outside 1..4 first, codes in 1..4 second. -/
def fixedCodes (opsz : List Int) : List Int :=
  opsz.filter (fun x => decide (0 ≤ x ∧ ¬(1 ≤ x ∧ x ≤ 4))) ++
    opsz.filter (fun x => decide (1 ≤ x ∧ x ≤ 4))

/-- Set one op_i_size field (setattr of the source; indices past 3 create
an attribute the bitstruct never reads, hence no effect). -/
def setOpSize (i : Nat) (v : Nat) (f : InstrFlags) : InstrFlags :=
  match i with
  | 0 => { f with op0_size := v }
  | 1 => { f with op1_size := v }
  | 2 => { f with op2_size := v }
  | 3 => { f with op3_size := v }
  | _ => f

/-- Set one op_i_regty field (only called for i less than 3). -/
def setOpRegty (i : Nat) (v : Nat) (f : InstrFlags) : InstrFlags :=
  match i with
  | 0 => { f with op0_regty := v }
  | 1 => { f with op1_regty := v }
  | 2 => { f with op2_regty := v }
  | _ => f

/-- The per-operand loop of InstrDesc.encode: set size slot and register
type for each operand, checking the fourth-operand register type. -/
def applyOperands (sizes : List Int) : Nat → List OpKind → InstrFlags → Except String InstrFlags
  | _, [], f => .ok f
  | i, op :: rest, f => do
    let sz ← match OPKIND_SIZES op.size with
      | some sz => pure sz
      | none => .error "KeyError: OPKIND_SIZES"
    let regTy := (OPKIND_REGTYS op.kind).getD 7
    let idx ← match sizes.indexOf? sz with
      | some idx => pure idx
      | none => .error "ValueError: size not in sizes"
    let f := setOpSize i idx f
    let f ← if i < 3 then
        pure (setOpRegty i regTy f)
      else if regTy ≠ 7 ∧ regTy ≠ 2 then
        .error "invalid regty for op 3, must be VEC"
      else
        pure f
    applyOperands sizes (i + 1) rest f

/-- InstrDesc.encode up to and including the miscellaneous-flag step:
everything before the immediate-width refinement. -/
def InstrDesc.prepFlags (d : InstrDesc) : Except String (InstrFlags × List Int) := do
  let fl ← match ENCODINGS d.encoding with
    | some fl => pure fl
    | none => .error "KeyError: ENCODINGS"
  let opsz ← opszCodes d.operands
  let fixed := fixedCodes opsz
  if fixed.length > 2 ∨ (fixed.length = 2 ∧ ¬(1 ≤ fixed.getD 1 0 ∧ fixed.getD 1 0 ≤ 4)) then
    .error "invalid fixed operand sizes"
  else
    let sizes : List Int := (fixed ++ [1, 1]).take 2 ++ [-2, -3]
    let fl := { fl with size_fix1 := (sizes.getD 0 0).toNat,
                        size_fix2 := (sizes.getD 1 0 - 1).toNat }
    let fl ← applyOperands sizes 0 d.operands fl
    let fl := if d.flags.contains "DEF64" then { fl with sized64 := 1 } else fl
    let fl := if d.flags.contains "SIZE_8" then { fl with size8 := 1 } else fl
    let fl := if d.flags.contains "INSTR_WIDTH" then { fl with instr_width := 1 } else fl
    let fl := if d.flags.contains "LOCK" then { fl with lock := 1 } else fl
    let fl := if d.flags.contains "VSIB" then { fl with vsib := 1 } else fl
    .ok (fl, sizes)

/-- The immediate-width refinement step: when imm_control is at least 4,
find the first operand of category imm (next(...) raises StopIteration if
there is none) and possibly set the low bit of imm_control. -/
def immRefine (d : InstrDesc) (fl : InstrFlags) : Except String InstrFlags :=
  if 4 ≤ fl.imm_control then
    match d.operands.find? (fun op => op.kind == "imm") with
    | none => .error "StopIteration"
    | some immOp =>
      if d.flags.contains "IMM_8" ∨ immOp.size = 1 ∨ (immOp.size = -1 ∧ fl.size8 = 1) then
        .ok { fl with imm_control := fl.imm_control ||| 1 }
      else
        .ok fl
  else
    .ok fl

/-- The flags value InstrDesc.encode finally packs. -/
def InstrDesc.finalFlags (d : InstrDesc) : Except String InstrFlags := do
  let (fl, _) ← d.prepFlags
  immRefine d fl

/-- InstrDesc.encode: the mnemonic tag symbol followed by the three
little-endian 16-bit words of the 48-bit record. -/
def InstrDesc.encode (d : InstrDesc) : Except String (List PWord) := do
  let fl ← d.finalFlags
  let ws := words48 fl.encode48
  .ok (PWord.str ("FDI_" ++ d.mnemonic) :: ws.map (fun w => PWord.num (Int.ofNat w)))

/-! The opcode pattern grammar.  The source matches a Python regular
expression with backtracking; here the same regex is modelled as an
ordered enumeration of candidate matches (alternatives and optional
groups in the preference order of the regex engine), of which the first
complete match wins. -/

/-- Hexadecimal digit test for the character class [0-9a-f] (lowercase
only, as in the source regex). -/
def isHexChar (c : Char) : Bool :=
  decide (48 ≤ c.toNat ∧ c.toNat ≤ 57) || decide (97 ≤ c.toNat ∧ c.toNat ≤ 102)

/-- Value of a hexadecimal digit character. -/
def hexVal (c : Char) : Nat :=
  if c.toNat ≤ 57 then c.toNat - 48 else c.toNat - 87

/-- int(s, 16) on a nonempty hex-digit string. -/
def hexStrVal (cs : List Char) : Nat :=
  cs.foldl (fun v c => v * 16 + hexVal c) 0

/-- Match a literal character sequence, returning the rest. -/
def matchLit : List Char → List Char → Option (List Char)
  | [], s => some s
  | _ :: _, [] => none
  | c :: cs, d :: ds => if c = d then matchLit cs ds else none

/-- Result of the prefix part of the regex: nothing, the legacy branch
(groups vex, legacy, rexw, vexl), or the rep branch (group repprefix). -/
inductive PrefixGroups where
  | noPfx
  | legacy (vex : Bool) (lg : String) (rexw vexl : Option String)
  | rep (rp : String)
deriving DecidableEq, Repr

/-- Candidates of a plain string alternation, in alternation order. -/
def altCands (alts : List String) (s : List Char) : List (String × List Char) :=
  alts.filterMap (fun a => (matchLit a.toList s).map (fun r => (a, r)))

/-- Candidates of the optional group (VEX\.)?: with the literal consumed
first (greedy), then without. -/
def vexCands (s : List Char) : List (Bool × List Char) :=
  (match matchLit "VEX.".toList s with
   | some r => [(true, r)]
   | none => []) ++ [(false, s)]

/-- Candidates of an optional group of shape (?:X([01]|IG)\.)? where X is
W or L: the matched variants (in alternation order [01] before IG) first,
then the skipped variant. -/
def wlCands (letter : Char) (s : List Char) : List (Option String × List Char) :=
  (match s with
   | c :: rest =>
     if c = letter then
       (altCands ["0", "1", "IG"] rest).filterMap (fun cand =>
         match cand.2 with
         | '.' :: r2 => some (some cand.1, r2)
         | _ => none)
     else []
   | [] => []) ++ [(none, s)]

/-- Candidates of the legacy-prefix branch
(VEX\.)?(NP|66|F2|F3)\.(?:W([01]|IG)\.)?(?:L([01]|IG)\.)? . -/
def branch1Cands (s : List Char) : List (PrefixGroups × List Char) :=
  (vexCands s).flatMap (fun v =>
    (altCands ["NP", "66", "F2", "F3"] v.2).flatMap (fun lg =>
      match lg.2 with
      | '.' :: s3 =>
        (wlCands 'W' s3).flatMap (fun w =>
          (wlCands 'L' w.2).map (fun l => (PrefixGroups.legacy v.1 lg.1 w.1 l.1, l.2)))
      | _ => []))

/-- Candidates of the rep-prefix branch R(NP|F2|F3). where the final dot
of the regex is unescaped and matches any character except newline. -/
def branch2Cands (s : List Char) : List (PrefixGroups × List Char) :=
  match s with
  | 'R' :: s1 =>
    (altCands ["NP", "F2", "F3"] s1).flatMap (fun rp =>
      match rp.2 with
      | c :: s3 => if c = '\n' then [] else [(PrefixGroups.rep rp.1, s3)]
      | [] => [])
  | _ => []

/-- All candidates of the optional prefix part, in regex preference
order: legacy branch, rep branch, empty. -/
def prefixCands (s : List Char) : List (PrefixGroups × List Char) :=
  branch1Cands s ++ branch2Cands s ++ [(PrefixGroups.noPfx, s)]

/-- Maximal number of leading hexadecimal digit pairs. -/
def maxHexPairs : List Char → Nat
  | a :: b :: rest => if isHexChar a && isHexChar b then maxHexPairs rest + 1 else 0
  | _ => 0

/-- Candidates of the group ((hexpair))+ : the greedy regex engine tries
the maximal number of pairs first, then releases one pair at a time down
to one pair. -/
def opcodeCands (s : List Char) : List (List Char × List Char) :=
  (List.range (maxHexPairs s)).map (fun i =>
    let n := 2 * (maxHexPairs s - i)
    (s.take n, s.drop n))

/-- Digit in the character class [0-7]. -/
def digit07 (c : Char) : Option Nat :=
  if 48 ≤ c.toNat ∧ c.toNat ≤ 55 then some (c.toNat - 48) else none

/-- Candidates of the optional modrm group //?[0-7]|//[c-f][0-9a-f],
already post-processed to (is72kind, value) as in Opcode.parse: a
double slash makes the 72 kind, and the value is parsed as hex. -/
def modrmCands (s : List Char) : List (Option (Bool × Nat) × List Char) :=
  (match s with
   | '/' :: '/' :: c :: rest =>
     match digit07 c with
     | some d => [(some (true, d), rest)]
     | none => []
   | _ => []) ++
  (match s with
   | '/' :: c :: rest =>
     match digit07 c with
     | some d => [(some (false, d), rest)]
     | none => []
   | _ => []) ++
  (match s with
   | '/' :: '/' :: c1 :: c2 :: rest =>
     if decide (99 ≤ c1.toNat ∧ c1.toNat ≤ 102) && isHexChar c2 then
       [(some (true, hexVal c1 * 16 + hexVal c2), rest)]
     else []
   | _ => []) ++ [(none, s)]

/-- Candidates of the optional (\+)? group. -/
def extCands (s : List Char) : List (Bool × List Char) :=
  (match s with
   | '+' :: rest => [(true, rest)]
   | _ => []) ++ [(false, s)]

/-- A complete match of the opcode regex. -/
structure OpcodeMatch where
  pfxg : PrefixGroups
  opcodeStr : List Char
  modrm : Option (Bool × Nat)
  extended : Bool
deriving DecidableEq, Repr

/-- All complete matches of the anchored regex against a string, in
backtracking preference order.  The $ anchor of Python re matches at the
end of the string or just before one final newline. -/
def opcodeRegexMatches (s : List Char) : List OpcodeMatch :=
  (prefixCands s).flatMap (fun pf =>
    (opcodeCands pf.2).flatMap (fun opc =>
      (modrmCands opc.2).flatMap (fun mo =>
        (extCands mo.2).filterMap (fun ex =>
          if ex.2 = [] ∨ ex.2 = ['\n'] then
            some ⟨pf.1, opc.1, mo.1, ex.1⟩
          else none))))

/-- The canonical structured form of an opcode pattern (class Opcode).
The field pfx models the source field named prefix. -/
structure Opcode where
  pfx : Option (Bool × Nat)
  escape : Nat
  opc : Nat
  opcext : Option (Bool × Nat)
  extended : Bool
  vex : Bool
  vexl : Option String
  rexw : Option String
deriving DecidableEq, Repr

/-- Opcode.parse.  Returns ok none when the regex does not match (the
source returns None), and error for the two exceptions the source can
raise (invalid opcode extension, and ValueError from the escape lookup). -/
def Opcode.parse (s : String) : Except String (Option Opcode) :=
  match (opcodeRegexMatches s.toList).head? with
  | none => .ok none
  | some m =>
    if m.extended && (match m.modrm with | some (false, _) => true | _ => false) then
      .error ("invalid opcode extension: " ++ s)
    else
      let prefixVal : Option (Bool × Nat) :=
        match m.pfxg with
        | .noPfx => none
        | .legacy _ lg _ _ => some (false, ((["NP", "66", "F3", "F2"] : List String).indexOf? lg).getD 0)
        | .rep rp => some (true, ((["NP", "66", "F3", "F2"] : List String).indexOf? rp).getD 0)
      let escStr := String.mk (m.opcodeStr.take (m.opcodeStr.length - 2))
      match (["", "0f", "0f38", "0f3a"] : List String).indexOf? escStr with
      | none => .error "ValueError: escape prefix not in list"
      | some esc =>
        .ok (some {
          pfx := prefixVal
          escape := esc
          opc := hexStrVal (m.opcodeStr.drop (m.opcodeStr.length - 2))
          opcext := m.modrm
          extended := m.extended
          vex := (match m.pfxg with | .legacy v _ _ _ => v | _ => false)
          vexl := (match m.pfxg with | .legacy _ _ _ l => l | _ => none)
          rexw := (match m.pfxg with | .legacy _ _ w _ => w | _ => none) })

/-- Cartesian product of a list of lists, in the order of
itertools.product (leftmost position varies slowest). -/
def cartProd {α : Type} : List (List α) → List (List α)
  | [] => [[]]
  | l :: ls => l.flatMap (fun x => (cartProd ls).map (fun xs => x :: xs))

/-- The optional opcext stage of Opcode.for_trie: TABLE8 or TABLE72 with
the remapped slot value. -/
def Opcode.opcextStage (o : Opcode) : List (EntryKind × List Nat) :=
  match o.opcext with
  | some (is72, v) =>
    [((if is72 then EntryKind.TABLE72 else EntryKind.TABLE8),
      [v - (if v < 8 then 0 else 0xb8)])]
  | none => []

/-- The extended marker of Opcode.for_trie: widen the last stage so far
to eight consecutive slot values. -/
def extendLast (l : List (EntryKind × List Nat)) : List (EntryKind × List Nat) :=
  match l.getLast? with
  | some last => l.dropLast ++ [(last.1, (List.range 8).map (fun i => last.2.getD 0 0 + i))]
  | none => l

/-- The optional prefix stage of Opcode.for_trie. -/
def Opcode.pfxStage (o : Opcode) : List (EntryKind × List Nat) :=
  match o.pfx with
  | some (isRep, v) =>
    [((if isRep then EntryKind.TABLE_PFX_REP else EntryKind.TABLE_PFX), [v])]
  | none => []

/-- The guard under which Opcode.for_trie appends a TABLE_VEX stage:
vexl or rexw is a concrete bit. -/
def Opcode.vexGuard (o : Opcode) : Prop :=
  o.vexl = some "0" ∨ o.vexl = some "1" ∨ o.rexw = some "0" ∨ o.rexw = some "1"

instance (o : Opcode) : Decidable o.vexGuard := by
  unfold Opcode.vexGuard; infer_instance

/-- The optional TABLE_VEX stage of Opcode.for_trie.  The dictionary
lookups keyed by (self.rexw or "IG") are modelled with the IG row as the
fallback, which agrees with the source on every value Opcode.parse can
produce. -/
def Opcode.vexStage (o : Opcode) : List (EntryKind × List Nat) :=
  if o.vexGuard then
    let rexwList := if o.rexw = some "0" then [0] else if o.rexw = some "1" then [1] else [0, 1]
    let vexlList := if o.vexl = some "0" then [0] else if o.vexl = some "1" then [2] else [0, 2]
    [(EntryKind.TABLE_VEX, rexwList.flatMap (fun w => vexlList.map (fun l => w + l)))]
  else []

/-- The stage list of Opcode.for_trie: root and opcode stages, optional
opcext stage, the extended widening applied to the last stage so far,
optional prefix stage, optional TABLE_VEX stage, in source order. -/
def Opcode.stages (o : Opcode) : List (EntryKind × List Nat) :=
  (if o.extended then
    extendLast ([(.TABLE_ROOT, [o.escape ||| ((if o.vex then 1 else 0) <<< 2)]),
                 (.TABLE256, [o.opc])] ++ o.opcextStage)
  else
    [(.TABLE_ROOT, [o.escape ||| ((if o.vex then 1 else 0) <<< 2)]),
     (.TABLE256, [o.opc])] ++ o.opcextStage) ++ o.pfxStage ++ o.vexStage

/-- Opcode.for_trie: expand the canonical form into the list of concrete
trie paths, the cartesian product over the per-stage value lists zipped
against the stage kinds. -/
def Opcode.forTrie (o : Opcode) : List (List (EntryKind × Nat)) :=
  (cartProd (o.stages.map (fun st => st.2))).map
    (fun vs => (o.stages.map (fun st => st.1)).zip vs)

/-- Hexadecimal digit character (lowercase). -/
def hexDigitChar (n : Nat) : Char :=
  if n < 10 then Char.ofNat (48 + n) else Char.ofNat (87 + n)

/-- Minimal hexadecimal digit string of a natural number. -/
def natHexChars (n : Nat) : List Char :=
  if n < 16 then [hexDigitChar n] else natHexChars (n / 16) ++ [hexDigitChar (n % 16)]
decreasing_by exact Nat.div_lt_self (by omega) (by omega)

/-- The format specifier 02x: hexadecimal, zero-padded to width two. -/
def hex2 (n : Nat) : String :=
  String.mk (if (natHexChars n).length < 2 then '0' :: natHexChars n else natHexChars n)

/-- The format specifier x: plain hexadecimal. -/
def hex1 (n : Nat) : String :=
  String.mk (natHexChars n)

/-- format_opcode: rebuild a pattern string from a trie path.  Raises on
a path containing an INSTR or NONE stage, like the source.  The indexed
list lookups whose index the source bounds by masking use getD (the
default is unreachable); the lookup indexed by byte shifted right two,
which the source does not bound, raises IndexError faithfully. -/
def format_opcode (path : List (EntryKind × Nat)) : Except String String := do
  let res ← path.foldlM (fun (acc : String × String) (kb : EntryKind × Nat) =>
    match kb.1 with
    | .TABLE_ROOT =>
      match (["", "VEX."] : List String).get? (kb.2 >>> 2) with
      | some v => .ok (acc.1 ++ v, acc.2 ++ (["", "0f", "0f38", "0f3a"] : List String).getD (kb.2 % 4) "")
      | none => .error "IndexError: root byte"
    | .TABLE256 => .ok (acc.1, acc.2 ++ hex2 kb.2)
    | .TABLE8 => .ok (acc.1, acc.2 ++ "/" ++ hex1 kb.2)
    | .TABLE72 => .ok (acc.1, acc.2 ++ "/" ++ hex1 kb.2)
    | .TABLE_PFX =>
      let p := if kb.2 &&& 4 ≠ 0 then acc.1 ++ "VEX." else acc.1
      .ok (p ++ (["NP.", "66.", "F3.", "F2."] : List String).getD (kb.2 % 4) "", acc.2)
    | .TABLE_PFX_REP =>
      .ok (acc.1 ++ (["RNP.", "??.", "RF3.", "RF2."] : List String).getD (kb.2 % 4) "", acc.2)
    | .TABLE_VEX =>
      .ok (acc.1 ++ "W" ++ toString (kb.2 % 2) ++ ".L" ++ toString (kb.2 >>> 1) ++ ".", acc.2)
    | _ => .error "unsupported opcode kind") ("", "")
  .ok (res.1 ++ res.2)

/-! The trie builder, deduplicator and layout compiler (class Table).
The OrderedDict is modelled as an insertion-ordered association list with
dictionary semantics: lookup finds the first (only) binding, setting an
existing key updates it in place, setting a fresh key appends. -/

/-- Dictionary lookup. -/
def dictGet (d : List (String × TrieEntry)) (k : String) : Option TrieEntry :=
  (d.find? (fun p => p.1 == k)).map (fun p => p.2)

/-- Dictionary update or insert: replace the binding in place when the
key is present (dictionary keys are unique), append a fresh binding at
the end otherwise, exactly the Python dict assignment semantics. -/
def dictSet (d : List (String × TrieEntry)) (k : String) (v : TrieEntry) : List (String × TrieEntry) :=
  match d with
  | [] => [(k, v)]
  | p :: tl => if p.1 == k then (k, v) :: tl else p :: dictSet tl k v

/-- The trie builder state: node dictionary and root names. -/
structure Table where
  data : List (String × TrieEntry)
  roots : List String
deriving DecidableEq, Repr

/-- Table.__init__ with a root count. -/
def Table.init (rootCount : Nat) : Table :=
  { data := (List.range rootCount).map
      (fun i => ("root" ++ toString i, TrieEntry.table .TABLE_ROOT)),
    roots := (List.range rootCount).map (fun i => "root" ++ toString i) }

/-- Table._update_table: refuse to override an existing child, then store
the new entry and point the parent slot at it. -/
def Table.updateTable (t : Table) (name : String) (idx : Nat) (entryName : String)
    (entryVal : TrieEntry) : Except String Table :=
  match dictGet t.data name with
  | none => .error "KeyError: update parent"
  | some e =>
    match e.items[idx]? with
    | none => .error "IndexError: update slot"
    | some (some _) =>
      .error (name ++ "/" ++ toString idx ++ " set, not overriding to " ++ entryName)
    | some none =>
      match dictGet (dictSet t.data entryName entryVal) name with
      | none => .error "KeyError: update refetch"
      | some e1 =>
        .ok { t with data := dictSet (dictSet t.data entryName entryVal) name (e1.update idx (some entryName)) }

/-- Generated node name: t, the root index, a comma, and the formatted
path. -/
def tableName (rootIdx : Nat) (path : List (EntryKind × Nat)) : Except String String := do
  let f ← format_opcode path
  .ok ("t" ++ toString rootIdx ++ "," ++ f)

/-- The walk loop of Table.add_opcode over consecutive path positions:
at each step the demanded kind is the kind of the next stage and the
byte indexes the current node; a missing child is created as a fresh
table, a present child must carry the demanded kind. -/
def Table.addWalk (rootIdx : Nat) (fullPath : List (EntryKind × Nat)) (errName : String) :
    Table → String → Nat → List (EntryKind × Nat) → Except String (Table × String)
  | t, tn, _, [] => .ok (t, tn)
  | t, tn, _, [_] => .ok (t, tn)
  | t, tn, done, cur :: next :: rest =>
    match dictGet t.data tn with
    | none => .error "KeyError: walk node"
    | some e =>
      match e.items[cur.2]? with
      | none => .error "IndexError: walk slot"
      | some (some tn2) =>
        match dictGet t.data tn2 with
        | none => .error "KeyError: walk child"
        | some e2 =>
          if e2.kind ≠ next.1 then
            .error (errName ++ ", kind disagreement")
          else
            Table.addWalk rootIdx fullPath errName t tn2 (done + 1) (next :: rest)
      | some none =>
        match tableName rootIdx (fullPath.take (done + 1)) with
        | .error msg => .error msg
        | .ok tn2 =>
          match t.updateTable tn cur.2 tn2 (TrieEntry.table next.1) with
          | .error msg => .error msg
          | .ok t2 =>
            match dictGet t2.data tn2 with
            | none => .error "KeyError: created child"
            | some e2 =>
              if e2.kind ≠ next.1 then
                .error (errName ++ ", kind disagreement")
              else
                Table.addWalk rootIdx fullPath errName t2 tn2 (done + 1) (next :: rest)

/-- Table.add_opcode: insert one path with its encoded record. -/
def Table.add_opcode (t : Table) (opcode : List (EntryKind × Nat)) (enc : List PWord)
    (rootIdx : Nat) : Except String Table :=
  match tableName rootIdx opcode with
  | .error msg => .error msg
  | .ok name =>
    match Table.addWalk rootIdx opcode name t ("root" ++ toString rootIdx) 0 opcode with
    | .error msg => .error msg
    | .ok res =>
      match opcode.getLast? with
      | none => .error "IndexError: empty path"
      | some last => res.1.updateTable res.2 last.2 name (TrieEntry.instr enc)

/-- The scan loop of one Table.deduplicate pass: walk the entries in
order keeping the first-seen name of each distinct entry value (the
entries dictionary of the source) and record, for every later
structurally equal entry, its name mapped to that first-seen name. -/
def dedupScan (seen : List (TrieEntry × String)) : List (String × TrieEntry) → List (String × String)
  | [] => []
  | p :: tl =>
    match seen.find? (fun q => q.1 == p.2) with
    | some q => (p.1, q.2) :: dedupScan seen tl
    | none => dedupScan (seen ++ [(p.2, p.1)]) tl

/-- One pass of Table.deduplicate: compute the synonym map (later name of
a structurally equal entry maps to the first-seen name), remap every
child reference through it, and delete the synonym keys. -/
def dedupPass (data : List (String × TrieEntry)) :
    List (String × String) × List (String × TrieEntry) :=
  let syn := dedupScan [] data
  let remapped := data.map (fun p => (p.1, p.2.mapItems (fun _ v =>
      match v with
      | some s => some (((syn.find? (fun q => q.1 == s)).map (fun q => q.2)).getD s)
      | none => none)))
  (syn, remapped.filter (fun p => !(syn.any (fun q => q.1 == p.1))))

/-- Table.deduplicate: iterate passes until a pass changes nothing.  The
source loops while the synonym map is nonempty; a nonempty synonym map
always deletes at least one key (every synonym key is a key of the data
dictionary) and an empty one deletes nothing, so the loop guard is
equivalent to the strict length decrease used here (the equivalence is
proved below as dedupPass_nonempty_iff). -/
def deduplicate (data : List (String × TrieEntry)) : List (String × TrieEntry) :=
  let next := (dedupPass data).2
  if h : next.length < data.length then deduplicate next else data
termination_by data.length

/-- Alignment to the next multiple of four: models (n + 3) band bnot 3 on
a nonnegative Python int. -/
def align4 (n : Nat) : Nat :=
  (n + 3) / 4 * 4

/-- Table.calc_offsets: assign each node an offset in 16-bit words (the
running total advances by the 4-word-aligned encode length) and raise
once the total reaches 0x8000.  The annotation strings the source also
builds do not influence any output modelled here and are omitted. -/
def calcOffsets (data : List (String × TrieEntry)) : Except String (List (String × Nat)) :=
  let res := data.foldl (fun (acc : List (String × Nat) × Nat) p =>
      (acc.1 ++ [(p.1, acc.2)], acc.2 + align4 p.2.encodeLength)) ([], 0)
  if 0x8000 ≤ res.2 then
    .error ("maximum table size exceeded: " ++ toString res.2)
  else
    .ok res.1

/-- Offset lookup. -/
def offsetsLookup (offs : List (String × Nat)) (k : String) : Option Nat :=
  (offs.find? (fun p => p.1 == k)).map (fun p => p.2)

/-- Table.encode_item: offset shifted left one, or-ed with the kind
value of the referenced node. -/
def encodeItemFn (offs : List (String × Nat)) (data : List (String × TrieEntry))
    (n : String) : Except String Int :=
  match offsetsLookup offs n, dictGet data n with
  | some off, some e => .ok (Int.lor (Int.ofNat (off <<< 1)) e.kind.value)
  | _, _ => .error "KeyError: encode_item"

/-- TrieEntry.encode under a fallible item encoder: payload words, then
one word per child (absent children give 0). -/
def TrieEntry.encodeM (e : TrieEntry) (f : String → Except String Int) :
    Except String (List PWord) := do
  let ws ← e.items.mapM (fun it =>
    match it with
    | some n => do
      let v ← f n
      pure (PWord.num v)
    | none => pure (PWord.num 0))
  pure (e.payload ++ ws)

/-- Stable insertion into a list sorted by first component. -/
def insertByFst (x : Nat × TrieEntry) : List (Nat × TrieEntry) → List (Nat × TrieEntry)
  | [] => [x]
  | y :: ys => if x.1 ≤ y.1 then x :: y :: ys else y :: insertByFst x ys

/-- Insertion sort by first component.  The source sorts (offset, entry)
pairs with tuple comparison; offsets are pairwise distinct whenever every
entry has a positive encode length, so the entry components never get
compared. -/
def sortByFst (l : List (Nat × TrieEntry)) : List (Nat × TrieEntry) :=
  l.foldr insertByFst []

/-- Table.compile: compute offsets, serialize every node at its offset
(zero-padding gaps), and return the word blob plus the per-root offset
list that becomes the FD_TABLE_OFFSET constants. -/
def Table.compile (t : Table) : Except String (List PWord × List Nat) := do
  let offs ← calcOffsets t.data
  let ordered0 ← offs.mapM (fun p =>
    match dictGet t.data p.1 with
    | some e => Except.ok (p.2, e)
    | none => Except.error "KeyError: compile entry")
  let ordered := sortByFst ordered0
  let blob ← ordered.foldlM (fun (acc : List PWord) oe => do
    let ws ← oe.2.encodeM (encodeItemFn offs t.data)
    pure (acc ++ List.replicate (oe.1 - acc.length) (PWord.num 0) ++ ws)) []
  let roffs ← t.roots.mapM (fun r =>
    match offsetsLookup offs r with
    | some o => Except.ok o
    | none => Except.error "KeyError: root offset")
  pure (blob, roffs)

/-- The mode filter of the driver loop: a descriptor reaches the root of
a mode unless its flag set contains ONLY concatenated with 96 minus the
mode. -/
def modeFilterAllows (flags : List String) (mode : Nat) : Bool :=
  !(flags.contains ("ONLY" ++ toString (96 - mode)))

/-- The set of requested modes whose root receives a descriptor. -/
def insertedRootModes (flags : List String) (modes : List Nat) : List Nat :=
  modes.filter (fun m => modeFilterAllows flags m)

/-- Total serialized size of a node list in 16-bit words: the value the
running offset counter of calc_offsets reaches after the loop. -/
def totalWords (data : List (String × TrieEntry)) : Nat :=
  (data.map (fun p => align4 p.2.encodeLength)).sum

/-- Structural characterization of the offsets calc_offsets assigns:
each node gets the running total of aligned sizes before it. -/
def offsetsFrom (n : Nat) : List (String × TrieEntry) → List (String × Nat)
  | [] => []
  | p :: tl => (p.1, n) :: offsetsFrom (n + align4 p.2.encodeLength) tl

/-- The (offset, entry) pairs compile serializes, in data order: each
entry paired with its running word offset. -/
def offEntries (n0 : Nat) : List (String × TrieEntry) → List (Nat × TrieEntry)
  | [] => []
  | p :: tl => (n0, p.2) :: offEntries (n0 + align4 p.2.encodeLength) tl

/-- A concrete 64-node list of TABLE256 tables, 16384 words in total. -/
def table64x256 : List (String × TrieEntry) :=
  (List.range 64).map (fun i => (toString i, TrieEntry.table .TABLE256))

/-- The conflict notion of the spec, stated declaratively against the
table state before an insertion: walking the path along existing
children, a conflict is a disagreement between the table kind already
present at a node and the kind the path demands at that depth, or a
final slot that is already occupied (a duplicate terminal insertion). -/
def hasConflict (t : Table) : String → List (EntryKind × Nat) → Bool
  | _, [] => false
  | tn, [cur] =>
    match dictGet t.data tn with
    | some e =>
      match e.items[cur.2]? with
      | some (some _) => true
      | _ => false
    | none => false
  | tn, cur :: next :: rest =>
    match dictGet t.data tn with
    | some e =>
      match e.items[cur.2]? with
      | some (some tn2) =>
        match dictGet t.data tn2 with
        | some e2 => decide (¬ e2.kind = next.1) || hasConflict t tn2 (next :: rest)
        | none => false
      | _ => false
    | none => false

/-- The interior part of the conflict notion: only the kind
disagreements along the walk, without the final-slot occupancy. -/
def interiorConflict (t : Table) : String → List (EntryKind × Nat) → Bool
  | _, [] => false
  | _, [_] => false
  | tn, cur :: next :: rest =>
    match dictGet t.data tn with
    | some e =>
      match e.items[cur.2]? with
      | some (some tn2) =>
        match dictGet t.data tn2 with
        | some e2 => decide (¬ e2.kind = next.1) || interiorConflict t tn2 (next :: rest)
        | none => false
      | _ => false
    | none => false

/-- Well-formedness of a path with respect to the fan-outs: each byte is
a valid slot of the table kind holding it (the kind of the node being
indexed, which is the previous demanded kind, starting from the kind of
the root node). -/
def bytesOk : EntryKind → List (EntryKind × Nat) → Bool
  | _, [] => true
  | k, [cur] => cur.2 < k.tableLength
  | k, cur :: next :: rest => (decide (cur.2 < k.tableLength)) && bytesOk next.1 (next :: rest)

/-- The stages format_opcode can serialize without error. -/
def stageFormatOk (kb : EntryKind × Nat) : Bool :=
  match kb.1 with
  | .TABLE_ROOT => kb.2 < 8
  | .TABLE256 => true
  | .TABLE8 => true
  | .TABLE72 => true
  | .TABLE_PFX => true
  | .TABLE_PFX_REP => true
  | .TABLE_VEX => true
  | _ => false

/-- The name add_opcode generates at walk step i (the name of the node
for the path cut after position i). -/
def genName (rootIdx : Nat) (p : List (EntryKind × Nat)) (i : Nat) : String :=
  ((tableName rootIdx (p.take (i + 1))).toOption).getD ""

/-- The first n child slots along a path all exist: starting from the
named node, each of the first n path bytes indexes a slot holding a
child name.  A table built by add_opcode binds a generated name only at
the end of such a slot chain, which is the naming consistency the
conflict characterization of add_opcode relies on. -/
def chainOk (t : Table) : String → List (EntryKind × Nat) → Nat → Bool
  | _, _, 0 => true
  | _, [], _ + 1 => false
  | tn, cur :: rest, n + 1 =>
    match dictGet t.data tn with
    | some e =>
      match e.items[cur.2]? with
      | some (some tn2) => chainOk t tn2 rest n
      | _ => false
    | none => false

/-- The table state after inserting the path 0f 90 with record word 7
into a fresh one-root builder: the root points at a generated 256-table
which points at the terminal record node. -/
def tableAfter90 : Table :=
  { data := [("root0",
        ⟨.TABLE_ROOT, (List.replicate 8 (none : Option String)).set 1 (some "t0,0f"), []⟩),
      ("t0,0f",
        ⟨.TABLE256, (List.replicate 256 (none : Option String)).set 144 (some "t0,0f90"), []⟩),
      ("t0,0f90", ⟨.INSTR, [], [PWord.num 7]⟩)],
    roots := ["root0"] }

end Fadec

namespace Fadec

/-! Theorems. -/

/-- C1 (counterexample): for the NOP line the encoder emits the mnemonic
tag as the FIRST payload element and the three record words after it, so
the fourth payload word is a record word and not the mnemonic tag,
refuting the claimed tag-last order. -/
theorem c1_counterexample :
    InstrDesc.encode ⟨"NOP", "NP", [], []⟩ =
      .ok [.str "FDI_NOP", .num 0, .num 1024, .num 0] ∧
    [PWord.str "FDI_NOP", PWord.num 0, PWord.num 1024, PWord.num 0].get? 0 =
      some (.str "FDI_NOP") ∧
    [PWord.str "FDI_NOP", PWord.num 0, PWord.num 1024, PWord.num 0].get? 3 ≠
      some (.str "FDI_NOP") := by
  refine ⟨rfl, rfl, ?_⟩
  decide

/-- C1 (amended): the payload produced by InstrDesc.encode is the
mnemonic tag first, followed by the three little-endian 16-bit words of
the 48-bit record, and an INSTR node serializes to exactly that payload
(it has no children). -/
theorem c1_tag_first (d : InstrDesc) (l : List PWord) (h : d.encode = .ok l) :
    ∃ fl : InstrFlags, d.finalFlags = .ok fl ∧
      l = PWord.str ("FDI_" ++ d.mnemonic) ::
        (words48 fl.encode48).map (fun w => PWord.num (Int.ofNat w)) ∧
      ∀ f : String → Except String Int, (TrieEntry.instr l).encodeM f = .ok l := by
  unfold InstrDesc.encode at h
  cases hf : d.finalFlags with
  | error e =>
    rw [hf] at h
    simp [Bind.bind, Except.bind] at h
  | ok fl =>
    rw [hf] at h
    simp only [Bind.bind, Except.bind, Except.ok.injEq] at h
    refine ⟨fl, rfl, h.symm, fun f => ?_⟩
    show Except.ok (l ++ []) = Except.ok l
    simp

/-- C1 (witness): the amended theorem applied to the NOP descriptor. -/
theorem c1_tag_first_witness :
    ∃ fl : InstrFlags, InstrDesc.finalFlags ⟨"NOP", "NP", [], []⟩ = .ok fl ∧
      [PWord.str "FDI_NOP", PWord.num 0, PWord.num 1024, PWord.num 0] =
        PWord.str ("FDI_" ++ "NOP") ::
          (words48 fl.encode48).map (fun w => PWord.num (Int.ofNat w)) ∧
      ∀ f : String → Except String Int,
        (TrieEntry.instr [PWord.str "FDI_NOP", PWord.num 0, PWord.num 1024, PWord.num 0]).encodeM f =
          .ok [PWord.str "FDI_NOP", PWord.num 0, PWord.num 1024, PWord.num 0] :=
  c1_tag_first ⟨"NOP", "NP", [], []⟩
    [PWord.str "FDI_NOP", PWord.num 0, PWord.num 1024, PWord.num 0] rfl

/-- C10: when the encoding form sets imm_control to at least 4 but the
operand list has no operand of category imm, InstrDesc.encode fails with
the bare StopIteration of the operand search (not a descriptive build
error); when an imm operand is present, encode completes normally. -/
theorem c10_missing_imm_stopiteration (d : InstrDesc) (fl : InstrFlags) (sizes : List Int)
    (h : d.prepFlags = .ok (fl, sizes)) (h4 : 4 ≤ fl.imm_control) :
    ((∀ op ∈ d.operands, op.kind ≠ "imm") → d.encode = .error "StopIteration") ∧
    ((∃ op ∈ d.operands, op.kind = "imm") → ∃ r, d.encode = .ok r) := by
  have hff : d.finalFlags = immRefine d fl := by
    unfold InstrDesc.finalFlags
    rw [h]
    rfl
  constructor
  · intro hall
    have hfind : d.operands.find? (fun op => op.kind == "imm") = none := by
      apply List.find?_eq_none.mpr
      intro op hop
      simp [hall op hop]
    unfold InstrDesc.encode
    rw [hff]
    unfold immRefine
    rw [if_pos h4, hfind]
    rfl
  · rintro ⟨op, hop, hkind⟩
    have hsome : (d.operands.find? (fun op => op.kind == "imm")).isSome := by
      rw [List.find?_isSome]
      exact ⟨op, hop, by simp [hkind]⟩
    obtain ⟨io, hio⟩ := Option.isSome_iff_exists.mp hsome
    have himm : ∃ fl2, immRefine d fl = .ok fl2 := by
      unfold immRefine
      rw [if_pos h4]
      simp only [hio]
      split
      · exact ⟨_, rfl⟩
      · exact ⟨_, rfl⟩
    obtain ⟨fl2, hfl2⟩ := himm
    unfold InstrDesc.encode
    rw [hff, hfl2]
    exact ⟨_, rfl⟩

/-- C10 (witness): the I-form descriptor with no operands hits
StopIteration, the MI-form ROL descriptor with an IMM8 operand encodes
successfully. -/
theorem c10_witness :
    InstrDesc.encode ⟨"CALL", "I", [], []⟩ = .error "StopIteration" ∧
    (∃ r, InstrDesc.encode ⟨"ROL", "MI", [⟨1, "GP"⟩, ⟨1, "imm"⟩], ["SIZE_8"]⟩ = .ok r) := by
  constructor
  · exact (c10_missing_imm_stopiteration ⟨"CALL", "I", [], []⟩
      { imm_idx := 3, imm_control := 4, size_fix1 := 1 } [1, 1, -2, -3]
      rfl (by decide)).1 (by decide)
  · exact (c10_missing_imm_stopiteration ⟨"ROL", "MI", [⟨1, "GP"⟩, ⟨1, "imm"⟩], ["SIZE_8"]⟩
      { modrm_idx := 3, imm_idx := 2, imm_control := 4, size8 := 1,
        size_fix1 := 1, op1_regty := 7 } [1, 1, -2, -3]
      rfl (by decide)).2 ⟨⟨1, "imm"⟩, by decide, rfl⟩

/-- C7: the mode filter tests membership of ONLY concatenated with 96
minus the mode, so ONLY32 excludes a descriptor exactly from the 64-bit
root, ONLY64 exactly from the 32-bit root, and with neither flag every
requested mode receives the descriptor. -/
theorem c7_mode_filter (flags : List String) :
    (flags.contains "ONLY32" = true → modeFilterAllows flags 64 = false) ∧
    (flags.contains "ONLY64" = true → modeFilterAllows flags 32 = false) ∧
    (flags.contains "ONLY64" = false → modeFilterAllows flags 32 = true) ∧
    (flags.contains "ONLY32" = false → modeFilterAllows flags 64 = true) ∧
    (flags.contains "ONLY32" = false → flags.contains "ONLY64" = false →
      ∀ modes : List Nat, (∀ m ∈ modes, m = 32 ∨ m = 64) →
        insertedRootModes flags modes = modes) := by
  have h64 : ("ONLY" ++ toString (96 - 64 : Nat) : String) = "ONLY32" := rfl
  have h32 : ("ONLY" ++ toString (96 - 32 : Nat) : String) = "ONLY64" := rfl
  refine ⟨?_, ?_, ?_, ?_, ?_⟩
  · intro h
    simp only [modeFilterAllows, h64, Bool.not_eq_false]
    simpa using h
  · intro h
    simp only [modeFilterAllows, h32, Bool.not_eq_false]
    simpa using h
  · intro h
    simp only [modeFilterAllows, h32, Bool.not_eq_true]
    simpa using h
  · intro h
    simp only [modeFilterAllows, h64, Bool.not_eq_true]
    simpa using h
  · intro h1 h2 modes hm
    unfold insertedRootModes
    rw [List.filter_eq_self]
    intro m hmem
    rcases hm m hmem with rfl | rfl
    · simp only [modeFilterAllows, h32, Bool.not_eq_true]
      simpa using h2
    · simp only [modeFilterAllows, h64, Bool.not_eq_true]
      simpa using h1

/-- C7 (witness): the filter theorem applied to the flag set containing
exactly ONLY32 and to the empty flag set with both modes requested. -/
theorem c7_mode_filter_witness :
    modeFilterAllows ["ONLY32"] 64 = false ∧
    modeFilterAllows ["ONLY32"] 32 = true ∧
    insertedRootModes [] [32, 64] = [32, 64] := by
  refine ⟨(c7_mode_filter ["ONLY32"]).1 (by decide),
          (c7_mode_filter ["ONLY32"]).2.2.1 (by decide),
          (c7_mode_filter []).2.2.2.2 (by decide) (by decide) [32, 64] ?_⟩
  decide

theorem calcOffsets_foldl (data : List (String × TrieEntry)) :
    ∀ (acc : List (String × Nat)) (n : Nat),
      (data.foldl (fun (acc : List (String × Nat) × Nat) p =>
        (acc.1 ++ [(p.1, acc.2)], acc.2 + align4 p.2.encodeLength)) (acc, n)) =
      (acc ++ offsetsFrom n data, n + totalWords data) := by
  induction data with
  | nil => intro acc n; simp [totalWords, offsetsFrom]
  | cons p tl ih =>
    intro acc n
    simp only [List.foldl_cons]
    rw [ih]
    simp [totalWords, offsetsFrom, Nat.add_assoc]

theorem calcOffsets_eq (data : List (String × TrieEntry)) :
    calcOffsets data =
      if 0x8000 ≤ totalWords data then
        .error ("maximum table size exceeded: " ++ toString (totalWords data))
      else
        .ok (offsetsFrom 0 data) := by
  unfold calcOffsets
  rw [show (([], 0) : List (String × Nat) × Nat) = (([] : List (String × Nat)), (0 : Nat)) from rfl]
  rw [calcOffsets_foldl data [] 0]
  simp

/-- C3 (counterexample): a table whose serialized size is exactly 0x8000
bytes (64 tables of 256 slots, 16384 words) is laid out without any
error, although the claim requires a capacity error at 0x8000 bytes. -/
theorem c3_counterexample :
    (calcOffsets table64x256).isOk = true ∧ 2 * totalWords table64x256 = 0x8000 := by
  constructor
  · rfl
  · rfl

/-- C3 (amended): calc_offsets raises the capacity error exactly when the
total serialized size reaches 0x8000 sixteen-bit words, that is 0x10000
bytes; any node list totalling fewer than 0x8000 words is laid out
without error. -/
theorem c3_capacity_in_words (data : List (String × TrieEntry)) :
    (∃ e, calcOffsets data = .error e) ↔ 0x8000 ≤ totalWords data := by
  rw [calcOffsets_eq]
  by_cases h : 0x8000 ≤ totalWords data
  · simp [h]
  · simp [h]

/-- C3 (witness for the amended theorem): at the concrete 64-node table
the total is 16384 words, below 0x8000, and indeed no error is raised. -/
theorem c3_capacity_witness :
    ¬ (∃ e, calcOffsets table64x256 = .error e) :=
  fun hex => by
    have h := (c3_capacity_in_words table64x256).mp hex
    have : totalWords table64x256 = 16384 := by rfl
    omega

/-- C4 (counterexample): parsing the pattern c0/0+ does not succeed; the
source raises the invalid-opcode-extension error because the extended
marker demands a double-slash (72-kind) or absent ModRM extension. -/
theorem c4_counterexample :
    Opcode.parse "c0/0+" = .error "invalid opcode extension: c0/0+" := by
  rfl

/-- C4 (amended): c0/0+ is rejected with the invalid-opcode-extension
error, while the double-slash analogue c0//0+ parses and expands to
exactly eight paths whose TABLE72 bytes are the slots 0 through 7, all
paths otherwise identical (hence all carry the same record on
insertion). -/
theorem c4_extended_expansion :
    Opcode.parse "c0/0+" = .error "invalid opcode extension: c0/0+" ∧
    Opcode.parse "c0//0+" =
      .ok (some ⟨none, 0, 0xc0, some (true, 0), true, false, none, none⟩) ∧
    Opcode.forTrie ⟨none, 0, 0xc0, some (true, 0), true, false, none, none⟩ =
      (List.range 8).map (fun i =>
        [(EntryKind.TABLE_ROOT, 0), (EntryKind.TABLE256, 0xc0), (EntryKind.TABLE72, i)]) := by
  refine ⟨rfl, rfl, ?_⟩
  rfl

/-- C6 (counterexample): in VEX.NP.WIG.LIG.0f77 both VEX.L and VEX.W are
IG, yet the expansion yields a single path and no TABLE_VEX stage, not
four paths. -/
theorem c6_counterexample :
    Opcode.parse "VEX.NP.WIG.LIG.0f77" =
      .ok (some ⟨some (false, 0), 1, 0x77, none, false, true, some "IG", some "IG"⟩) ∧
    Opcode.forTrie ⟨some (false, 0), 1, 0x77, none, false, true, some "IG", some "IG"⟩ =
      [[(EntryKind.TABLE_ROOT, 5), (EntryKind.TABLE256, 0x77), (EntryKind.TABLE_PFX, 0)]] := by
  exact ⟨rfl, rfl⟩

/-- C6 (amended): when neither VEX.L nor VEX.W is a concrete bit (both
IG or absent), no TABLE_VEX stage is appended at all: the expansion
equals that of the same pattern with the L and W constraints dropped,
and no expanded path contains a TABLE_VEX entry; the path count is thus
multiplied by one, not four. -/
theorem extendLast_map_fst (l : List (EntryKind × List Nat)) :
    (extendLast l).map Prod.fst = l.map Prod.fst := by
  unfold extendLast
  cases h : l.getLast? with
  | none => rfl
  | some last =>
    have hne : l ≠ [] := by
      intro he; subst he; simp at h
    rw [List.getLast?_eq_getLast l hne] at h
    conv_rhs => rw [← List.dropLast_append_getLast hne]
    rw [List.map_append, List.map_append]
    injection h with h
    rw [h]
    simp

theorem stages_map_fst (o : Opcode) :
    o.stages.map Prod.fst =
      ([EntryKind.TABLE_ROOT, EntryKind.TABLE256] ++ o.opcextStage.map Prod.fst)
        ++ o.pfxStage.map Prod.fst ++ o.vexStage.map Prod.fst := by
  unfold Opcode.stages
  cases hex : o.extended with
  | false => simp
  | true => simp [extendLast_map_fst]

theorem c6_both_ig_no_vex_stage (c : Opcode)
    (hl0 : c.vexl ≠ some "0") (hl1 : c.vexl ≠ some "1")
    (hw0 : c.rexw ≠ some "0") (hw1 : c.rexw ≠ some "1") :
    c.forTrie = Opcode.forTrie { c with vexl := none, rexw := none } ∧
    ∀ p ∈ c.forTrie, ∀ kb ∈ p, Prod.fst kb ≠ EntryKind.TABLE_VEX := by
  have hguard : ¬ c.vexGuard := by
    unfold Opcode.vexGuard
    rintro (h | h | h | h) <;> simp_all
  have hguard2 : ¬ Opcode.vexGuard { c with vexl := none, rexw := none } := by
    unfold Opcode.vexGuard
    rintro (h | h | h | h) <;> simp_all
  have hvex : c.vexStage = [] := by
    unfold Opcode.vexStage
    simp [hguard]
  constructor
  · unfold Opcode.forTrie
    have : c.stages = Opcode.stages { c with vexl := none, rexw := none } := by
      unfold Opcode.stages Opcode.vexStage Opcode.opcextStage Opcode.pfxStage
      simp [hguard, hguard2]
    rw [this]
  · intro p hp kb hkb
    obtain ⟨vs, _, rfl⟩ := List.mem_map.mp hp
    have h1 := (List.of_mem_zip hkb).1
    rw [stages_map_fst, hvex] at h1
    simp only [List.map_nil, List.append_nil, List.mem_append, List.mem_cons,
      List.mem_singleton, List.mem_map] at h1
    rcases h1 with ((h | h | h) | ⟨st, hst, hfst⟩) | ⟨st, hst, hfst⟩
    · simp [h]
    · simp [h]
    · simp at h
    · revert hst
      unfold Opcode.opcextStage
      rcases c.opcext with _ | ⟨is72, v⟩
      · intro hst; simp at hst
      · intro hst
        simp only [List.mem_singleton] at hst
        subst hst
        rcases is72 with _ | _ <;> simp [← hfst]
    · revert hst
      unfold Opcode.pfxStage
      rcases c.pfx with _ | ⟨isRep, v⟩
      · intro hst; simp at hst
      · intro hst
        simp only [List.mem_singleton] at hst
        subst hst
        rcases isRep with _ | _ <;> simp [← hfst]

/-- C6 (witness): the amended theorem applied to the parsed form of
VEX.NP.WIG.LIG.0f77, whose expansion equals that of VEX.NP.0f77. -/
theorem c6_both_ig_witness :
    Opcode.forTrie ⟨some (false, 0), 1, 0x77, none, false, true, some "IG", some "IG"⟩ =
      Opcode.forTrie ⟨some (false, 0), 1, 0x77, none, false, true, none, none⟩ :=
  (c6_both_ig_no_vex_stage ⟨some (false, 0), 1, 0x77, none, false, true, some "IG", some "IG"⟩
    (by decide) (by decide) (by decide) (by decide)).1

theorem dedupScan_key_mem {k r : String} :
    ∀ (l : List (String × TrieEntry)) (seen : List (TrieEntry × String)),
      (k, r) ∈ dedupScan seen l → k ∈ l.map Prod.fst := by
  intro l
  induction l with
  | nil => intro seen h; simp [dedupScan] at h
  | cons p tl ih =>
    intro seen h
    rw [dedupScan] at h
    revert h
    cases seen.find? (fun q => q.1 == p.2) with
    | none =>
      intro h
      simp only [List.map_cons, List.mem_cons]
      exact Or.inr (ih _ h)
    | some q =>
      intro h
      rcases List.mem_cons.mp h with he | h
      · simp only [Prod.mk.injEq] at he
        simp [he.1]
      · simp only [List.map_cons, List.mem_cons]
        exact Or.inr (ih _ h)

theorem dedupScan_nil_distinct :
    ∀ (l : List (String × TrieEntry)) (seen : List (TrieEntry × String)),
      dedupScan seen l = [] →
      (l.map Prod.snd).Pairwise (fun a b => a ≠ b) ∧
      ∀ e ∈ l.map Prod.snd, ∀ q ∈ seen, q.1 ≠ e := by
  intro l
  induction l with
  | nil => intro seen _; simp
  | cons p tl ih =>
    intro seen h
    rw [dedupScan] at h
    revert h
    cases hf : seen.find? (fun q => q.1 == p.2) with
    | some q => intro h; cases h
    | none =>
      intro h
      obtain ⟨hpw, hseen⟩ := ih _ h
      have hfresh : ∀ q ∈ seen, q.1 ≠ p.2 := by
        intro q hq
        have := List.find?_eq_none.mp hf q hq
        simpa using this
      constructor
      · simp only [List.map_cons, List.pairwise_cons]
        refine ⟨?_, hpw⟩
        intro e he
        have := hseen e he (p.2, p.1) (by simp)
        exact this
      · intro e he q hq
        rcases List.mem_cons.mp he with rfl | he
        · exact hfresh q hq
        · exact hseen e he q (List.mem_append_left _ hq)

theorem mapItems_encodeLength (e : TrieEntry) (f : Nat → Option String → Option String) :
    (e.mapItems f).encodeLength = e.encodeLength := by
  simp [TrieEntry.mapItems, TrieEntry.encodeLength, List.length_mapIdx]

theorem totalWords_filter_le (p : String × TrieEntry → Bool) (l : List (String × TrieEntry)) :
    totalWords (l.filter p) ≤ totalWords l := by
  induction l with
  | nil => simp
  | cons x tl ih =>
    rw [List.filter_cons]
    by_cases hx : p x = true
    · simp only [hx, if_pos]
      simp only [totalWords, List.map_cons, List.sum_cons] at ih ⊢
      omega
    · simp only [hx, if_neg, Bool.false_eq_true, not_false_iff]
      simp only [totalWords, List.map_cons, List.sum_cons] at ih ⊢
      omega

/-- C9 helper: one pass never increases the node count. -/
theorem dedupPass_length_le (data : List (String × TrieEntry)) :
    (dedupPass data).2.length ≤ data.length := by
  unfold dedupPass
  calc (List.filter _ (List.map _ data)).length
      ≤ (List.map _ data).length := List.length_filter_le _ _
    _ = data.length := List.length_map _ _

/-- C9 helper: one pass never increases the total serialized size. -/
theorem dedupPass_totalWords_le (data : List (String × TrieEntry)) :
    totalWords (dedupPass data).2 ≤ totalWords data := by
  unfold dedupPass
  refine le_trans (totalWords_filter_le _ _) (le_of_eq ?_)
  unfold totalWords
  rw [List.map_map]
  congr 1
  apply List.map_congr_left
  intro p _
  simp [mapItems_encodeLength]

theorem optionEta (v : Option String) :
    (match v with | some s => some s | none => none) = v := by
  cases v <;> rfl

theorem mapIdx_id_option (l : List (Option String)) :
    (l.mapIdx fun _ v => match v with | some s => some s | none => none) = l := by
  induction l with
  | nil => rfl
  | cons x tl ih =>
    rw [List.mapIdx_cons]
    rw [optionEta]
    exact congrArg (x :: ·) ih

theorem dedupPass_syn_nil_snd (data : List (String × TrieEntry))
    (h : (dedupPass data).1 = []) : (dedupPass data).2 = data := by
  have hsyn : dedupScan [] data = [] := h
  unfold dedupPass
  rw [hsyn]
  simp only [List.any_nil, Bool.not_false, List.filter_true]
  refine (List.map_congr_left ?_).trans (List.map_id data)
  intro p _
  rcases p with ⟨n, e⟩
  rcases e with ⟨kind, items, payload⟩
  simp only [id]
  congr 1
  show TrieEntry.mapItems ⟨kind, items, payload⟩ _ = TrieEntry.mk kind items payload
  simp only [TrieEntry.mapItems]
  congr 1
  exact mapIdx_id_option items

theorem dedupPass_syn_cons_lt (data : List (String × TrieEntry))
    (h : (dedupPass data).1 ≠ []) : (dedupPass data).2.length < data.length := by
  obtain ⟨⟨k, r⟩, tl, htl⟩ : ∃ x xs, (dedupPass data).1 = x :: xs := by
    rcases hc : (dedupPass data).1 with _ | ⟨x, xs⟩
    · exact absurd hc h
    · exact ⟨x, xs, rfl⟩
  have hk : k ∈ data.map Prod.fst := by
    apply dedupScan_key_mem data []
    show (k, r) ∈ (dedupPass data).1
    rw [htl]
    exact List.mem_cons_self _ _
  obtain ⟨p, hp, hpk⟩ := List.mem_map.mp hk
  unfold dedupPass
  have hlt : (List.filter (fun q => !((dedupScan [] data).any (fun w => w.1 == q.1)))
      (data.map (fun p => (p.1, p.2.mapItems (fun _ v =>
        match v with
        | some s => some ((((dedupScan [] data).find? (fun q => q.1 == s)).map (fun q => q.2)).getD s)
        | none => none))))).length <
      (data.map (fun p => (p.1, p.2.mapItems (fun _ v =>
        match v with
        | some s => some ((((dedupScan [] data).find? (fun q => q.1 == s)).map (fun q => q.2)).getD s)
        | none => none)))).length := by
    apply List.length_filter_lt_length_iff_exists.mpr
    refine ⟨(p.1, p.2.mapItems _), List.mem_map_of_mem _ hp, ?_⟩
    have hany : (dedupScan [] data).any (fun w => w.1 == p.1) = true := by
      apply List.any_eq_true.mpr
      refine ⟨(k, r), ?_, by simp [hpk]⟩
      show (k, r) ∈ (dedupPass data).1
      rw [htl]
      exact List.mem_cons_self _ _
    simp [hany]
  calc (dedupPass data).2.length < (data.map _).length := hlt
    _ = data.length := List.length_map _ _

/-- C9 helper: the loop guard of the source (nonempty synonym map) is
equivalent to the strict length decrease used to define deduplicate. -/
theorem dedupPass_nonempty_iff (data : List (String × TrieEntry)) :
    (dedupPass data).1 = [] ↔ ¬ ((dedupPass data).2.length < data.length) := by
  constructor
  · intro h
    rw [dedupPass_syn_nil_snd data h]
    omega
  · intro h
    by_contra hne
    exact h (dedupPass_syn_cons_lt data hne)

/-- C9 helper: the result of deduplicate is a fixpoint: a further pass
finds no synonyms and leaves the data unchanged. -/
theorem deduplicate_fixpoint (data : List (String × TrieEntry)) :
    (dedupPass (deduplicate data)).1 = [] ∧
    (dedupPass (deduplicate data)).2 = deduplicate data := by
  induction data using deduplicate.induct with
  | case1 data next hlt ih =>
    rw [deduplicate]
    simp only [next] at hlt
    rw [dif_pos hlt]
    exact ih
  | case2 data next hlt =>
    rw [deduplicate]
    simp only [next] at hlt
    rw [dif_neg hlt]
    have hnil : (dedupPass data).1 = [] := (dedupPass_nonempty_iff data).mpr hlt
    exact ⟨hnil, dedupPass_syn_nil_snd data hnil⟩

/-- C9: each deduplication pass merges structurally equal nodes into the
first-seen representative so the node count and the total serialized
size are non-increasing across passes, and the loop terminates at a
fixpoint in which no two distinct surviving nodes are structurally
equal (and a further pass changes nothing). -/
theorem c9_deduplicate (data : List (String × TrieEntry)) :
    (dedupPass data).2.length ≤ data.length ∧
    totalWords (dedupPass data).2 ≤ totalWords data ∧
    (dedupPass (deduplicate data)).2 = deduplicate data ∧
    ((deduplicate data).map Prod.snd).Pairwise (fun a b => a ≠ b) := by
  refine ⟨dedupPass_length_le data, dedupPass_totalWords_le data,
    (deduplicate_fixpoint data).2, ?_⟩
  have hnil : dedupScan [] (deduplicate data) = [] := (deduplicate_fixpoint data).1
  exact (dedupScan_nil_distinct (deduplicate data) [] hnil).1

/-- C9 (witness): the bundle applied to the concrete two-entry data list
with equal INSTR entries, which deduplicates to a single entry. -/
theorem c9_deduplicate_witness :
    deduplicate [("a", TrieEntry.instr [PWord.num 7]), ("b", TrieEntry.instr [PWord.num 7])] =
      [("a", TrieEntry.instr [PWord.num 7])] ∧
    ((deduplicate [("a", TrieEntry.instr [PWord.num 7]),
        ("b", TrieEntry.instr [PWord.num 7])]).map Prod.snd).Pairwise (fun a b => a ≠ b) := by
  constructor
  · have step1 : deduplicate [("a", TrieEntry.instr [PWord.num 7]),
        ("b", TrieEntry.instr [PWord.num 7])] =
        deduplicate [("a", TrieEntry.instr [PWord.num 7])] := by
      rw [deduplicate]
      exact dif_pos (by decide)
    have step2 : deduplicate [("a", TrieEntry.instr [PWord.num 7])] =
        [("a", TrieEntry.instr [PWord.num 7])] := by
      rw [deduplicate]
      exact dif_neg (by decide)
    rw [step1, step2]
  · exact (c9_deduplicate [("a", TrieEntry.instr [PWord.num 7]),
      ("b", TrieEntry.instr [PWord.num 7])]).2.2.2

theorem align4_ge (n : Nat) : n ≤ align4 n := by
  unfold align4
  omega

theorem exceptBind_ok {α β : Type} {x : Except String α} {f : α → Except String β} {b : β}
    (h : (x >>= f) = .ok b) : ∃ a, x = .ok a ∧ f a = .ok b := by
  cases x with
  | error e => simp [Bind.bind, Except.bind] at h
  | ok a =>
    refine ⟨a, rfl, ?_⟩
    simpa [Bind.bind, Except.bind] using h

theorem mapM_ok_forallTwo {α β : Type} (f : α → Except String β) :
    ∀ (l : List α) (res : List β), l.mapM f = .ok res →
      List.Forall₂ (fun a b => f a = .ok b) l res := by
  intro l
  induction l with
  | nil =>
    intro res h
    rw [List.mapM_nil] at h
    have : ([] : List β) = res := by simpa [pure, Except.pure] using h
    rw [← this]
    exact List.Forall₂.nil
  | cons a tl ih =>
    intro res h
    rw [List.mapM_cons] at h
    obtain ⟨b, hb, h2⟩ := exceptBind_ok h
    obtain ⟨bs, hbs, h3⟩ := exceptBind_ok h2
    have : b :: bs = res := by simpa [pure, Except.pure] using h3
    rw [← this]
    exact List.Forall₂.cons hb (ih bs hbs)

theorem encodeM_length (e : TrieEntry) (f : String → Except String Int) (ws : List PWord)
    (h : e.encodeM f = .ok ws) : ws.length = e.encodeLength := by
  unfold TrieEntry.encodeM at h
  obtain ⟨ws1, hws1, h2⟩ := exceptBind_ok h
  have hws : e.payload ++ ws1 = ws := by simpa [pure, Except.pure] using h2
  have hlen := (mapM_ok_forallTwo _ _ _ hws1).length_eq
  rw [← hws]
  simp [TrieEntry.encodeLength]
  omega

theorem dictGet_of_mem_nodup :
    ∀ (data : List (String × TrieEntry)) (n : String) (e : TrieEntry),
      (data.map Prod.fst).Nodup → (n, e) ∈ data → dictGet data n = some e := by
  intro data
  induction data with
  | nil => intro n e _ h; cases h
  | cons p tl ih =>
    intro n e hnd hmem
    rw [List.map_cons, List.nodup_cons] at hnd
    rcases List.mem_cons.mp hmem with he | hmem2
    · obtain ⟨pn, pe⟩ := p
      injection he.symm with h1 h2
      subst h1
      subst h2
      simp [dictGet]
    · have hne : p.1 ≠ n := by
        intro heq
        apply hnd.1
        rw [heq]
        exact List.mem_map_of_mem Prod.fst hmem2
      have htl := ih n e hnd.2 hmem2
      unfold dictGet at htl ⊢
      rw [List.find?_cons_of_neg _ (by simp [hne])]
      exact htl

theorem orderedZero_eq (data : List (String × TrieEntry)) :
    ∀ (sub : List (String × TrieEntry)) (n0 : Nat),
      (∀ q ∈ sub, dictGet data (Prod.fst q) = some (Prod.snd q)) →
      (offsetsFrom n0 sub).mapM (fun p =>
        match dictGet data p.1 with
        | some e => Except.ok (p.2, e)
        | none => Except.error "KeyError: compile entry") = .ok (offEntries n0 sub) := by
  intro sub
  induction sub with
  | nil => intro n0 _; rfl
  | cons p tl ih =>
    intro n0 hsub
    rw [offsetsFrom, offEntries, List.mapM_cons]
    rw [hsub p (List.mem_cons_self _ _)]
    rw [ih (n0 + align4 p.2.encodeLength) (fun q hq => hsub q (List.mem_cons_of_mem _ hq))]
    rfl

theorem offEntries_head :
    ∀ (sub : List (String × TrieEntry)) (n0 : Nat) (y : Nat × TrieEntry),
      y ∈ (offEntries n0 sub).head? → Prod.fst y = n0 := by
  intro sub n0 y h
  cases sub with
  | nil => cases h
  | cons p tl =>
    rw [offEntries] at h
    simp only [List.head?_cons, Option.mem_def, Option.some.injEq] at h
    rw [← h]

theorem offEntries_chain_le :
    ∀ (sub : List (String × TrieEntry)) (n0 : Nat),
      List.Chain' (fun a b => Prod.fst a ≤ Prod.fst b) (offEntries n0 sub) := by
  intro sub
  induction sub with
  | nil => intro n0; exact List.chain'_nil
  | cons p tl ih =>
    intro n0
    rw [offEntries]
    rw [List.chain'_cons']
    refine ⟨?_, ih _⟩
    intro y hy
    rw [offEntries_head tl _ y hy]
    omega

theorem offEntries_chain_gap :
    ∀ (sub : List (String × TrieEntry)) (n0 : Nat),
      List.Chain' (fun a b => Prod.fst a + align4 (Prod.snd a).encodeLength ≤ Prod.fst b)
        (offEntries n0 sub) := by
  intro sub
  induction sub with
  | nil => intro n0; exact List.chain'_nil
  | cons p tl ih =>
    intro n0
    rw [offEntries]
    rw [List.chain'_cons']
    refine ⟨?_, ih _⟩
    intro y hy
    rw [offEntries_head tl _ y hy]

theorem insertByFst_front (x : Nat × TrieEntry) (l : List (Nat × TrieEntry))
    (h : ∀ y ∈ l.head?, Prod.fst x ≤ Prod.fst y) : insertByFst x l = x :: l := by
  cases l with
  | nil => rfl
  | cons y ys =>
    rw [insertByFst]
    rw [if_pos (h y rfl)]

theorem sortByFst_sorted_id :
    ∀ l : List (Nat × TrieEntry),
      List.Chain' (fun a b => Prod.fst a ≤ Prod.fst b) l → sortByFst l = l := by
  intro l
  induction l with
  | nil => intro _; rfl
  | cons x xs ih =>
    intro hch
    obtain ⟨hhead, htl⟩ := List.chain'_cons'.mp hch
    show insertByFst x (sortByFst xs) = x :: xs
    rw [ih htl]
    exact insertByFst_front x xs hhead

theorem compile_fold_placement (f : String → Except String Int) :
    ∀ (ordered : List (Nat × TrieEntry)) (acc blob : List PWord),
      ordered.foldlM (fun (acc : List PWord) oe => do
        let ws ← oe.2.encodeM f
        pure (acc ++ List.replicate (oe.1 - acc.length) (PWord.num 0) ++ ws)) acc = .ok blob →
      List.Chain' (fun a b => Prod.fst a + align4 (Prod.snd a).encodeLength ≤ Prod.fst b) ordered →
      (∀ y ∈ ordered.head?, acc.length ≤ Prod.fst y) →
      (∃ rest, blob = acc ++ rest) ∧
      ∀ oe ∈ ordered, ∃ ws, (Prod.snd oe).encodeM f = .ok ws ∧
        (blob.drop (Prod.fst oe)).take ws.length = ws := by
  intro ordered
  induction ordered with
  | nil =>
    intro acc blob h _ _
    have hacc : acc = blob := by simpa [List.foldlM, pure, Except.pure] using h
    exact ⟨⟨[], by simp [hacc]⟩, by intro oe hoe; cases hoe⟩
  | cons oe tl ih =>
    intro acc blob h hchain hhead
    rw [List.foldlM_cons] at h
    obtain ⟨acc1, hacc1, h2⟩ := exceptBind_ok h
    obtain ⟨ws, hws, hpure⟩ := exceptBind_ok hacc1
    have hacc1eq : acc1 = acc ++ List.replicate (oe.1 - acc.length) (PWord.num 0) ++ ws := by
      simpa [pure, Except.pure] using hpure.symm
    have hlenacc : acc.length ≤ oe.1 := hhead oe rfl
    have hwslen : ws.length = oe.2.encodeLength := encodeM_length _ _ _ hws
    have hpadlen : (acc ++ List.replicate (oe.1 - acc.length) (PWord.num 0)).length = oe.1 := by
      rw [List.length_append, List.length_replicate]
      omega
    have hacc1len : acc1.length = oe.1 + ws.length := by
      rw [hacc1eq, List.length_append, hpadlen]
    obtain ⟨hgap, hchtl⟩ := List.chain'_cons'.mp hchain
    have hheadtl : ∀ y ∈ tl.head?, acc1.length ≤ Prod.fst y := by
      intro y hy
      have hg := hgap y hy
      have h4 := align4_ge oe.2.encodeLength
      omega
    obtain ⟨⟨rest, hrest⟩, htail⟩ := ih acc1 blob h2 hchtl hheadtl
    constructor
    · refine ⟨List.replicate (oe.1 - acc.length) (PWord.num 0) ++ ws ++ rest, ?_⟩
      rw [hrest, hacc1eq]
      simp [List.append_assoc]
    · intro x hx
      rcases List.mem_cons.mp hx with rfl | hx2
      · refine ⟨ws, hws, ?_⟩
        have hshape : blob = (acc ++ List.replicate (x.1 - acc.length) (PWord.num 0)) ++ (ws ++ rest) := by
          rw [hrest, hacc1eq]
          simp [List.append_assoc]
        rw [hshape]
        have hdrop := List.drop_left (acc ++ List.replicate (x.1 - acc.length) (PWord.num 0)) (ws ++ rest)
        rw [hpadlen] at hdrop
        rw [hdrop, List.take_left]
      · exact htail x hx2

/-- C2 (counterexample): with two requested modes the compiler emits the
root-offset constants 0 and 8; the second root node is serialized
starting at 16-bit word index 8 of the blob, so its byte offset is 16,
not the emitted 8, refuting the claim that the constant is a byte
offset. -/
theorem c2_counterexample :
    Table.compile (Table.init 2) = .ok (List.replicate 16 (PWord.num 0), [0, 8]) ∧
    offsetsLookup (offsetsFrom 0 (Table.init 2).data) "root1" = some 8 ∧
    ((List.replicate 16 (PWord.num 0) : List PWord).drop 8).take 8 =
      List.replicate 8 (PWord.num 0) ∧
    (8 : Nat) ≠ 2 * 8 := by
  refine ⟨rfl, rfl, rfl, by decide⟩

/-- C2 (amended): for every table whose compilation succeeds (node names
distinct, all nodes of positive size), the emitted root-offset constants
are exactly the per-root values of calc_offsets, which are indices in
16-bit WORDS into the table-data blob: every node, in particular every
root, has its serialization placed at word index equal to its offset
value, so the byte offset of a root is twice the emitted constant, not
equal to it. -/
theorem c2_root_offsets_are_word_indices (t : Table) (blob : List PWord) (roffs : List Nat)
    (ht : t.compile = .ok (blob, roffs))
    (hnodup : (t.data.map Prod.fst).Nodup)
    (hpos : ∀ p ∈ t.data, 0 < (Prod.snd p).encodeLength) :
    calcOffsets t.data = .ok (offsetsFrom 0 t.data) ∧
    List.Forall₂ (fun r o => offsetsLookup (offsetsFrom 0 t.data) r = some o) t.roots roffs ∧
    ∀ q ∈ offEntries 0 t.data,
      ∃ ws, (Prod.snd q).encodeM (encodeItemFn (offsetsFrom 0 t.data) t.data) = .ok ws ∧
        ws.length = (Prod.snd q).encodeLength ∧
        (blob.drop (Prod.fst q)).take ws.length = ws := by
  have hmemget : ∀ q ∈ t.data, dictGet t.data (Prod.fst q) = some (Prod.snd q) := by
    intro q hq
    exact dictGet_of_mem_nodup t.data q.1 q.2 hnodup hq
  unfold Table.compile at ht
  obtain ⟨offs, hoffs, ht2⟩ := exceptBind_ok ht
  have hoffsval : offs = offsetsFrom 0 t.data := by
    rw [calcOffsets_eq] at hoffs
    by_cases hcap : 0x8000 ≤ totalWords t.data
    · rw [if_pos hcap] at hoffs; cases hoffs
    · rw [if_neg hcap] at hoffs
      injection hoffs with hoffs
      exact hoffs.symm
  subst hoffsval
  have hok : calcOffsets t.data = .ok (offsetsFrom 0 t.data) := by
    rw [calcOffsets_eq] at hoffs ⊢
    exact hoffs
  obtain ⟨ordered0, hord0, ht3⟩ := exceptBind_ok ht2
  have hord0val : ordered0 = offEntries 0 t.data := by
    have := orderedZero_eq t.data t.data 0 hmemget
    rw [this] at hord0
    injection hord0 with h
    exact h.symm
  subst hord0val
  obtain ⟨blob1, hblob1, ht4⟩ := exceptBind_ok ht3
  obtain ⟨roffs1, hroffs1, ht5⟩ := exceptBind_ok ht4
  have hfinal : (blob1, roffs1) = (blob, roffs) := by
    simpa [pure, Except.pure] using ht5
  injection hfinal with hb hr
  subst hb
  subst hr
  have hsort : sortByFst (offEntries 0 t.data) = offEntries 0 t.data :=
    sortByFst_sorted_id _ (offEntries_chain_le t.data 0)
  rw [hsort] at hblob1
  obtain ⟨_, hplace⟩ := compile_fold_placement (encodeItemFn (offsetsFrom 0 t.data) t.data)
    (offEntries 0 t.data) [] _ hblob1 (offEntries_chain_gap t.data 0)
    (by intro y _; exact Nat.zero_le _)
  refine ⟨hok, ?_, ?_⟩
  · have hfa := mapM_ok_forallTwo _ t.roots _ hroffs1
    refine hfa.imp ?_
    intro r o hro
    revert hro
    cases hlook : offsetsLookup (offsetsFrom 0 t.data) r with
    | none => intro hro; cases hro
    | some o2 =>
      intro hro
      injection hro with h
      rw [h]
  · intro q hq
    obtain ⟨ws, hws, hseg⟩ := hplace q hq
    exact ⟨ws, hws, encodeM_length _ _ _ hws, hseg⟩

/-- C2 (witness): the amended theorem applied to the fresh two-root
table: constants [0, 8], the second root placed at word index 8. -/
theorem c2_witness :
    calcOffsets (Table.init 2).data = .ok (offsetsFrom 0 (Table.init 2).data) ∧
    List.Forall₂ (fun r o => offsetsLookup (offsetsFrom 0 (Table.init 2).data) r = some o)
      (Table.init 2).roots [0, 8] ∧
    ∀ q ∈ offEntries 0 (Table.init 2).data,
      ∃ ws, (Prod.snd q).encodeM
          (encodeItemFn (offsetsFrom 0 (Table.init 2).data) (Table.init 2).data) = .ok ws ∧
        ws.length = (Prod.snd q).encodeLength ∧
        ((List.replicate 16 (PWord.num 0) : List PWord).drop (Prod.fst q)).take ws.length = ws :=
  c2_root_offsets_are_word_indices (Table.init 2) (List.replicate 16 (PWord.num 0)) [0, 8]
    rfl (by decide) (by decide)

theorem dictGet_dictSet_self (d : List (String × TrieEntry)) (k : String) (v : TrieEntry) :
    dictGet (dictSet d k v) k = some v := by
  induction d with
  | nil => simp [dictSet, dictGet]
  | cons p tl ih =>
    rw [dictSet]
    by_cases h : p.1 = k
    · rw [if_pos (by simp [h])]
      simp [dictGet]
    · rw [if_neg (by simp [h])]
      unfold dictGet at ih ⊢
      rw [List.find?_cons_of_neg _ (by simp [h])]
      exact ih

theorem dictGet_dictSet_ne (d : List (String × TrieEntry)) (k : String) (v : TrieEntry)
    (k2 : String) (h : k2 ≠ k) : dictGet (dictSet d k v) k2 = dictGet d k2 := by
  induction d with
  | nil =>
    show dictGet [(k, v)] k2 = dictGet [] k2
    unfold dictGet
    rw [List.find?_cons_of_neg _ (by simp [Ne.symm h])]
  | cons p tl ih =>
    rw [dictSet]
    by_cases hp : p.1 = k
    · rw [if_pos (by simp [hp])]
      unfold dictGet
      rw [List.find?_cons_of_neg _ (by simp [Ne.symm h]), List.find?_cons_of_neg _ (by simp [hp, Ne.symm h])]
    · rw [if_neg (by simp [hp])]
      by_cases hpk : p.1 = k2
      · unfold dictGet
        rw [List.find?_cons_of_pos _ (by simp [hpk]), List.find?_cons_of_pos _ (by simp [hpk])]
      · unfold dictGet at ih ⊢
        rw [List.find?_cons_of_neg _ (by simp [hpk]), List.find?_cons_of_neg _ (by simp [hpk])]
        exact ih

theorem mem_dictSet (d : List (String × TrieEntry)) (k : String) (v : TrieEntry) :
    ∀ q ∈ dictSet d k v, q = (k, v) ∨ q ∈ d := by
  induction d with
  | nil =>
    intro q hq
    simp [dictSet] at hq
    exact Or.inl hq
  | cons p tl ih =>
    intro q hq
    rw [dictSet] at hq
    by_cases hp : p.1 = k
    · rw [if_pos (by simp [hp])] at hq
      rcases List.mem_cons.mp hq with h | h
      · exact Or.inl h
      · exact Or.inr (List.mem_cons_of_mem _ h)
    · rw [if_neg (by simp [hp])] at hq
      rcases List.mem_cons.mp hq with h | h
      · exact Or.inr (by rw [h]; exact List.mem_cons_self _ _)
      · rcases ih q h with h2 | h2
        · exact Or.inl h2
        · exact Or.inr (List.mem_cons_of_mem _ h2)

theorem dictGet_isSome_dictSet (d : List (String × TrieEntry)) (k : String) (v : TrieEntry)
    (s : String) (h : (dictGet d s).isSome) : (dictGet (dictSet d k v) s).isSome := by
  by_cases hs : s = k
  · rw [hs, dictGet_dictSet_self]
    rfl
  · rw [dictGet_dictSet_ne d k v s hs]
    exact h

theorem update_items_length (e : TrieEntry) (idx : Nat) (nv : Option String) :
    (e.update idx nv).items.length = e.items.length := by
  simp [TrieEntry.update, TrieEntry.mapItems, List.length_mapIdx]

theorem update_kind (e : TrieEntry) (idx : Nat) (nv : Option String) :
    (e.update idx nv).kind = e.kind := rfl

theorem getQ_mapIdx {α β : Type} (f : Nat → α → β) :
    ∀ (l : List α) (n : Nat), (l.mapIdx f)[n]? = (l[n]?).map (f n) := by
  intro l
  induction l generalizing f with
  | nil => intro n; simp
  | cons x tl ih =>
    intro n
    rw [List.mapIdx_cons]
    cases n with
    | zero => simp
    | succ m =>
      simp only [List.getElem?_cons_succ]
      exact ih _ m

theorem update_get?_self (e : TrieEntry) (idx : Nat) (nv : Option String)
    (h : idx < e.items.length) :
    (e.update idx nv).items[idx]? = some nv := by
  simp only [TrieEntry.update, TrieEntry.mapItems]
  rw [getQ_mapIdx]
  rw [List.getElem?_eq_getElem h]
  simp

theorem update_get?_ne (e : TrieEntry) (idx : Nat) (nv : Option String) (j : Nat)
    (h : j ≠ idx) :
    (e.update idx nv).items[j]? = e.items[j]? := by
  simp only [TrieEntry.update, TrieEntry.mapItems]
  rw [getQ_mapIdx]
  cases hj : e.items[j]? with
  | none => rfl
  | some v =>
    show some (if j = idx then nv else v) = some v
    rw [if_neg h]

theorem update_mem_items (e : TrieEntry) (idx : Nat) (nv : Option String) :
    ∀ s, s ∈ (e.update idx nv).items → s = nv ∨ s ∈ e.items := by
  intro s hs
  obtain ⟨n, hn⟩ := List.mem_iff_getElem?.mp hs
  by_cases h : n = idx
  · subst h
    by_cases hlt : n < e.items.length
    · rw [update_get?_self e n nv hlt] at hn
      exact Or.inl (by injection hn with h; exact h.symm)
    · exfalso
      apply hlt
      have hlen : n < (e.update n nv).items.length := by
        by_contra hge
        rw [List.getElem?_eq_none (by omega)] at hn
        cases hn
      rw [update_items_length] at hlen
      exact hlen
  · rw [update_get?_ne e idx nv n h] at hn
    exact Or.inr (List.mem_iff_getElem?.mpr ⟨n, hn⟩)

theorem format_foldlM_ok (p : List (EntryKind × Nat)) (h : ∀ kb ∈ p, stageFormatOk kb = true) :
    ∀ acc : String × String, ∃ r, p.foldlM (fun (acc : String × String) (kb : EntryKind × Nat) =>
      match kb.1 with
      | .TABLE_ROOT =>
        match (["", "VEX."] : List String).get? (kb.2 >>> 2) with
        | some v => Except.ok (acc.1 ++ v, acc.2 ++ (["", "0f", "0f38", "0f3a"] : List String).getD (kb.2 % 4) "")
        | none => Except.error "IndexError: root byte"
      | .TABLE256 => .ok (acc.1, acc.2 ++ hex2 kb.2)
      | .TABLE8 => .ok (acc.1, acc.2 ++ "/" ++ hex1 kb.2)
      | .TABLE72 => .ok (acc.1, acc.2 ++ "/" ++ hex1 kb.2)
      | .TABLE_PFX =>
        let p := if kb.2 &&& 4 ≠ 0 then acc.1 ++ "VEX." else acc.1
        .ok (p ++ (["NP.", "66.", "F3.", "F2."] : List String).getD (kb.2 % 4) "", acc.2)
      | .TABLE_PFX_REP =>
        .ok (acc.1 ++ (["RNP.", "??.", "RF3.", "RF2."] : List String).getD (kb.2 % 4) "", acc.2)
      | .TABLE_VEX =>
        .ok (acc.1 ++ "W" ++ toString (kb.2 % 2) ++ ".L" ++ toString (kb.2 >>> 1) ++ ".", acc.2)
      | _ => .error "unsupported opcode kind") acc = .ok r := by
  induction p with
  | nil => intro acc; exact ⟨acc, rfl⟩
  | cons kb tl ih =>
    intro acc
    have hkb := h kb (List.mem_cons_self _ _)
    have htl : ∀ x ∈ tl, stageFormatOk x = true := fun x hx => h x (List.mem_cons_of_mem _ hx)
    rw [List.foldlM_cons]
    rcases kb with ⟨k, b⟩
    cases k with
    | TABLE_ROOT =>
      have hb : b < 8 := by simpa [stageFormatOk] using hkb
      have hsh : b >>> 2 = 0 ∨ b >>> 2 = 1 := by
        rw [Nat.shiftRight_eq_div_pow]
        omega
      rcases hsh with hsh | hsh
      · simp only [hsh]
        obtain ⟨r2, hr2⟩ := ih htl
          (acc.1 ++ "", acc.2 ++ (["", "0f", "0f38", "0f3a"] : List String).getD (b % 4) "")
        exact ⟨r2, hr2⟩
      · simp only [hsh]
        obtain ⟨r2, hr2⟩ := ih htl
          (acc.1 ++ "VEX.", acc.2 ++ (["", "0f", "0f38", "0f3a"] : List String).getD (b % 4) "")
        exact ⟨r2, hr2⟩
    | TABLE256 =>
      obtain ⟨r2, hr2⟩ := ih htl _
      exact ⟨r2, hr2⟩
    | TABLE8 =>
      obtain ⟨r2, hr2⟩ := ih htl _
      exact ⟨r2, hr2⟩
    | TABLE72 =>
      obtain ⟨r2, hr2⟩ := ih htl _
      exact ⟨r2, hr2⟩
    | TABLE_PFX =>
      obtain ⟨r2, hr2⟩ := ih htl _
      exact ⟨r2, hr2⟩
    | TABLE_PFX_REP =>
      obtain ⟨r2, hr2⟩ := ih htl _
      exact ⟨r2, hr2⟩
    | TABLE_VEX =>
      obtain ⟨r2, hr2⟩ := ih htl _
      exact ⟨r2, hr2⟩
    | INSTR => simp [stageFormatOk] at hkb
    | NONE => simp [stageFormatOk] at hkb

theorem format_opcode_ok (p : List (EntryKind × Nat)) (h : ∀ kb ∈ p, stageFormatOk kb = true) :
    ∃ s, format_opcode p = .ok s := by
  unfold format_opcode
  obtain ⟨r, hr⟩ := format_foldlM_ok p h ("", "")
  rw [hr]
  exact ⟨r.1 ++ r.2, rfl⟩

theorem tableName_ok (rootIdx : Nat) (p : List (EntryKind × Nat))
    (h : ∀ kb ∈ p, stageFormatOk kb = true) :
    ∃ nm, tableName rootIdx p = .ok nm := by
  obtain ⟨s, hs⟩ := format_opcode_ok p h
  refine ⟨"t" ++ toString rootIdx ++ "," ++ s, ?_⟩
  unfold tableName
  rw [hs]
  rfl

theorem exceptBindOkEq {α β : Type} (a : α) (f : α → Except String β) :
    (Except.ok a >>= f) = f a := rfl

theorem dictGet_mem (d : List (String × TrieEntry)) (k : String) (v : TrieEntry)
    (h : dictGet d k = some v) : (k, v) ∈ d := by
  unfold dictGet at h
  cases hf : d.find? (fun p => p.1 == k) with
  | none => rw [hf] at h; cases h
  | some q =>
    rw [hf] at h
    injection h with h
    have hm := List.mem_of_find?_eq_some hf
    have hp := List.find?_some hf
    rcases q with ⟨q1, q2⟩
    simp only [beq_iff_eq] at hp
    simp only at h
    rw [← hp, ← h]
    exact hm

theorem drop_cons_succ {α : Type} {l : List α} {n : Nat} {x : α} {xs : List α}
    (h : l.drop n = x :: xs) : l.drop (n + 1) = xs := by
  have h2 := List.drop_drop 1 n l
  rw [h] at h2
  exact h2.symm

theorem replicate_get?_none {n m : Nat} {x : Option String}
    (h : (List.replicate n (none : Option String))[m]? = some x) : x = none := by
  have := List.mem_iff_getElem?.mpr ⟨m, h⟩
  exact List.eq_of_mem_replicate this

theorem updateTable_ok_shape (t : Table) (name : String) (idx : Nat) (entryName : String)
    (entryVal : TrieEntry) (e : TrieEntry)
    (he : dictGet t.data name = some e)
    (hslot : e.items[idx]? = some none)
    (hne : entryName ≠ name) :
    t.updateTable name idx entryName entryVal =
      .ok { t with data := dictSet (dictSet t.data entryName entryVal) name (e.update idx (some entryName)) } := by
  simp only [Table.updateTable, he, hslot]
  rw [dictGet_dictSet_ne t.data entryName entryVal name (Ne.symm hne), he]

theorem updateTable_occupied (t : Table) (name : String) (idx : Nat) (entryName : String)
    (entryVal : TrieEntry) (e : TrieEntry) (s : String)
    (he : dictGet t.data name = some e)
    (hslot : e.items[idx]? = some (some s)) :
    t.updateTable name idx entryName entryVal =
      .error (name ++ "/" ++ toString idx ++ " set, not overriding to " ++ entryName) := by
  simp only [Table.updateTable, he, hslot]

theorem fresh_no_conflict (t : Table) (tn : String) (k : EntryKind)
    (he : dictGet t.data tn = some (TrieEntry.table k)) :
    ∀ (suffix : List (EntryKind × Nat)), suffix ≠ [] →
      interiorConflict t tn suffix = false ∧ hasConflict t tn suffix = false := by
  intro suffix hne
  have hslot : ∀ (m : Nat) (x : Option String),
      (TrieEntry.table k).items[m]? = some x → x = none := by
    intro m x hx
    exact replicate_get?_none hx
  match suffix with
  | [] => exact absurd rfl hne
  | [cur] =>
    refine ⟨rfl, ?_⟩
    rw [hasConflict]
    simp only [he]
    cases hg : (TrieEntry.table k).items[cur.2]? with
    | none => simp [hg]
    | some x =>
      have := hslot cur.2 x hg
      subst this
      simp [hg]
  | cur :: next :: rest =>
    constructor
    · rw [interiorConflict]
      simp only [he]
      cases hg : (TrieEntry.table k).items[cur.2]? with
      | none => simp [hg]
      | some x =>
        have := hslot cur.2 x hg
        subst this
        simp [hg]
    · rw [hasConflict]
      simp only [he]
      cases hg : (TrieEntry.table k).items[cur.2]? with
      | none => simp [hg]
      | some x =>
        have := hslot cur.2 x hg
        subst this
        simp [hg]

theorem addWalk_spec (rootIdx : Nat) (fullPath : List (EntryKind × Nat)) (errName : String)
    (hfmtFull : ∀ kb ∈ fullPath, stageFormatOk kb = true)
    (hdist : ∀ i, i < fullPath.length → ∀ j, j < fullPath.length → i ≠ j →
      genName rootIdx fullPath i ≠ genName rootIdx fullPath j) :
    ∀ (suffix : List (EntryKind × Nat)) (done : Nat) (t : Table) (tn : String) (e : TrieEntry),
      fullPath.drop done = suffix →
      dictGet t.data tn = some e →
      (∀ q ∈ t.data, (Prod.snd q).items.length = (Prod.snd q).kind.tableLength) →
      (∀ q ∈ t.data, ∀ s : String, some s ∈ (Prod.snd q).items → (dictGet t.data s).isSome) →
      bytesOk e.kind suffix = true →
      (∀ i, done ≤ i → i < fullPath.length →
        (dictGet t.data (genName rootIdx fullPath i)).isSome = true →
        chainOk t tn suffix (i - done + 1) = true) →
      (if interiorConflict t tn suffix then
        ∃ msg, Table.addWalk rootIdx fullPath errName t tn done suffix = .error msg
      else
        ∃ t2 tn2 e2,
          Table.addWalk rootIdx fullPath errName t tn done suffix = .ok (t2, tn2) ∧
          dictGet t2.data tn2 = some e2 ∧
          (∀ q ∈ t2.data, (Prod.snd q).items.length = (Prod.snd q).kind.tableLength) ∧
          (∀ lb ∈ suffix.getLast?, Prod.snd lb < e2.items.length ∧
            ((∃ s, e2.items[(Prod.snd lb)]? = some (some s)) ↔ hasConflict t tn suffix = true))) := by
  intro suffix
  induction suffix with
  | nil =>
    intro done t tn e _ he hlen hclo _ _
    rw [if_neg (by rw [interiorConflict]; exact Bool.false_ne_true)]
    exact ⟨t, tn, e, rfl, he, hlen, by intro lb hlb; cases hlb⟩
  | cons cur tail ih =>
    intro done t tn e hdrop he hlen hclo hbytes hnames
    have hmem := dictGet_mem t.data tn e he
    have hlene : e.items.length = e.kind.tableLength := hlen (tn, e) hmem
    cases tail with
    | nil =>
      rw [if_neg (by rw [interiorConflict]; exact Bool.false_ne_true)]
      refine ⟨t, tn, e, rfl, he, hlen, ?_⟩
      intro lb hlb
      simp only [List.getLast?_singleton, Option.mem_def, Option.some.injEq] at hlb
      subst hlb
      have hcb : cur.2 < e.kind.tableLength := by
        simpa [bytesOk] using hbytes
      refine ⟨by omega, ?_⟩
      conv_rhs => rw [hasConflict]
      simp only [he]
      cases hg : e.items[cur.2]? with
      | none =>
        exfalso
        rw [List.getElem?_eq_none_iff] at hg
        omega
      | some x =>
        cases x with
        | none => simp [hg]
        | some s2 => simp [hg]
    | cons next rest =>
      have hcb : cur.2 < e.kind.tableLength ∧ bytesOk next.1 (next :: rest) = true := by
        have := hbytes
        rw [bytesOk] at this
        simpa using this
      have hcb2 : cur.2 < e.items.length := by omega
      obtain ⟨slotv, hslot⟩ : ∃ v, e.items[cur.2]? = some v := by
        cases hg : e.items[cur.2]? with
        | none =>
          rw [List.getElem?_eq_none_iff] at hg
          omega
        | some v => exact ⟨v, rfl⟩
      have hdone : done < fullPath.length := by
        by_contra hge
        rw [List.drop_eq_nil_of_le (by omega)] at hdrop
        cases hdrop
      have hdrop2 : fullPath.drop (done + 1) = next :: rest := drop_cons_succ hdrop
      cases slotv with
      | some tn2 =>
        have hin : some tn2 ∈ e.items := List.mem_iff_getElem?.mpr ⟨cur.2, hslot⟩
        have hsome := hclo (tn, e) hmem tn2 hin
        obtain ⟨e2, he2⟩ := Option.isSome_iff_exists.mp hsome
        have hwalkEq : Table.addWalk rootIdx fullPath errName t tn done (cur :: next :: rest) =
            (if e2.kind ≠ next.1 then Except.error (errName ++ ", kind disagreement")
             else Table.addWalk rootIdx fullPath errName t tn2 (done + 1) (next :: rest)) := by
          rw [Table.addWalk]
          simp only [he, hslot, he2]
        have hintEq : interiorConflict t tn (cur :: next :: rest) =
            (decide (¬ e2.kind = next.1) || interiorConflict t tn2 (next :: rest)) := by
          conv_lhs => rw [interiorConflict]
          simp only [he, hslot, he2]
        have hhasEq : hasConflict t tn (cur :: next :: rest) =
            (decide (¬ e2.kind = next.1) || hasConflict t tn2 (next :: rest)) := by
          conv_lhs => rw [hasConflict]
          simp only [he, hslot, he2]
        by_cases hk : e2.kind = next.1
        · have hint2 : interiorConflict t tn (cur :: next :: rest) =
              interiorConflict t tn2 (next :: rest) := by
            rw [hintEq, hk]
            simp
          have hhas2 : hasConflict t tn (cur :: next :: rest) =
              hasConflict t tn2 (next :: rest) := by
            rw [hhasEq, hk]
            simp
          have hwalk2 : Table.addWalk rootIdx fullPath errName t tn done (cur :: next :: rest) =
              Table.addWalk rootIdx fullPath errName t tn2 (done + 1) (next :: rest) := by
            rw [hwalkEq, if_neg (by simp [hk])]
          have hb2 : bytesOk e2.kind (next :: rest) = true := by
            rw [hk]
            exact hcb.2
          have hnames2 : ∀ i, done + 1 ≤ i → i < fullPath.length →
              (dictGet t.data (genName rootIdx fullPath i)).isSome = true →
              chainOk t tn2 (next :: rest) (i - (done + 1) + 1) = true := by
            intro i h1 h2 h3
            have hch := hnames i (by omega) h2 h3
            rw [show i - done + 1 = (i - (done + 1) + 1) + 1 from by omega] at hch
            rw [chainOk] at hch
            simp only [he, hslot] at hch
            exact hch
          have := ih (done + 1) t tn2 e2 hdrop2 he2 hlen hclo hb2 hnames2
          rw [hint2, hhas2, hwalk2]
          by_cases hic : interiorConflict t tn2 (next :: rest) = true
          · rw [if_pos hic] at this ⊢
            exact this
          · rw [if_neg hic] at this ⊢
            obtain ⟨t2, tn3, e3, hw, hg3, hl3, hlast⟩ := this
            refine ⟨t2, tn3, e3, hw, hg3, hl3, ?_⟩
            intro lb hlb
            exact hlast lb (by simpa using hlb)
        · rw [if_pos (by rw [hintEq]; simp [hk])]
          refine ⟨errName ++ ", kind disagreement", ?_⟩
          rw [hwalkEq, if_pos (by simp [hk])]
      | none =>
        have hint0 : interiorConflict t tn (cur :: next :: rest) = false := by
          conv_lhs => rw [interiorConflict]
          simp only [he, hslot]
        have hhas0 : hasConflict t tn (cur :: next :: rest) = false := by
          conv_lhs => rw [hasConflict]
          simp only [he, hslot]
        rw [if_neg (by rw [hint0]; exact Bool.false_ne_true)]
        have hfreshAll : ∀ i, done ≤ i → i < fullPath.length →
            dictGet t.data (genName rootIdx fullPath i) = none := by
          intro i h1 h2
          cases hg : dictGet t.data (genName rootIdx fullPath i) with
          | none => rfl
          | some x =>
            exfalso
            have hch := hnames i h1 h2 (by rw [hg]; rfl)
            rw [chainOk] at hch
            simp only [he, hslot] at hch
            cases hch
        obtain ⟨nm, hnm⟩ := tableName_ok rootIdx (fullPath.take (done + 1))
          (fun kb hkb => hfmtFull kb (List.take_subset _ _ hkb))
        have hgen : genName rootIdx fullPath done = nm := by
          unfold genName
          rw [hnm]
          rfl
        have hfreshnm : dictGet t.data nm = none := by
          rw [← hgen]
          exact hfreshAll done (Nat.le_refl _) hdone
        have hnetn : nm ≠ tn := by
          intro heq
          rw [heq, he] at hfreshnm
          cases hfreshnm
        have hupd := updateTable_ok_shape t tn cur.2 nm (TrieEntry.table next.1) e he hslot hnetn
        set d2 : List (String × TrieEntry) :=
          dictSet (dictSet t.data nm (TrieEntry.table next.1)) tn (e.update cur.2 (some nm)) with hd2
        have hget2 : dictGet d2 nm = some (TrieEntry.table next.1) := by
          rw [hd2]
          rw [dictGet_dictSet_ne _ tn _ nm hnetn]
          exact dictGet_dictSet_self _ _ _
        have hwalkEq : Table.addWalk rootIdx fullPath errName t tn done (cur :: next :: rest) =
            Table.addWalk rootIdx fullPath errName { t with data := d2 } nm (done + 1)
              (next :: rest) := by
          rw [Table.addWalk]
          simp only [he, hslot, hnm, hupd, hget2]
          rw [if_neg (by simp [TrieEntry.table])]
        -- invariants for the new table
        have hmem2 : ∀ q ∈ d2, q = (tn, e.update cur.2 (some nm)) ∨
            q = (nm, TrieEntry.table next.1) ∨ q ∈ t.data := by
          intro q hq
          rcases mem_dictSet _ _ _ q hq with h1 | h1
          · exact Or.inl h1
          · rcases mem_dictSet _ _ _ q h1 with h2 | h2
            · exact Or.inr (Or.inl h2)
            · exact Or.inr (Or.inr h2)
        have hlen2 : ∀ q ∈ d2, (Prod.snd q).items.length = (Prod.snd q).kind.tableLength := by
          intro q hq
          rcases hmem2 q hq with h1 | h1 | h1
          · rw [h1]
            show (e.update cur.2 (some nm)).items.length = (e.update cur.2 (some nm)).kind.tableLength
            rw [update_items_length, update_kind]
            exact hlene
          · rw [h1]
            show (TrieEntry.table next.1).items.length = (TrieEntry.table next.1).kind.tableLength
            simp [TrieEntry.table]
          · exact hlen q h1
        have hpres : ∀ s : String, (dictGet t.data s).isSome → (dictGet d2 s).isSome := by
          intro s hs
          rw [hd2]
          exact dictGet_isSome_dictSet _ _ _ _ (dictGet_isSome_dictSet _ _ _ _ hs)
        have hclo2 : ∀ q ∈ d2, ∀ s : String, some s ∈ (Prod.snd q).items →
            (dictGet d2 s).isSome := by
          intro q hq s hsq
          rcases hmem2 q hq with h1 | h1 | h1
          · rw [h1] at hsq
            rcases update_mem_items e cur.2 (some nm) (some s) hsq with h2 | h2
            · injection h2 with h2
              rw [h2, hget2]
              rfl
            · exact hpres s (hclo (tn, e) hmem s h2)
          · rw [h1] at hsq
            exfalso
            have := List.eq_of_mem_replicate hsq
            cases this
          · exact hpres s (hclo q h1 s hsq)
        have hfresh2 : ∀ i, done + 1 ≤ i → i < fullPath.length →
            dictGet d2 (genName rootIdx fullPath i) = none := by
          intro i h1 h2
          have hne1 : genName rootIdx fullPath i ≠ tn := by
            intro heq
            have := hfreshAll i (by omega) h2
            rw [heq, he] at this
            cases this
          have hne2 : genName rootIdx fullPath i ≠ nm := by
            rw [← hgen]
            exact hdist i h2 done hdone (by omega)
          rw [hd2, dictGet_dictSet_ne _ _ _ _ hne1, dictGet_dictSet_ne _ _ _ _ hne2]
          exact hfreshAll i (by omega) h2
        have hfc := fresh_no_conflict { t with data := d2 } nm next.1 hget2 (next :: rest)
          (by intro hx; cases hx)
        have := ih (done + 1) { t with data := d2 } nm (TrieEntry.table next.1) hdrop2 hget2
          hlen2 hclo2 (by show bytesOk (TrieEntry.table next.1).kind _ = true; exact hcb.2)
          (fun i h1 h2 h3 => by rw [hfresh2 i h1 h2] at h3; cases h3)
        rw [if_neg (by rw [hfc.1]; exact Bool.false_ne_true)] at this
        obtain ⟨t2, tn3, e3, hw, hg3, hl3, hlast⟩ := this
        refine ⟨t2, tn3, e3, by rw [hwalkEq]; exact hw, hg3, hl3, ?_⟩
        intro lb hlb
        have hlast2 := hlast lb (by simpa using hlb)
        refine ⟨hlast2.1, ?_⟩
        rw [hhas0]
        rw [hfc.2] at hlast2
        simpa using hlast2.2

theorem updateTable_ok_exists (t : Table) (name : String) (idx : Nat) (entryName : String)
    (entryVal : TrieEntry) (e : TrieEntry)
    (he : dictGet t.data name = some e)
    (hslot : e.items[idx]? = some none) :
    ∃ t2, t.updateTable name idx entryName entryVal = .ok t2 := by
  have hsome : ∃ e1, dictGet (dictSet t.data entryName entryVal) name = some e1 := by
    by_cases hq : name = entryName
    · subst hq
      exact ⟨entryVal, dictGet_dictSet_self _ _ _⟩
    · refine ⟨e, ?_⟩
      rw [dictGet_dictSet_ne _ _ _ _ hq]
      exact he
  obtain ⟨e1, he1⟩ := hsome
  simp only [Table.updateTable, he, hslot, he1]
  exact ⟨_, rfl⟩

theorem interior_imp_has (t : Table) : ∀ (p : List (EntryKind × Nat)) (tn : String),
    interiorConflict t tn p = true → hasConflict t tn p = true := by
  intro p
  induction p with
  | nil =>
    intro tn h
    rw [interiorConflict] at h
    cases h
  | cons cur tl ih =>
    cases tl with
    | nil =>
      intro tn h
      rw [interiorConflict] at h
      cases h
    | cons next rest =>
      intro tn h
      cases hg : dictGet t.data tn with
      | none =>
        rw [interiorConflict] at h
        simp only [hg] at h
        cases h
      | some e =>
        cases hs : e.items[cur.2]? with
        | none =>
          rw [interiorConflict] at h
          simp only [hg, hs] at h
          cases h
        | some sl =>
          cases sl with
          | none =>
            rw [interiorConflict] at h
            simp only [hg, hs] at h
            cases h
          | some tn2 =>
            cases hg2 : dictGet t.data tn2 with
            | none =>
              rw [interiorConflict] at h
              simp only [hg, hs, hg2] at h
              cases h
            | some e2 =>
              rw [interiorConflict] at h
              simp only [hg, hs, hg2] at h
              rw [hasConflict]
              simp only [hg, hs, hg2]
              rw [Bool.or_eq_true] at h ⊢
              rcases h with h | h
              · exact Or.inl h
              · exact Or.inr (ih tn2 h)

/-- C8: on a well-formed table whose generated node names are bound only
at the end of their slot chains (the naming discipline of every table
the builder constructs, and in particular of every state reached by
earlier insertions, conflicting or not), add_opcode raises a build error
exactly when the insertion conflicts: the final slot of the full path is
already occupied (the same full path inserted twice, whether with a
different or an identical record, or a shorter path ending where a table
already stands), or some node along the path carries a table kind
different from the kind the path demands at that depth; a
non-conflicting insertion never raises. -/
theorem c8_add_opcode_conflict_iff (t : Table) (p : List (EntryKind × Nat)) (enc : List PWord)
    (rootIdx : Nat)
    (hne : p ≠ [])
    (hfmt : ∀ kb ∈ p, stageFormatOk kb = true)
    (hlen : ∀ q ∈ t.data, (Prod.snd q).items.length = (Prod.snd q).kind.tableLength)
    (hclo : ∀ q ∈ t.data, ∀ s : String, some s ∈ (Prod.snd q).items → (dictGet t.data s).isSome)
    (re : TrieEntry)
    (hroot : dictGet t.data ("root" ++ toString rootIdx) = some re)
    (hbytes : bytesOk re.kind p = true)
    (hdist : ∀ i, i < p.length → ∀ j, j < p.length → i ≠ j →
      genName rootIdx p i ≠ genName rootIdx p j)
    (hnames : ∀ i, i < p.length →
      (dictGet t.data (genName rootIdx p i)).isSome = true →
      chainOk t ("root" ++ toString rootIdx) p (i + 1) = true) :
    (∃ t2, t.add_opcode p enc rootIdx = .ok t2) ↔
      hasConflict t ("root" ++ toString rootIdx) p = false := by
  obtain ⟨name, hname⟩ := tableName_ok rootIdx p hfmt
  have hwalk := addWalk_spec rootIdx p name hfmt hdist p 0 t ("root" ++ toString rootIdx) re
    (by simp) hroot hlen hclo hbytes (fun i _ h2 h3 => hnames i h2 h3)
  by_cases hic : interiorConflict t ("root" ++ toString rootIdx) p = true
  · rw [if_pos hic] at hwalk
    obtain ⟨msg, hmsg⟩ := hwalk
    have haddEq : t.add_opcode p enc rootIdx = .error msg := by
      simp only [Table.add_opcode, hname, hmsg]
    constructor
    · rintro ⟨t2', ht2'⟩
      rw [haddEq] at ht2'
      cases ht2'
    · intro hcf
      exfalso
      have := interior_imp_has t p ("root" ++ toString rootIdx) hic
      rw [hcf] at this
      cases this
  · rw [if_neg hic] at hwalk
    obtain ⟨t2, tn2, e2, hw, hg2, _, hlast⟩ := hwalk
    have hlp : p.getLast? = some (p.getLast hne) := List.getLast?_eq_getLast p hne
    have hlt := hlast (p.getLast hne) (by rw [hlp]; rfl)
    have haddEq : t.add_opcode p enc rootIdx =
        t2.updateTable tn2 (Prod.snd (p.getLast hne)) name (TrieEntry.instr enc) := by
      simp only [Table.add_opcode, hname, hw, hlp]
    constructor
    · rintro ⟨t2', ht2'⟩
      cases hb : hasConflict t ("root" ++ toString rootIdx) p with
      | false => rfl
      | true =>
        exfalso
        obtain ⟨s, hs⟩ := hlt.2.mpr hb
        rw [haddEq, updateTable_occupied t2 tn2 _ name (TrieEntry.instr enc) e2 s hg2 hs] at ht2'
        cases ht2'
    · intro hcf
      obtain ⟨v, hv⟩ : ∃ v, e2.items[(Prod.snd (p.getLast hne))]? = some v := by
        cases hvv : e2.items[(Prod.snd (p.getLast hne))]? with
        | none =>
          rw [List.getElem?_eq_none_iff] at hvv
          exact absurd hlt.1 (by omega)
        | some v => exact ⟨v, rfl⟩
      cases v with
      | some s =>
        exfalso
        have := hlt.2.mp ⟨s, hv⟩
        rw [hcf] at this
        cases this
      | none =>
        obtain ⟨t3, ht3⟩ := updateTable_ok_exists t2 tn2 _ name (TrieEntry.instr enc) e2 hg2 hv
        refine ⟨t3, ?_⟩
        rw [haddEq]
        exact ht3

/-- C8 witness: on a fresh one-root table, the two-stage insertion of
root byte 1 then opcode byte 0x90 matches the absence of a conflict and
succeeds; on the table already holding that full path, re-inserting the
same full path matches the present conflict (the occupied terminal slot)
and raises. -/
theorem c8_witness :
    ((∃ t2, (Table.init 1).add_opcode [(.TABLE_ROOT, 1), (.TABLE256, 0x90)] [PWord.num 7] 0 =
        .ok t2) ↔
      hasConflict (Table.init 1) ("root" ++ toString 0)
        [(.TABLE_ROOT, 1), (.TABLE256, 0x90)] = false) ∧
    hasConflict (Table.init 1) ("root" ++ toString 0)
      [(.TABLE_ROOT, 1), (.TABLE256, 0x90)] = false ∧
    ((∃ t2, tableAfter90.add_opcode [(.TABLE_ROOT, 1), (.TABLE256, 0x90)] [PWord.num 7] 0 =
        .ok t2) ↔
      hasConflict tableAfter90 ("root" ++ toString 0)
        [(.TABLE_ROOT, 1), (.TABLE256, 0x90)] = false) ∧
    hasConflict tableAfter90 ("root" ++ toString 0)
      [(.TABLE_ROOT, 1), (.TABLE256, 0x90)] = true := by
  have h9 : natHexChars 9 = ['9'] := by
    rw [natHexChars]
    decide
  have h144 : natHexChars 144 = ['9', '0'] := by
    rw [natHexChars, if_neg (by norm_num)]
    show natHexChars 9 ++ [hexDigitChar 0] = ['9', '0']
    rw [h9]
    decide
  have hhex2 : hex2 144 = "90" := by
    unfold hex2
    rw [h144]
    rfl
  have e0 : genName 0 [(.TABLE_ROOT, 1), (.TABLE256, 0x90)] 0 = "t0,0f" := rfl
  have e1 : genName 0 [(.TABLE_ROOT, 1), (.TABLE256, 0x90)] 1 = "t0,0f90" := by
    rw [show genName 0 [(.TABLE_ROOT, 1), (.TABLE256, 0x90)] 1 =
      "t0," ++ ("" ++ ("0f" ++ hex2 144)) from rfl, hhex2]
    rfl
  have hdist0 : ∀ i, i < ([(.TABLE_ROOT, 1), (.TABLE256, 0x90)] :
      List (EntryKind × Nat)).length → ∀ j, j < ([(.TABLE_ROOT, 1), (.TABLE256, 0x90)] :
      List (EntryKind × Nat)).length → i ≠ j →
      genName 0 [(.TABLE_ROOT, 1), (.TABLE256, 0x90)] i ≠
        genName 0 [(.TABLE_ROOT, 1), (.TABLE256, 0x90)] j := by
    intro i hi j hj hij
    have hi2 : i < 2 := by simpa using hi
    have hj2 : j < 2 := by simpa using hj
    clear hi hj
    interval_cases i <;> interval_cases j <;>
      first
        | exact absurd rfl hij
        | (rw [e0, e1]; decide)
  refine ⟨?_, by decide, ?_, by decide⟩
  · exact c8_add_opcode_conflict_iff (Table.init 1) [(.TABLE_ROOT, 1), (.TABLE256, 0x90)]
      [PWord.num 7] 0
      (by decide)
      (by decide)
      (by decide)
      (by
        intro q hq s hs
        have hd : (Table.init 1).data = [("root0", TrieEntry.table .TABLE_ROOT)] := rfl
        rw [hd] at hq
        simp only [List.mem_singleton] at hq
        rw [hq] at hs
        simp [TrieEntry.table, List.mem_replicate] at hs)
      (TrieEntry.table .TABLE_ROOT)
      rfl
      (by decide)
      hdist0
      (by
        intro i hi
        have hi2 : i < 2 := by simpa using hi
        clear hi
        interval_cases i
        · rw [e0]
          decide
        · rw [e1]
          decide)
  · exact c8_add_opcode_conflict_iff tableAfter90 [(.TABLE_ROOT, 1), (.TABLE256, 0x90)]
      [PWord.num 7] 0
      (by decide)
      (by decide)
      (by decide)
      (by
        intro q hq s hs
        simp only [tableAfter90, List.mem_cons, List.not_mem_nil, or_false] at hq
        rcases hq with hq | hq | hq <;> subst hq
        · rcases List.mem_or_eq_of_mem_set hs with h | h
          · exact Option.noConfusion (List.eq_of_mem_replicate h)
          · injection h with h
            subst h
            decide
        · rcases List.mem_or_eq_of_mem_set hs with h | h
          · exact Option.noConfusion (List.eq_of_mem_replicate h)
          · injection h with h
            subst h
            decide
        · cases hs)
      ⟨.TABLE_ROOT, (List.replicate 8 (none : Option String)).set 1 (some "t0,0f"), []⟩
      rfl
      (by decide)
      hdist0
      (by
        intro i hi
        have hi2 : i < 2 := by simpa using hi
        clear hi
        interval_cases i <;> exact fun _ => by decide)

theorem natHexChars_lt16 (n : Nat) (h : n < 16) : natHexChars n = [hexDigitChar n] := by
  rw [natHexChars]
  exact if_pos h

theorem natHexChars_two (n : Nat) (h1 : 16 ≤ n) (h2 : n < 256) :
    natHexChars n = [hexDigitChar (n / 16), hexDigitChar (n % 16)] := by
  rw [natHexChars, if_neg (by omega), natHexChars_lt16 (n / 16) (by omega)]
  rfl

theorem hex2_eq (n : Nat) (h : n < 256) :
    hex2 n = String.mk [hexDigitChar (n / 16), hexDigitChar (n % 16)] := by
  unfold hex2
  by_cases h16 : n < 16
  · rw [natHexChars_lt16 n h16]
    have hd : n / 16 = 0 := by omega
    have hm : n % 16 = n := by omega
    rw [hd, hm]
    rfl
  · rw [natHexChars_two n (by omega) h]
    rfl

theorem hex1_lt16 (n : Nat) (h : n < 16) : hex1 n = String.mk [hexDigitChar n] := by
  unfold hex1
  rw [natHexChars_lt16 n h]

theorem hexDigitChar_hex (n : Nat) (h : n < 16) : isHexChar (hexDigitChar n) = true := by
  interval_cases n <;> decide

theorem hexVal_hexDigitChar (n : Nat) (h : n < 16) : hexVal (hexDigitChar n) = n := by
  interval_cases n <;> decide

theorem digit07_hexDigitChar (n : Nat) (h : n < 8) : digit07 (hexDigitChar n) = some n := by
  interval_cases n <;> decide

/-- C5 (counterexample): the round trip fails outside a fragment.  A
double-slash extension pattern c0//0 parses to the 72-kind extension,
formats back as the single-slash c0/0, and reparses to the 8-kind
extension; an extended pattern 90+ loses its plus; a WIG constraint is
dropped by the formatter; a single concrete W constraint expands to two
paths instead of one. -/
theorem c5_counterexample :
    (Opcode.parse "c0//0" = .ok (some ⟨none, 0, 192, some (true, 0), false, false, none, none⟩) ∧
     Opcode.forTrie ⟨none, 0, 192, some (true, 0), false, false, none, none⟩ =
       [[(.TABLE_ROOT, 0), (.TABLE256, 192), (.TABLE72, 0)]] ∧
     format_opcode [(.TABLE_ROOT, 0), (.TABLE256, 192), (.TABLE72, 0)] = .ok "c0/0" ∧
     Opcode.parse "c0/0" =
       .ok (some ⟨none, 0, 192, some (false, 0), false, false, none, none⟩)) ∧
    (Opcode.parse "90+" = .ok (some ⟨none, 0, 144, none, true, false, none, none⟩) ∧
     (Opcode.forTrie ⟨none, 0, 144, none, true, false, none, none⟩).head? =
       some [(.TABLE_ROOT, 0), (.TABLE256, 144)] ∧
     format_opcode [(.TABLE_ROOT, 0), (.TABLE256, 144)] = .ok "90" ∧
     Opcode.parse "90" = .ok (some ⟨none, 0, 144, none, false, false, none, none⟩)) ∧
    (Opcode.parse "VEX.66.WIG.0f2a" =
       .ok (some ⟨some (false, 1), 1, 42, none, false, true, none, some "IG"⟩) ∧
     Opcode.forTrie ⟨some (false, 1), 1, 42, none, false, true, none, some "IG"⟩ =
       [[(.TABLE_ROOT, 5), (.TABLE256, 42), (.TABLE_PFX, 1)]] ∧
     format_opcode [(.TABLE_ROOT, 5), (.TABLE256, 42), (.TABLE_PFX, 1)] = .ok "VEX.66.0f2a" ∧
     Opcode.parse "VEX.66.0f2a" =
       .ok (some ⟨some (false, 1), 1, 42, none, false, true, none, none⟩)) ∧
    (Opcode.parse "VEX.NP.W0.0f2a" =
       .ok (some ⟨some (false, 0), 1, 42, none, false, true, none, some "0"⟩) ∧
     (Opcode.forTrie ⟨some (false, 0), 1, 42, none, false, true, none, some "0"⟩).length = 2) := by
  have h192 : hex2 192 = "c0" := by
    rw [hex2_eq 192 (by norm_num)]
    rfl
  have h144 : hex2 144 = "90" := by
    rw [hex2_eq 144 (by norm_num)]
    rfl
  have h42 : hex2 42 = "2a" := by
    rw [hex2_eq 42 (by norm_num)]
    rfl
  have h0 : hex1 0 = "0" := by
    rw [hex1_lt16 0 (by norm_num)]
    rfl
  have hf72 : format_opcode [(.TABLE_ROOT, 0), (.TABLE256, 192), (.TABLE72, 0)] =
      .ok ("" ++ ((("" ++ hex2 192) ++ "/") ++ hex1 0)) := rfl
  have hf90 : format_opcode [(.TABLE_ROOT, 0), (.TABLE256, 144)] =
      .ok ("" ++ ("" ++ hex2 144)) := rfl
  have hfIG : format_opcode [(.TABLE_ROOT, 5), (.TABLE256, 42), (.TABLE_PFX, 1)] =
      .ok ("VEX.66." ++ ("0f" ++ hex2 42)) := rfl
  refine ⟨⟨rfl, rfl, ?_, rfl⟩,
          ⟨rfl, rfl, ?_, rfl⟩,
          ⟨rfl, rfl, ?_, rfl⟩,
          ⟨rfl, rfl⟩⟩
  · rw [hf72, h192, h0]
    exact congrArg Except.ok (by decide)
  · rw [hf90, h144]
    exact congrArg Except.ok (by decide)
  · rw [hfIG, h42]
    exact congrArg Except.ok (by decide)

theorem matchLit_drop : ∀ (p t r : List Char), matchLit p t = some r → r = t.drop p.length := by
  intro p
  induction p with
  | nil =>
    intro t r h
    rw [matchLit] at h
    cases h
    rfl
  | cons c cs ih =>
    intro t r h
    cases t with
    | nil => cases h
    | cons d ds =>
      rw [matchLit] at h
      by_cases hc : c = d
      · rw [if_pos hc] at h
        simpa using ih ds r h
      · rw [if_neg hc] at h
        cases h

theorem altCands_mem {alts : List String} {s : List Char} {x : String × List Char}
    (h : x ∈ altCands alts s) : x.1 ∈ alts ∧ matchLit x.1.toList s = some x.2 := by
  unfold altCands at h
  obtain ⟨a, ha, hmap⟩ := List.mem_filterMap.mp h
  cases hm : matchLit a.toList s with
  | none => rw [hm] at hmap; cases hmap
  | some r =>
    rw [hm] at hmap
    cases hmap
    exact ⟨ha, hm⟩

theorem head?_flatMap_cons {α β : Type} (f : α → List β) (x : α) (xs : List α) (y : β)
    (ys : List β) (hfx : f x = y :: ys) : ((x :: xs).flatMap f).head? = some y := by
  simp [List.flatMap_cons, hfx]

theorem flatMap_nil_of {α β : Type} (f : α → List β) :
    ∀ (l : List α), (∀ x ∈ l, f x = []) → l.flatMap f = [] := by
  intro l
  induction l with
  | nil => intro _; rfl
  | cons a l ih =>
    intro h
    rw [List.flatMap_cons, h a (by simp), ih (fun x hx => h x (by simp [hx]))]
    rfl

theorem findIdx?_lt_add {α : Type} (p : α → Bool) :
    ∀ (l : List α) (st i : Nat), List.findIdx? p l st = some i → i < st + l.length := by
  intro l
  induction l with
  | nil => intro st i h; cases h
  | cons a l ih =>
    intro st i h
    rw [List.findIdx?_cons] at h
    by_cases hp : p a = true
    · rw [if_pos hp] at h
      cases h
      simp
    · rw [if_neg hp] at h
      have := ih (st + 1) i h
      simp only [List.length_cons]
      omega

theorem indexOf?_lt_length {α : Type} [BEq α] (l : List α) (a : α) (i : Nat)
    (h : l.indexOf? a = some i) : i < l.length := by
  have := findIdx?_lt_add (fun x => x == a) l 0 i (by simpa [List.indexOf?] using h)
  omega

theorem hexNe (c : Char) (h : isHexChar c = true) :
    (('V' : Char) = c) = False ∧ (('N' : Char) = c) = False ∧ (('F' : Char) = c) = False ∧
    (('R' : Char) = c) = False ∧ (c = 'R') = False ∧ (c = 'W') = False ∧ (c = 'L') = False ∧
    (c = '/') = False ∧ (c = '+') = False ∧ (c = '\n') = False ∧ (c = '.') = False ∧
    (('.' : Char) = c) = False ∧ (('+' : Char) = c) = False ∧ (('/' : Char) = c) = False ∧
    (c = 'V') = False := by
  refine ⟨eq_false fun he => ?_, eq_false fun he => ?_, eq_false fun he => ?_,
    eq_false fun he => ?_, eq_false fun he => ?_, eq_false fun he => ?_, eq_false fun he => ?_,
    eq_false fun he => ?_, eq_false fun he => ?_, eq_false fun he => ?_, eq_false fun he => ?_,
    eq_false fun he => ?_, eq_false fun he => ?_, eq_false fun he => ?_, eq_false fun he => ?_⟩ <;>
    first
      | (rw [← he] at h; exact absurd h (by decide))
      | (rw [he] at h; exact absurd h (by decide))

theorem vexCands_no (a : Char) (u : List Char) (hne : (('V' : Char) = a) = False) :
    vexCands (a :: u) = [(false, a :: u)] := by
  unfold vexCands
  rw [show ("VEX.".toList) = ['V', 'E', 'X', '.'] from rfl]
  simp only [matchLit, hne, if_false]
  rfl

theorem branch1_nil (t : List Char) (hchars : ∀ ch ∈ t, isHexChar ch = true ∨ ch = '/') :
    branch1Cands t = [] := by
  have hvex : vexCands t = [(false, t)] := by
    cases t with
    | nil => rfl
    | cons a u =>
      apply vexCands_no
      rcases hchars a (by simp) with hhex | hs
      · exact (hexNe a hhex).1
      · subst hs
        exact eq_false (by decide)
  unfold branch1Cands
  rw [hvex]
  simp only [List.flatMap_cons, List.flatMap_nil, List.append_nil]
  apply flatMap_nil_of
  intro x hx
  obtain ⟨hmem, hml⟩ := altCands_mem hx
  have hd := matchLit_drop _ _ _ hml
  cases hx2 : x.2 with
  | nil => simp [hx2]
  | cons b u2 =>
    have hb : b ∈ t := by
      have hbx : b ∈ x.2 := by rw [hx2]; simp
      rw [hd] at hbx
      exact List.mem_of_mem_drop hbx
    have hdot : (('.' : Char) = b) = False ∧ (b = '.') = False := by
      rcases hchars b hb with hhex | hs
      · exact ⟨(hexNe b hhex).2.2.2.2.2.2.2.2.2.2.2.1, (hexNe b hhex).2.2.2.2.2.2.2.2.2.2.1⟩
      · subst hs
        exact ⟨eq_false (by decide), eq_false (by decide)⟩
    simp [hx2, hdot.1, hdot.2]

theorem branch2_nil (t : List Char) (hchars : ∀ ch ∈ t, isHexChar ch = true ∨ ch = '/') :
    branch2Cands t = [] := by
  unfold branch2Cands
  cases t with
  | nil => rfl
  | cons a u =>
    have ha : a ≠ 'R' := by
      rcases hchars a (by simp) with hhex | hs
      · have := (hexNe a hhex).2.2.2.2.1
        intro he
        rw [he] at this
        simp at this
      · subst hs
        decide
    split
    · rename_i s1 heq
      injection heq with h1 h2
      exact absurd h1 ha
    · rfl

theorem front_none (t : List Char) (hchars : ∀ ch ∈ t, isHexChar ch = true ∨ ch = '/') :
    prefixCands t = [(PrefixGroups.noPfx, t)] := by
  unfold prefixCands
  rw [branch1_nil t hchars, branch2_nil t hchars]
  rfl

set_option maxHeartbeats 2000000 in
theorem front_legacy_nn (vx : Bool) (i : Nat) (hi : i < 4) (a : Char) (u : List Char)
    (hhex : isHexChar a = true ∨ a = '/') :
    (prefixCands ((if vx then ['V', 'E', 'X', '.'] else []) ++
        ((["NP.", "66.", "F3.", "F2."] : List String).getD i "").toList ++ (a :: u))).head? =
      some (PrefixGroups.legacy vx ((["NP", "66", "F3", "F2"] : List String).getD i "")
        none none, a :: u) := by
  have hW : (a = 'W') = False := by
    rcases hhex with hh | hs
    · exact (hexNe a hh).2.2.2.2.2.1
    · subst hs; exact eq_false (by decide)
  have hL : (a = 'L') = False := by
    rcases hhex with hh | hs
    · exact (hexNe a hh).2.2.2.2.2.2.1
    · subst hs; exact eq_false (by decide)
  interval_cases i <;> cases vx <;>
    simp [prefixCands, branch1Cands, branch2Cands, vexCands, altCands, wlCands, matchLit,
      hW, hL,
      show ("VEX.".toList) = ['V', 'E', 'X', '.'] from rfl,
      show ("NP.".toList) = ['N', 'P', '.'] from rfl,
      show ("66.".toList) = ['6', '6', '.'] from rfl,
      show ("F3.".toList) = ['F', '3', '.'] from rfl,
      show ("F2.".toList) = ['F', '2', '.'] from rfl,
      show ("NP".toList) = ['N', 'P'] from rfl,
      show ("66".toList) = ['6', '6'] from rfl,
      show ("F2".toList) = ['F', '2'] from rfl,
      show ("F3".toList) = ['F', '3'] from rfl,
      show ("0".toList) = ['0'] from rfl,
      show ("1".toList) = ['1'] from rfl,
      show ("IG".toList) = ['I', 'G'] from rfl]

set_option maxHeartbeats 2000000 in
theorem front_legacy_cc (vx : Bool) (i : Nat) (hi : i < 4) (w l : String)
    (hw : w = "0" ∨ w = "1") (hl : l = "0" ∨ l = "1") (t : List Char) :
    (prefixCands ((if vx then ['V', 'E', 'X', '.'] else []) ++
        ((["NP.", "66.", "F3.", "F2."] : List String).getD i "").toList ++
        ('W' :: w.toList ++ '.' :: 'L' :: l.toList ++ '.' :: t))).head? =
      some (PrefixGroups.legacy vx ((["NP", "66", "F3", "F2"] : List String).getD i "")
        (some w) (some l), t) := by
  rcases hw with hw | hw <;> rcases hl with hl | hl <;> subst hw <;> subst hl <;>
    interval_cases i <;> cases vx <;>
    simp [prefixCands, branch1Cands, branch2Cands, vexCands, altCands, wlCands, matchLit,
      show ("VEX.".toList) = ['V', 'E', 'X', '.'] from rfl,
      show ("NP.".toList) = ['N', 'P', '.'] from rfl,
      show ("66.".toList) = ['6', '6', '.'] from rfl,
      show ("F3.".toList) = ['F', '3', '.'] from rfl,
      show ("F2.".toList) = ['F', '2', '.'] from rfl,
      show ("NP".toList) = ['N', 'P'] from rfl,
      show ("66".toList) = ['6', '6'] from rfl,
      show ("F2".toList) = ['F', '2'] from rfl,
      show ("F3".toList) = ['F', '3'] from rfl,
      show ("0".toList) = ['0'] from rfl,
      show ("1".toList) = ['1'] from rfl,
      show ("IG".toList) = ['I', 'G'] from rfl]

set_option maxHeartbeats 2000000 in
theorem front_rep (i : Nat) (hi : i = 0 ∨ i = 2 ∨ i = 3) (t : List Char) :
    (prefixCands (((["RNP.", "??.", "RF3.", "RF2."] : List String).getD i "").toList ++
        t)).head? =
      some (PrefixGroups.rep ((["NP", "66", "F3", "F2"] : List String).getD i ""), t) := by
  rcases hi with hi | hi | hi <;> subst hi <;>
    simp [prefixCands, branch1Cands, branch2Cands, vexCands, altCands, wlCands, matchLit,
      show ("RNP.".toList) = ['R', 'N', 'P', '.'] from rfl,
      show ("RF3.".toList) = ['R', 'F', '3', '.'] from rfl,
      show ("RF2.".toList) = ['R', 'F', '2', '.'] from rfl,
      show ("VEX.".toList) = ['V', 'E', 'X', '.'] from rfl,
      show ("NP".toList) = ['N', 'P'] from rfl,
      show ("66".toList) = ['6', '6'] from rfl,
      show ("F2".toList) = ['F', '2'] from rfl,
      show ("F3".toList) = ['F', '3'] from rfl]

theorem eq_cons_of_head? {α : Type} (l : List α) (x : α) (h : l.head? = some x) :
    l = x :: l.tail := by
  cases l with
  | nil => cases h
  | cons a t =>
    injection h with h1
    rw [h1]
    rfl

theorem head?_flatMap_of {α β : Type} {f : α → List β} {l : List α} {x : α} {y : β}
    (hl : l.head? = some x) (hfy : (f x).head? = some y) :
    (l.flatMap f).head? = some y := by
  rw [eq_cons_of_head? l x hl, List.flatMap_cons, eq_cons_of_head? _ _ hfy]
  rfl

set_option maxHeartbeats 2000000 in
theorem back_opcode (es : Nat) (h4 : es < 4) (d1 d2 : Char) (h1 : isHexChar d1 = true)
    (h2 : isHexChar d2 = true) (M : List Char)
    (hM : M = [] ∨ ∃ dv, M = ['/', dv]) :
    (opcodeCands (((["", "0f", "0f38", "0f3a"] : List String).getD es "").toList ++
        ([d1, d2] ++ M))).head? =
      some (((["", "0f", "0f38", "0f3a"] : List String).getD es "").toList ++ [d1, d2], M) := by
  rcases hM with hM | ⟨dv, hM⟩ <;> subst hM <;> interval_cases es <;>
    simp [opcodeCands, maxHexPairs, h1, h2, List.range_succ,
      show isHexChar '0' = true from rfl,
      show isHexChar 'f' = true from rfl,
      show isHexChar '3' = true from rfl,
      show isHexChar '8' = true from rfl,
      show isHexChar 'a' = true from rfl,
      show isHexChar '/' = false from rfl,
      show ("".toList) = ([] : List Char) from rfl,
      show ("0f".toList) = ['0', 'f'] from rfl,
      show ("0f38".toList) = ['0', 'f', '3', '8'] from rfl,
      show ("0f3a".toList) = ['0', 'f', '3', 'a'] from rfl]

theorem modrm_nil : modrmCands [] = [(none, [])] := rfl

theorem modrm_slash (dv : Char) (v : Nat) (hd : digit07 dv = some v) :
    modrmCands ['/', dv] = [(some (false, v), []), (none, ['/', dv])] := by
  have hslash : (dv = '/') = False := eq_false fun he => by
    rw [he] at hd
    simp [digit07] at hd
  simp [modrmCands, hd, hslash]

theorem regex_head (cs : List Char) (g : PrefixGroups) (t o M : List Char)
    (mo : Option (Bool × Nat))
    (hp : (prefixCands cs).head? = some (g, t))
    (ho : (opcodeCands t).head? = some (o, M))
    (hm : (modrmCands M).head? = some (mo, [])) :
    (opcodeRegexMatches cs).head? = some ⟨g, o, mo, false⟩ := by
  unfold opcodeRegexMatches
  refine head?_flatMap_of hp ?_
  refine head?_flatMap_of ho ?_
  refine head?_flatMap_of hm ?_
  rfl

theorem hexVal_lt (c : Char) (h : isHexChar c = true) : hexVal c < 16 := by
  simp only [isHexChar, Bool.or_eq_true, decide_eq_true_eq] at h
  unfold hexVal
  rcases h with ⟨ha, hb⟩ | ⟨ha, hb⟩
  · rw [if_pos (by omega)]
    omega
  · rw [if_neg (by omega)]
    omega

theorem digit07_lt (c : Char) (d : Nat) (h : digit07 c = some d) : d < 8 := by
  unfold digit07 at h
  by_cases hc : 48 ≤ c.toNat ∧ c.toNat ≤ 55
  · rw [if_pos hc] at h
    injection h with h1
    omega
  · rw [if_neg hc] at h
    cases h

theorem hexStrVal_aux : ∀ (cs : List Char) (v : Nat), (∀ c ∈ cs, isHexChar c = true) →
    List.foldl (fun v c => v * 16 + hexVal c) v cs < (v + 1) * 16 ^ cs.length := by
  intro cs
  induction cs with
  | nil =>
    intro v h
    simp
  | cons c cs ih =>
    intro v h
    rw [List.foldl_cons]
    have h1 := hexVal_lt c (h c (by simp))
    have h2 := ih (v * 16 + hexVal c) (fun x hx => h x (by simp [hx]))
    have hb : v * 16 + hexVal c + 1 ≤ (v + 1) * 16 := by omega
    have h3 : (v * 16 + hexVal c + 1) * 16 ^ cs.length ≤ ((v + 1) * 16) * 16 ^ cs.length :=
      Nat.mul_le_mul_right _ hb
    have h4 : ((v + 1) * 16) * 16 ^ cs.length = (v + 1) * 16 ^ (cs.length + 1) := by ring
    simp only [List.length_cons]
    exact lt_of_lt_of_le h2 (by rw [← h4]; exact h3)

theorem hexStrVal_lt_256 (cs : List Char) (hlen : cs.length ≤ 2)
    (h : ∀ c ∈ cs, isHexChar c = true) : hexStrVal cs < 256 := by
  have haux := hexStrVal_aux cs 0 h
  have hp : (16 : Nat) ^ cs.length ≤ 256 := by
    have h012 : cs.length = 0 ∨ cs.length = 1 ∨ cs.length = 2 := by omega
    rcases h012 with h0 | h0 | h0 <;> rw [h0] <;> norm_num
  unfold hexStrVal
  calc List.foldl (fun v c => v * 16 + hexVal c) 0 cs
      < (0 + 1) * 16 ^ cs.length := haux
    _ ≤ 256 := by simpa using hp

theorem maxHexPairs_take_hex : ∀ (t : List Char) (k : Nat), k ≤ maxHexPairs t →
    ∀ c ∈ t.take (2 * k), isHexChar c = true := by
  intro t k
  induction k generalizing t with
  | zero =>
    intro hk c hc
    simp at hc
  | succ k2 ih =>
    intro hk c hc
    cases t with
    | nil =>
      have h0 : maxHexPairs ([] : List Char) = 0 := rfl
      omega
    | cons a u =>
      cases u with
      | nil =>
        have h0 : maxHexPairs [a] = 0 := rfl
        omega
      | cons b rest =>
        by_cases hab : (isHexChar a && isHexChar b) = true
        · have heq : maxHexPairs (a :: b :: rest) = maxHexPairs rest + 1 := by
            rw [maxHexPairs, if_pos hab]
          rw [heq] at hk
          rw [show 2 * (k2 + 1) = 2 * k2 + 1 + 1 from by omega] at hc
          simp only [List.take_succ_cons, List.mem_cons] at hc
          rw [Bool.and_eq_true] at hab
          rcases hc with hc | hc | hc
          · subst hc
            exact hab.1
          · subst hc
            exact hab.2
          · exact ih rest (by omega) c hc
        · have heq : maxHexPairs (a :: b :: rest) = 0 := by
            rw [maxHexPairs, if_neg hab]
          omega

theorem branch1_shape (s : List Char) (x : PrefixGroups × List Char)
    (h : x ∈ branch1Cands s) : ∃ v lg w l, x.1 = PrefixGroups.legacy v lg w l := by
  unfold branch1Cands at h
  obtain ⟨vc, hvc, h⟩ := List.mem_flatMap.mp h
  obtain ⟨lg, hlg, h⟩ := List.mem_flatMap.mp h
  cases hsp : lg.2 with
  | nil =>
    rw [hsp] at h
    cases h
  | cons c s3 =>
    rw [hsp] at h
    by_cases hdot : c = '.'
    · subst hdot
      simp only at h
      obtain ⟨wc, hwc, h⟩ := List.mem_flatMap.mp h
      obtain ⟨lc, hlc, hx⟩ := List.mem_map.mp h
      exact ⟨vc.1, lg.1, wc.1, lc.1, by rw [← hx]⟩
    · have : (match c :: s3 with
          | '.' :: s3 => (wlCands 'W' s3).flatMap (fun w =>
              (wlCands 'L' w.2).map (fun l => (PrefixGroups.legacy vc.1 lg.1 w.1 l.1, l.2)))
          | _ => ([] : List (PrefixGroups × List Char))) = [] := by
        split
        · rename_i heq
          injection heq with heq1
          exact absurd heq1 hdot
        · rfl
      rw [this] at h
      cases h

theorem branch2_shape (s : List Char) (x : PrefixGroups × List Char)
    (h : x ∈ branch2Cands s) :
    ∃ rp, x.1 = PrefixGroups.rep rp ∧ rp ∈ (["NP", "F2", "F3"] : List String) := by
  unfold branch2Cands at h
  split at h
  · obtain ⟨rc, hrc, h⟩ := List.mem_flatMap.mp h
    have hmem := (altCands_mem hrc).1
    split at h
    · split at h
      · cases h
      · simp only [List.mem_singleton] at h
        rw [h]
        exact ⟨rc.1, rfl, hmem⟩
    · cases h
  · cases h

theorem modrm_shape (s : List Char) (x : Option (Bool × Nat) × List Char)
    (h : x ∈ modrmCands s) : ∀ v, x.1 = some (false, v) → v < 8 := by
  intro v hv
  unfold modrmCands at h
  rcases List.mem_append.mp h with h1 | h1
  · rcases List.mem_append.mp h1 with h2 | h2
    · rcases List.mem_append.mp h2 with h3 | h3
      · split at h3
        · split at h3
          · simp only [List.mem_singleton] at h3
            rw [h3] at hv
            injection hv with hv1
            injection hv1 with ha hb
            cases ha
          · cases h3
        · cases h3
      · split at h3
        · split at h3
          · rename_i d heq
            simp only [List.mem_singleton] at h3
            rw [h3] at hv
            injection hv with hv1
            injection hv1 with ha hb
            rw [← hb]
            exact digit07_lt _ d heq
          · cases h3
        · cases h3
    · split at h2
      · split at h2
        · simp only [List.mem_singleton] at h2
          rw [h2] at hv
          injection hv with hv1
          injection hv1 with ha hb
          cases ha
        · cases h2
      · cases h2
  · simp only [List.mem_singleton] at h1
    rw [h1] at hv
    cases hv

theorem matches_inv (t : List Char) (m : OpcodeMatch) (h : m ∈ opcodeRegexMatches t) :
    (∀ ch ∈ m.opcodeStr, isHexChar ch = true) ∧
    (m.pfxg = .noPfx ∨ (∃ v lg w l, m.pfxg = .legacy v lg w l) ∨
      (∃ rp, m.pfxg = .rep rp ∧ rp ∈ (["NP", "F2", "F3"] : List String))) ∧
    (∀ v, m.modrm = some (false, v) → v < 8) := by
  unfold opcodeRegexMatches at h
  obtain ⟨pf, hpf, h⟩ := List.mem_flatMap.mp h
  obtain ⟨opc, hopc, h⟩ := List.mem_flatMap.mp h
  obtain ⟨mo, hmo, h⟩ := List.mem_flatMap.mp h
  obtain ⟨ex, hexm, hcond⟩ := List.mem_filterMap.mp h
  have hmEq : m = ⟨pf.1, opc.1, mo.1, ex.1⟩ := by
    split at hcond
    · injection hcond with h1
      exact h1.symm
    · cases hcond
  subst hmEq
  refine ⟨?_, ?_, ?_⟩
  · unfold opcodeCands at hopc
    obtain ⟨i, hi, heq⟩ := List.mem_map.mp hopc
    intro ch hch
    have h1 := congrArg Prod.fst heq
    simp only at h1
    rw [← h1] at hch
    exact maxHexPairs_take_hex pf.2 (maxHexPairs pf.2 - i) (by omega) ch hch
  · unfold prefixCands at hpf
    rcases List.mem_append.mp hpf with h1 | hs
    · rcases List.mem_append.mp h1 with hb1 | hb2
      · right
        left
        exact branch1_shape _ _ hb1
      · right
        right
        exact branch2_shape _ _ hb2
    · left
      simp only [List.mem_singleton] at hs
      rw [hs]
  · exact modrm_shape _ _ hmo

theorem parse_facts (s : String) (c : Opcode) (hp : Opcode.parse s = .ok (some c)) :
    c.escape < 4 ∧ c.opc < 256 ∧ (∀ v, c.opcext = some (false, v) → v < 8) ∧
      ((c.pfx = none ∧ c.vex = false ∧ c.vexl = none ∧ c.rexw = none) ∨
       (∃ i, i < 4 ∧ c.pfx = some (false, i)) ∨
       (∃ i, (i = 0 ∨ i = 2 ∨ i = 3) ∧ c.pfx = some (true, i) ∧ c.vex = false ∧
         c.vexl = none ∧ c.rexw = none)) := by
  unfold Opcode.parse at hp
  split at hp
  · injection hp with h1
    exact Option.noConfusion h1
  · rename_i m hm
    have hmem : m ∈ opcodeRegexMatches s.toList := by
      rw [eq_cons_of_head? _ _ hm]
      simp
    obtain ⟨hhex, hshape, hmod⟩ := matches_inv s.toList m hmem
    split at hp
    · cases hp
    · rcases hshape with hs | hs | hs
      · simp only [hs] at hp
        split at hp
        · cases hp
        · rename_i esc hesc
          injection hp with hp1
          injection hp1 with hp2
          refine ⟨?_, ?_, ?_, ?_⟩
          · rw [← hp2]
            exact indexOf?_lt_length _ _ _ hesc
          · rw [← hp2]
            show hexStrVal (m.opcodeStr.drop (m.opcodeStr.length - 2)) < 256
            apply hexStrVal_lt_256
            · simp only [List.length_drop]
              omega
            · intro ch hch
              exact hhex ch (List.mem_of_mem_drop hch)
          · intro v hv
            rw [← hp2] at hv
            exact hmod v hv
          · left
            refine ⟨?_, ?_, ?_, ?_⟩ <;> rw [← hp2]
      · obtain ⟨v, lg, w, l, hs⟩ := hs
        simp only [hs] at hp
        split at hp
        · cases hp
        · rename_i esc hesc
          injection hp with hp1
          injection hp1 with hp2
          refine ⟨?_, ?_, ?_, ?_⟩
          · rw [← hp2]
            exact indexOf?_lt_length _ _ _ hesc
          · rw [← hp2]
            show hexStrVal (m.opcodeStr.drop (m.opcodeStr.length - 2)) < 256
            apply hexStrVal_lt_256
            · simp only [List.length_drop]
              omega
            · intro ch hch
              exact hhex ch (List.mem_of_mem_drop hch)
          · intro v2 hv
            rw [← hp2] at hv
            exact hmod v2 hv
          · right
            left
            refine ⟨((["NP", "66", "F3", "F2"] : List String).indexOf? lg).getD 0, ?_, ?_⟩
            · cases hio : ((["NP", "66", "F3", "F2"] : List String).indexOf? lg) with
              | none => simp [hio]
              | some j =>
                have := indexOf?_lt_length _ _ _ hio
                simpa [hio] using this
            · rw [← hp2]
      · obtain ⟨rp, hs, hmem2⟩ := hs
        simp only [hs] at hp
        split at hp
        · cases hp
        · rename_i esc hesc
          injection hp with hp1
          injection hp1 with hp2
          refine ⟨?_, ?_, ?_, ?_⟩
          · rw [← hp2]
            exact indexOf?_lt_length _ _ _ hesc
          · rw [← hp2]
            show hexStrVal (m.opcodeStr.drop (m.opcodeStr.length - 2)) < 256
            apply hexStrVal_lt_256
            · simp only [List.length_drop]
              omega
            · intro ch hch
              exact hhex ch (List.mem_of_mem_drop hch)
          · intro v hv
            rw [← hp2] at hv
            exact hmod v hv
          · right
            right
            refine ⟨((["NP", "66", "F3", "F2"] : List String).indexOf? rp).getD 0, ?_,
              by rw [← hp2], by rw [← hp2], by rw [← hp2], by rw [← hp2]⟩
            fin_cases hmem2 <;> decide

theorem escChars_hex (es : Nat) (h : es < 4) :
    ∀ ch ∈ ((["", "0f", "0f38", "0f3a"] : List String).getD es "").toList,
      isHexChar ch = true := by
  interval_cases es <;> decide

theorem escIndex (es : Nat) (h : es < 4) :
    (["", "0f", "0f38", "0f3a"] : List String).indexOf?
      ((["", "0f", "0f38", "0f3a"] : List String).getD es "") = some es := by
  interval_cases es <;> rfl

theorem escCons (es : Nat) (h : es < 4) (d : Char) (hd : isHexChar d = true) (r : List Char) :
    ∃ a u, ((["", "0f", "0f38", "0f3a"] : List String).getD es "").toList ++ (d :: r) = a :: u ∧
      (isHexChar a = true ∨ a = '/') := by
  interval_cases es
  · exact ⟨d, r, rfl, Or.inl hd⟩
  · exact ⟨'0', _, rfl, Or.inl (by decide)⟩
  · exact ⟨'0', _, rfl, Or.inl (by decide)⟩
  · exact ⟨'0', _, rfl, Or.inl (by decide)⟩

theorem escBits (es : Nat) (h : es < 4) (b : Nat) (hb : b ≤ 1) :
    (es ||| (b <<< 2)) % 4 = es ∧ (es ||| (b <<< 2)) >>> 2 = b := by
  interval_cases es <;> interval_cases b <;> decide

theorem hexStrVal_pair (oc : Nat) (h : oc < 256) :
    hexStrVal [hexDigitChar (oc / 16), hexDigitChar (oc % 16)] = oc := by
  unfold hexStrVal
  simp only [List.foldl_cons, List.foldl_nil]
  rw [hexVal_hexDigitChar (oc / 16) (by omega), hexVal_hexDigitChar (oc % 16) (by omega)]
  omega

theorem rt_none (es oc : Nat) (h4 : es < 4) (h256 : oc < 256) :
    ∃ p s2, Opcode.forTrie ⟨none, es, oc, none, false, false, none, none⟩ = [p] ∧
      format_opcode p = .ok s2 ∧
      Opcode.parse s2 = .ok (some ⟨none, es, oc, none, false, false, none, none⟩) := by
  have hd1 : isHexChar (hexDigitChar (oc / 16)) = true := hexDigitChar_hex _ (by omega)
  have hd2 : isHexChar (hexDigitChar (oc % 16)) = true := hexDigitChar_hex _ (by omega)
  have hmod4 : es % 4 = es := by omega
  have hshr : es >>> 2 = 0 := by
    rw [Nat.shiftRight_eq_div_pow]
    omega
  refine ⟨[(.TABLE_ROOT, es), (.TABLE256, oc)],
    String.mk (((["", "0f", "0f38", "0f3a"] : List String).getD es "").toList ++
      [hexDigitChar (oc / 16), hexDigitChar (oc % 16)]), ?_, ?_, ?_⟩
  · simp [Opcode.forTrie, Opcode.stages, Opcode.opcextStage, Opcode.pfxStage, Opcode.vexStage,
      Opcode.vexGuard, cartProd]
  · simp only [format_opcode, List.foldlM, bind, Except.bind, hmod4, hshr,
      hex2_eq oc h256]
    rfl
  · have hchars : ∀ ch ∈ ((["", "0f", "0f38", "0f3a"] : List String).getD es "").toList ++
        ([hexDigitChar (oc / 16), hexDigitChar (oc % 16)] ++ []),
        isHexChar ch = true ∨ ch = '/' := by
      intro ch hch
      rcases List.mem_append.mp hch with hch | hch
      · exact Or.inl (escChars_hex es h4 ch hch)
      · simp only [List.append_nil, List.mem_cons, List.not_mem_nil, or_false] at hch
        rcases hch with hch | hch
        · subst hch
          exact Or.inl hd1
        · subst hch
          exact Or.inl hd2
    have hfront := front_none _ hchars
    have hback := back_opcode es h4 _ _ hd1 hd2 [] (Or.inl rfl)
    have hhead := regex_head
      (((["", "0f", "0f38", "0f3a"] : List String).getD es "").toList ++
        ([hexDigitChar (oc / 16), hexDigitChar (oc % 16)] ++ []))
      .noPfx _ _ [] none (by rw [hfront]; rfl) hback rfl
    show Opcode.parse _ = _
    unfold Opcode.parse
    rw [show (String.mk (((["", "0f", "0f38", "0f3a"] : List String).getD es "").toList ++
      [hexDigitChar (oc / 16), hexDigitChar (oc % 16)])).toList =
      (((["", "0f", "0f38", "0f3a"] : List String).getD es "").toList ++
      ([hexDigitChar (oc / 16), hexDigitChar (oc % 16)] ++ [])) from rfl]
    rw [hhead]
    simp only [Bool.false_and, Bool.and_self, if_false]
    have hlen : ((((["", "0f", "0f38", "0f3a"] : List String).getD es "").toList ++
        [hexDigitChar (oc / 16), hexDigitChar (oc % 16)]).length - 2) =
        (((["", "0f", "0f38", "0f3a"] : List String).getD es "").toList).length := by
      simp [List.length_append]
    rw [hlen, List.take_left, List.drop_left]
    have : String.mk ((["", "0f", "0f38", "0f3a"] : List String).getD es "").toList =
        (["", "0f", "0f38", "0f3a"] : List String).getD es "" := rfl
    rw [this, escIndex es h4]
    rw [show hexStrVal [hexDigitChar (oc / 16), hexDigitChar (oc % 16)] = oc from
      hexStrVal_pair oc h256]
    rfl

theorem strToList_append (a b : String) : (a ++ b).toList = a.toList ++ b.toList := rfl

theorem strToList_mk (l : List Char) : (String.mk l).toList = l := rfl

theorem str_eq_of_toList {a b : String} (h : a.toList = b.toList) : a = b := by
  cases a with
  | mk da =>
    cases b with
    | mk db =>
      exact congrArg String.mk h

theorem rt_none8 (es oc v : Nat) (h4 : es < 4) (h256 : oc < 256) (hv8 : v < 8) :
    ∃ p s2, Opcode.forTrie ⟨none, es, oc, some (false, v), false, false, none, none⟩ = [p] ∧
      format_opcode p = .ok s2 ∧
      Opcode.parse s2 =
        .ok (some ⟨none, es, oc, some (false, v), false, false, none, none⟩) := by
  have hd1 : isHexChar (hexDigitChar (oc / 16)) = true := hexDigitChar_hex _ (by omega)
  have hd2 : isHexChar (hexDigitChar (oc % 16)) = true := hexDigitChar_hex _ (by omega)
  have hdv : isHexChar (hexDigitChar v) = true := hexDigitChar_hex _ (by omega)
  have hmod4 : es % 4 = es := by omega
  have hshr : es >>> 2 = 0 := by
    rw [Nat.shiftRight_eq_div_pow]
    omega
  refine ⟨[(.TABLE_ROOT, es), (.TABLE256, oc), (.TABLE8, v)],
    String.mk (((["", "0f", "0f38", "0f3a"] : List String).getD es "").toList ++
      ([hexDigitChar (oc / 16), hexDigitChar (oc % 16)] ++ ['/', hexDigitChar v])),
    ?_, ?_, ?_⟩
  · simp [Opcode.forTrie, Opcode.stages, Opcode.opcextStage, Opcode.pfxStage, Opcode.vexStage,
      Opcode.vexGuard, cartProd, hv8]
  · simp only [format_opcode, List.foldlM, bind, Except.bind, hmod4, hshr,
      hex2_eq oc h256, hex1_lt16 v (by omega)]
    refine congrArg Except.ok (str_eq_of_toList ?_)
    simp [strToList_append, strToList_mk, List.append_assoc]
  · have hchars : ∀ ch ∈ ((["", "0f", "0f38", "0f3a"] : List String).getD es "").toList ++
        ([hexDigitChar (oc / 16), hexDigitChar (oc % 16)] ++ ['/', hexDigitChar v]),
        isHexChar ch = true ∨ ch = '/' := by
      intro ch hch
      rcases List.mem_append.mp hch with hch | hch
      · exact Or.inl (escChars_hex es h4 ch hch)
      · simp only [List.cons_append, List.nil_append, List.mem_cons, List.not_mem_nil,
          or_false] at hch
        rcases hch with hch | hch | hch | hch <;> subst hch
        · exact Or.inl hd1
        · exact Or.inl hd2
        · exact Or.inr rfl
        · exact Or.inl hdv
    have hfront := front_none _ hchars
    have hback := back_opcode es h4 _ _ hd1 hd2 ['/', hexDigitChar v]
      (Or.inr ⟨hexDigitChar v, rfl⟩)
    have hmodr : (modrmCands ['/', hexDigitChar v]).head? = some (some (false, v), []) := by
      rw [modrm_slash (hexDigitChar v) v (digit07_hexDigitChar v hv8)]
      rfl
    have hhead := regex_head
      (((["", "0f", "0f38", "0f3a"] : List String).getD es "").toList ++
        ([hexDigitChar (oc / 16), hexDigitChar (oc % 16)] ++ ['/', hexDigitChar v]))
      .noPfx _ _ ['/', hexDigitChar v] (some (false, v)) (by rw [hfront]; rfl) hback hmodr
    show Opcode.parse _ = _
    unfold Opcode.parse
    rw [show (String.mk (((["", "0f", "0f38", "0f3a"] : List String).getD es "").toList ++
      ([hexDigitChar (oc / 16), hexDigitChar (oc % 16)] ++ ['/', hexDigitChar v]))).toList =
      (((["", "0f", "0f38", "0f3a"] : List String).getD es "").toList ++
      ([hexDigitChar (oc / 16), hexDigitChar (oc % 16)] ++ ['/', hexDigitChar v])) from rfl]
    rw [hhead]
    simp only [Bool.false_and, Bool.and_self, if_false]
    have hlen : ((((["", "0f", "0f38", "0f3a"] : List String).getD es "").toList ++
        [hexDigitChar (oc / 16), hexDigitChar (oc % 16)]).length - 2) =
        (((["", "0f", "0f38", "0f3a"] : List String).getD es "").toList).length := by
      simp [List.length_append]
    rw [hlen, List.take_left, List.drop_left]
    have hmk : String.mk ((["", "0f", "0f38", "0f3a"] : List String).getD es "").toList =
        (["", "0f", "0f38", "0f3a"] : List String).getD es "" := rfl
    rw [hmk, escIndex es h4]
    rw [show hexStrVal [hexDigitChar (oc / 16), hexDigitChar (oc % 16)] = oc from
      hexStrVal_pair oc h256]
    rfl

theorem repIndex (i : Nat) (hi : i = 0 ∨ i = 2 ∨ i = 3) :
    ((["NP", "66", "F3", "F2"] : List String).indexOf?
      ((["NP", "66", "F3", "F2"] : List String).getD i "")).getD 0 = i := by
  rcases hi with h | h | h <;> subst h <;> rfl

theorem rt_rep (i es oc : Nat) (hi : i = 0 ∨ i = 2 ∨ i = 3) (h4 : es < 4) (h256 : oc < 256) :
    ∃ p s2, Opcode.forTrie ⟨some (true, i), es, oc, none, false, false, none, none⟩ = [p] ∧
      format_opcode p = .ok s2 ∧
      Opcode.parse s2 =
        .ok (some ⟨some (true, i), es, oc, none, false, false, none, none⟩) := by
  have hd1 : isHexChar (hexDigitChar (oc / 16)) = true := hexDigitChar_hex _ (by omega)
  have hd2 : isHexChar (hexDigitChar (oc % 16)) = true := hexDigitChar_hex _ (by omega)
  have hmod4 : es % 4 = es := by omega
  have hshr : es >>> 2 = 0 := by
    rw [Nat.shiftRight_eq_div_pow]
    omega
  have hi4 : i % 4 = i := by rcases hi with h | h | h <;> subst h <;> rfl
  refine ⟨[(.TABLE_ROOT, es), (.TABLE256, oc), (.TABLE_PFX_REP, i)],
    String.mk (((["RNP.", "??.", "RF3.", "RF2."] : List String).getD i "").toList ++
      (((["", "0f", "0f38", "0f3a"] : List String).getD es "").toList ++
        ([hexDigitChar (oc / 16), hexDigitChar (oc % 16)] ++ []))), ?_, ?_, ?_⟩
  · simp [Opcode.forTrie, Opcode.stages, Opcode.opcextStage, Opcode.pfxStage, Opcode.vexStage,
      Opcode.vexGuard, cartProd]
  · simp only [format_opcode, List.foldlM, bind, Except.bind, hmod4, hshr, hi4,
      hex2_eq oc h256]
    refine congrArg Except.ok (str_eq_of_toList ?_)
    simp [strToList_append, strToList_mk, List.append_assoc]
  · have hfront := front_rep i hi
      (((["", "0f", "0f38", "0f3a"] : List String).getD es "").toList ++
        ([hexDigitChar (oc / 16), hexDigitChar (oc % 16)] ++ []))
    have hback := back_opcode es h4 _ _ hd1 hd2 [] (Or.inl rfl)
    have hhead := regex_head _ _ _ _ [] none hfront hback rfl
    show Opcode.parse _ = _
    unfold Opcode.parse
    rw [show (String.mk (((["RNP.", "??.", "RF3.", "RF2."] : List String).getD i "").toList ++
      (((["", "0f", "0f38", "0f3a"] : List String).getD es "").toList ++
        ([hexDigitChar (oc / 16), hexDigitChar (oc % 16)] ++ [])))).toList =
      (((["RNP.", "??.", "RF3.", "RF2."] : List String).getD i "").toList ++
      (((["", "0f", "0f38", "0f3a"] : List String).getD es "").toList ++
        ([hexDigitChar (oc / 16), hexDigitChar (oc % 16)] ++ []))) from rfl]
    rw [hhead]
    simp only [Bool.false_and, Bool.and_self, if_false]
    have hlen : ((((["", "0f", "0f38", "0f3a"] : List String).getD es "").toList ++
        [hexDigitChar (oc / 16), hexDigitChar (oc % 16)]).length - 2) =
        (((["", "0f", "0f38", "0f3a"] : List String).getD es "").toList).length := by
      simp [List.length_append]
    rw [hlen, List.take_left, List.drop_left]
    have hmk : String.mk ((["", "0f", "0f38", "0f3a"] : List String).getD es "").toList =
        (["", "0f", "0f38", "0f3a"] : List String).getD es "" := rfl
    rw [hmk, escIndex es h4]
    rw [show hexStrVal [hexDigitChar (oc / 16), hexDigitChar (oc % 16)] = oc from
      hexStrVal_pair oc h256]
    rw [repIndex i hi]
    rfl

theorem rt_rep8 (i es oc v : Nat) (hi : i = 0 ∨ i = 2 ∨ i = 3) (h4 : es < 4) (h256 : oc < 256)
    (hv8 : v < 8) :
    ∃ p s2,
      Opcode.forTrie ⟨some (true, i), es, oc, some (false, v), false, false, none, none⟩ =
        [p] ∧
      format_opcode p = .ok s2 ∧
      Opcode.parse s2 =
        .ok (some ⟨some (true, i), es, oc, some (false, v), false, false, none, none⟩) := by
  have hd1 : isHexChar (hexDigitChar (oc / 16)) = true := hexDigitChar_hex _ (by omega)
  have hd2 : isHexChar (hexDigitChar (oc % 16)) = true := hexDigitChar_hex _ (by omega)
  have hmod4 : es % 4 = es := by omega
  have hshr : es >>> 2 = 0 := by
    rw [Nat.shiftRight_eq_div_pow]
    omega
  have hi4 : i % 4 = i := by rcases hi with h | h | h <;> subst h <;> rfl
  refine ⟨[(.TABLE_ROOT, es), (.TABLE256, oc), (.TABLE8, v), (.TABLE_PFX_REP, i)],
    String.mk (((["RNP.", "??.", "RF3.", "RF2."] : List String).getD i "").toList ++
      (((["", "0f", "0f38", "0f3a"] : List String).getD es "").toList ++
        ([hexDigitChar (oc / 16), hexDigitChar (oc % 16)] ++ ['/', hexDigitChar v]))),
    ?_, ?_, ?_⟩
  · simp [Opcode.forTrie, Opcode.stages, Opcode.opcextStage, Opcode.pfxStage, Opcode.vexStage,
      Opcode.vexGuard, cartProd, hv8]
  · simp only [format_opcode, List.foldlM, bind, Except.bind, hmod4, hshr, hi4,
      hex2_eq oc h256, hex1_lt16 v (by omega)]
    refine congrArg Except.ok (str_eq_of_toList ?_)
    simp [strToList_append, strToList_mk, List.append_assoc]
  · have hfront := front_rep i hi
      (((["", "0f", "0f38", "0f3a"] : List String).getD es "").toList ++
        ([hexDigitChar (oc / 16), hexDigitChar (oc % 16)] ++ ['/', hexDigitChar v]))
    have hback := back_opcode es h4 _ _ hd1 hd2 ['/', hexDigitChar v]
      (Or.inr ⟨hexDigitChar v, rfl⟩)
    have hmodr : (modrmCands ['/', hexDigitChar v]).head? = some (some (false, v), []) := by
      rw [modrm_slash (hexDigitChar v) v (digit07_hexDigitChar v hv8)]
      rfl
    have hhead := regex_head _ _ _ _ ['/', hexDigitChar v] (some (false, v)) hfront hback hmodr
    show Opcode.parse _ = _
    unfold Opcode.parse
    rw [show (String.mk (((["RNP.", "??.", "RF3.", "RF2."] : List String).getD i "").toList ++
      (((["", "0f", "0f38", "0f3a"] : List String).getD es "").toList ++
        ([hexDigitChar (oc / 16), hexDigitChar (oc % 16)] ++ ['/', hexDigitChar v])))).toList =
      (((["RNP.", "??.", "RF3.", "RF2."] : List String).getD i "").toList ++
      (((["", "0f", "0f38", "0f3a"] : List String).getD es "").toList ++
        ([hexDigitChar (oc / 16), hexDigitChar (oc % 16)] ++ ['/', hexDigitChar v]))) from rfl]
    rw [hhead]
    simp only [Bool.false_and, Bool.and_self, if_false]
    have hlen : ((((["", "0f", "0f38", "0f3a"] : List String).getD es "").toList ++
        [hexDigitChar (oc / 16), hexDigitChar (oc % 16)]).length - 2) =
        (((["", "0f", "0f38", "0f3a"] : List String).getD es "").toList).length := by
      simp [List.length_append]
    rw [hlen, List.take_left, List.drop_left]
    have hmk : String.mk ((["", "0f", "0f38", "0f3a"] : List String).getD es "").toList =
        (["", "0f", "0f38", "0f3a"] : List String).getD es "" := rfl
    rw [hmk, escIndex es h4]
    rw [show hexStrVal [hexDigitChar (oc / 16), hexDigitChar (oc % 16)] = oc from
      hexStrVal_pair oc h256]
    rw [repIndex i hi]
    rfl

theorem legIndex (i : Nat) (hi : i < 4) :
    ((["NP", "66", "F3", "F2"] : List String).indexOf?
      ((["NP", "66", "F3", "F2"] : List String).getD i "")).getD 0 = i := by
  interval_cases i <;> rfl

theorem getVexStr (vx : Bool) :
    (["", "VEX."] : List String).get? ((if vx then 1 else 0) : Nat) =
      some (if vx then "VEX." else "") := by
  cases vx <;> rfl

theorem and4_eq_zero (i : Nat) (h : i < 4) : i &&& 4 = 0 := by
  interval_cases i <;> rfl

theorem vexStrToList (vx : Bool) :
    (if vx then ("VEX." : String) else "").toList =
      (if vx then ['V', 'E', 'X', '.'] else []) := by
  cases vx <;> rfl

theorem vexStrData (vx : Bool) :
    (if vx then ("VEX." : String) else "").data =
      (if vx then ['V', 'E', 'X', '.'] else []) := by
  cases vx <;> rfl

theorem rt_leg_nn (vx : Bool) (i es oc : Nat) (hi : i < 4) (h4 : es < 4) (h256 : oc < 256) :
    ∃ p s2, Opcode.forTrie ⟨some (false, i), es, oc, none, false, vx, none, none⟩ = [p] ∧
      format_opcode p = .ok s2 ∧
      Opcode.parse s2 =
        .ok (some ⟨some (false, i), es, oc, none, false, vx, none, none⟩) := by
  have hd1 : isHexChar (hexDigitChar (oc / 16)) = true := hexDigitChar_hex _ (by omega)
  have hd2 : isHexChar (hexDigitChar (oc % 16)) = true := hexDigitChar_hex _ (by omega)
  have hb : ((if vx then 1 else 0) : Nat) ≤ 1 := by cases vx <;> decide
  have hbits := escBits es h4 (if vx then 1 else 0) hb
  have hi4 : i % 4 = i := by omega
  refine ⟨[(.TABLE_ROOT, es ||| ((if vx then 1 else 0) <<< 2)), (.TABLE256, oc),
      (.TABLE_PFX, i)],
    String.mk (((if vx then ['V', 'E', 'X', '.'] else []) ++
        (((["NP.", "66.", "F3.", "F2."] : List String).getD i "").toList)) ++
      ((((["", "0f", "0f38", "0f3a"] : List String).getD es "").toList) ++
        (hexDigitChar (oc / 16) :: hexDigitChar (oc % 16) :: []))), ?_, ?_, ?_⟩
  · simp [Opcode.forTrie, Opcode.stages, Opcode.opcextStage, Opcode.pfxStage, Opcode.vexStage,
      Opcode.vexGuard, cartProd]
  · simp only [format_opcode, List.foldlM, bind, Except.bind, hbits.1, hbits.2, getVexStr,
      and4_eq_zero i hi, hi4, hex2_eq oc h256]
    refine congrArg Except.ok (str_eq_of_toList ?_)
    simp [strToList_append, strToList_mk, vexStrToList, vexStrData, List.append_assoc]
  · obtain ⟨a, u, hEq, hhex⟩ := escCons es h4 (hexDigitChar (oc / 16)) hd1
      (hexDigitChar (oc % 16) :: [])
    have hfront := front_legacy_nn vx i hi a u hhex
    rw [← hEq] at hfront
    have hback := back_opcode es h4 _ _ hd1 hd2 [] (Or.inl rfl)
    have hhead := regex_head _ _
      (((["", "0f", "0f38", "0f3a"] : List String).getD es "").toList ++
        (hexDigitChar (oc / 16) :: hexDigitChar (oc % 16) :: [])) _ [] none hfront hback rfl
    show Opcode.parse _ = _
    unfold Opcode.parse
    rw [show (String.mk (((if vx then ['V', 'E', 'X', '.'] else []) ++
        (((["NP.", "66.", "F3.", "F2."] : List String).getD i "").toList)) ++
      ((((["", "0f", "0f38", "0f3a"] : List String).getD es "").toList) ++
        (hexDigitChar (oc / 16) :: hexDigitChar (oc % 16) :: [])))).toList =
      ((if vx then ['V', 'E', 'X', '.'] else []) ++
        ((["NP.", "66.", "F3.", "F2."] : List String).getD i "").toList ++
        (((["", "0f", "0f38", "0f3a"] : List String).getD es "").toList ++
          (hexDigitChar (oc / 16) :: hexDigitChar (oc % 16) :: []))) from rfl]
    rw [hhead]
    simp only [Bool.false_and, Bool.and_self, if_false]
    have hlen : ((((["", "0f", "0f38", "0f3a"] : List String).getD es "").toList ++
        [hexDigitChar (oc / 16), hexDigitChar (oc % 16)]).length - 2) =
        (((["", "0f", "0f38", "0f3a"] : List String).getD es "").toList).length := by
      simp [List.length_append]
    rw [hlen, List.take_left, List.drop_left]
    have hmk : String.mk ((["", "0f", "0f38", "0f3a"] : List String).getD es "").toList =
        (["", "0f", "0f38", "0f3a"] : List String).getD es "" := rfl
    rw [hmk, escIndex es h4]
    rw [show hexStrVal [hexDigitChar (oc / 16), hexDigitChar (oc % 16)] = oc from
      hexStrVal_pair oc h256]
    rw [legIndex i hi]
    rfl

theorem rt_leg_nn8 (vx : Bool) (i es oc v : Nat) (hi : i < 4) (h4 : es < 4) (h256 : oc < 256)
    (hv8 : v < 8) :
    ∃ p s2,
      Opcode.forTrie ⟨some (false, i), es, oc, some (false, v), false, vx, none, none⟩ = [p] ∧
      format_opcode p = .ok s2 ∧
      Opcode.parse s2 =
        .ok (some ⟨some (false, i), es, oc, some (false, v), false, vx, none, none⟩) := by
  have hd1 : isHexChar (hexDigitChar (oc / 16)) = true := hexDigitChar_hex _ (by omega)
  have hd2 : isHexChar (hexDigitChar (oc % 16)) = true := hexDigitChar_hex _ (by omega)
  have hb : ((if vx then 1 else 0) : Nat) ≤ 1 := by cases vx <;> decide
  have hbits := escBits es h4 (if vx then 1 else 0) hb
  have hi4 : i % 4 = i := by omega
  refine ⟨[(.TABLE_ROOT, es ||| ((if vx then 1 else 0) <<< 2)), (.TABLE256, oc),
      (.TABLE8, v), (.TABLE_PFX, i)],
    String.mk (((if vx then ['V', 'E', 'X', '.'] else []) ++
        (((["NP.", "66.", "F3.", "F2."] : List String).getD i "").toList)) ++
      ((((["", "0f", "0f38", "0f3a"] : List String).getD es "").toList) ++
        (hexDigitChar (oc / 16) :: hexDigitChar (oc % 16) :: '/' :: hexDigitChar v :: []))),
    ?_, ?_, ?_⟩
  · simp [Opcode.forTrie, Opcode.stages, Opcode.opcextStage, Opcode.pfxStage, Opcode.vexStage,
      Opcode.vexGuard, cartProd, hv8]
  · simp only [format_opcode, List.foldlM, bind, Except.bind, hbits.1, hbits.2, getVexStr,
      and4_eq_zero i hi, hi4, hex2_eq oc h256, hex1_lt16 v (by omega)]
    refine congrArg Except.ok (str_eq_of_toList ?_)
    simp [strToList_append, strToList_mk, vexStrToList, vexStrData, List.append_assoc]
  · obtain ⟨a, u, hEq, hhex⟩ := escCons es h4 (hexDigitChar (oc / 16)) hd1
      (hexDigitChar (oc % 16) :: '/' :: hexDigitChar v :: [])
    have hfront := front_legacy_nn vx i hi a u hhex
    rw [← hEq] at hfront
    have hback := back_opcode es h4 _ _ hd1 hd2 ['/', hexDigitChar v]
      (Or.inr ⟨hexDigitChar v, rfl⟩)
    have hmodr : (modrmCands ['/', hexDigitChar v]).head? = some (some (false, v), []) := by
      rw [modrm_slash (hexDigitChar v) v (digit07_hexDigitChar v hv8)]
      rfl
    have hhead := regex_head _ _
      (((["", "0f", "0f38", "0f3a"] : List String).getD es "").toList ++
        (hexDigitChar (oc / 16) :: hexDigitChar (oc % 16) :: '/' :: hexDigitChar v :: []))
      (((["", "0f", "0f38", "0f3a"] : List String).getD es "").toList ++
        [hexDigitChar (oc / 16), hexDigitChar (oc % 16)])
      ['/', hexDigitChar v] (some (false, v)) hfront hback hmodr
    show Opcode.parse _ = _
    unfold Opcode.parse
    rw [show (String.mk (((if vx then ['V', 'E', 'X', '.'] else []) ++
        (((["NP.", "66.", "F3.", "F2."] : List String).getD i "").toList)) ++
      ((((["", "0f", "0f38", "0f3a"] : List String).getD es "").toList) ++
        (hexDigitChar (oc / 16) :: hexDigitChar (oc % 16) :: '/' :: hexDigitChar v :: [])))).toList =
      ((if vx then ['V', 'E', 'X', '.'] else []) ++
        ((["NP.", "66.", "F3.", "F2."] : List String).getD i "").toList ++
        (((["", "0f", "0f38", "0f3a"] : List String).getD es "").toList ++
          (hexDigitChar (oc / 16) :: hexDigitChar (oc % 16) :: '/' :: hexDigitChar v :: []))) from
      rfl]
    rw [hhead]
    simp only [Bool.false_and, Bool.and_self, if_false]
    have hlen : ((((["", "0f", "0f38", "0f3a"] : List String).getD es "").toList ++
        [hexDigitChar (oc / 16), hexDigitChar (oc % 16)]).length - 2) =
        (((["", "0f", "0f38", "0f3a"] : List String).getD es "").toList).length := by
      simp [List.length_append]
    rw [hlen, List.take_left, List.drop_left]
    have hmk : String.mk ((["", "0f", "0f38", "0f3a"] : List String).getD es "").toList =
        (["", "0f", "0f38", "0f3a"] : List String).getD es "" := rfl
    rw [hmk, escIndex es h4]
    rw [show hexStrVal [hexDigitChar (oc / 16), hexDigitChar (oc % 16)] = oc from
      hexStrVal_pair oc h256]
    rw [legIndex i hi]
    rfl

theorem toStringBit (b : Nat) (hb : b ≤ 1) :
    toString b = "0" ∨ toString b = "1" := by
  interval_cases b
  · exact Or.inl rfl
  · exact Or.inr rfl

theorem rt_leg_cc (vx : Bool) (i es oc wb lb : Nat) (hi : i < 4) (h4 : es < 4)
    (h256 : oc < 256) (hwb : wb ≤ 1) (hlb : lb ≤ 1) :
    ∃ p s2,
      Opcode.forTrie ⟨some (false, i), es, oc, none, false, vx, some (toString lb),
        some (toString wb)⟩ = [p] ∧
      format_opcode p = .ok s2 ∧
      Opcode.parse s2 = .ok (some ⟨some (false, i), es, oc, none, false, vx,
        some (toString lb), some (toString wb)⟩) := by
  have hd1 : isHexChar (hexDigitChar (oc / 16)) = true := hexDigitChar_hex _ (by omega)
  have hd2 : isHexChar (hexDigitChar (oc % 16)) = true := hexDigitChar_hex _ (by omega)
  have hb : ((if vx then 1 else 0) : Nat) ≤ 1 := by cases vx <;> decide
  have hbits := escBits es h4 (if vx then 1 else 0) hb
  have hi4 : i % 4 = i := by omega
  have hm2 : (wb + 2 * lb) % 2 = wb := by omega
  have hs1 : (wb + 2 * lb) >>> 1 = lb := by
    rw [Nat.shiftRight_eq_div_pow]
    omega
  have hvst : Opcode.vexStage ⟨some (false, i), es, oc, none, false, vx, some (toString lb),
      some (toString wb)⟩ = [(.TABLE_VEX, [wb + 2 * lb])] := by
    interval_cases wb <;> interval_cases lb <;>
      simp [Opcode.vexStage, Opcode.vexGuard, show toString (0 : Nat) = "0" from rfl,
        show toString (1 : Nat) = "1" from rfl]
  refine ⟨[(.TABLE_ROOT, es ||| ((if vx then 1 else 0) <<< 2)), (.TABLE256, oc),
      (.TABLE_PFX, i), (.TABLE_VEX, wb + 2 * lb)],
    String.mk ((if vx then ['V', 'E', 'X', '.'] else []) ++
      ((["NP.", "66.", "F3.", "F2."] : List String).getD i "").toList ++
      ('W' :: (toString wb).toList ++ '.' :: 'L' :: (toString lb).toList ++ '.' ::
        (((["", "0f", "0f38", "0f3a"] : List String).getD es "").toList ++
          ([hexDigitChar (oc / 16), hexDigitChar (oc % 16)] ++ [])))), ?_, ?_, ?_⟩
  · simp [Opcode.forTrie, Opcode.stages, Opcode.opcextStage, Opcode.pfxStage, hvst, cartProd]
  · simp only [format_opcode, List.foldlM, bind, Except.bind, hbits.1, hbits.2, getVexStr,
      and4_eq_zero i hi, hi4, hm2, hs1, hex2_eq oc h256]
    refine congrArg Except.ok (str_eq_of_toList ?_)
    simp [strToList_append, strToList_mk, vexStrToList, vexStrData, List.append_assoc,
      show ("W" : String).toList = ['W'] from rfl,
      show (".L" : String).toList = ['.', 'L'] from rfl,
      show ("." : String).toList = ['.'] from rfl]
  · have hfront := front_legacy_cc vx i hi (toString wb) (toString lb)
      (toStringBit wb hwb) (toStringBit lb hlb)
      (((["", "0f", "0f38", "0f3a"] : List String).getD es "").toList ++
        ([hexDigitChar (oc / 16), hexDigitChar (oc % 16)] ++ []))
    have hback := back_opcode es h4 _ _ hd1 hd2 [] (Or.inl rfl)
    have hhead := regex_head _ _ _ _ [] none hfront hback rfl
    show Opcode.parse _ = _
    unfold Opcode.parse
    rw [show (String.mk ((if vx then ['V', 'E', 'X', '.'] else []) ++
      ((["NP.", "66.", "F3.", "F2."] : List String).getD i "").toList ++
      ('W' :: (toString wb).toList ++ '.' :: 'L' :: (toString lb).toList ++ '.' ::
        (((["", "0f", "0f38", "0f3a"] : List String).getD es "").toList ++
          ([hexDigitChar (oc / 16), hexDigitChar (oc % 16)] ++ []))))).toList =
      ((if vx then ['V', 'E', 'X', '.'] else []) ++
      ((["NP.", "66.", "F3.", "F2."] : List String).getD i "").toList ++
      ('W' :: (toString wb).toList ++ '.' :: 'L' :: (toString lb).toList ++ '.' ::
        (((["", "0f", "0f38", "0f3a"] : List String).getD es "").toList ++
          ([hexDigitChar (oc / 16), hexDigitChar (oc % 16)] ++ [])))) from rfl]
    rw [hhead]
    simp only [Bool.false_and, Bool.and_self, if_false]
    have hlen : ((((["", "0f", "0f38", "0f3a"] : List String).getD es "").toList ++
        [hexDigitChar (oc / 16), hexDigitChar (oc % 16)]).length - 2) =
        (((["", "0f", "0f38", "0f3a"] : List String).getD es "").toList).length := by
      simp [List.length_append]
    rw [hlen, List.take_left, List.drop_left]
    have hmk : String.mk ((["", "0f", "0f38", "0f3a"] : List String).getD es "").toList =
        (["", "0f", "0f38", "0f3a"] : List String).getD es "" := rfl
    rw [hmk, escIndex es h4]
    rw [show hexStrVal [hexDigitChar (oc / 16), hexDigitChar (oc % 16)] = oc from
      hexStrVal_pair oc h256]
    rw [legIndex i hi]
    rfl

theorem rt_leg_cc8 (vx : Bool) (i es oc wb lb v : Nat) (hi : i < 4) (h4 : es < 4)
    (h256 : oc < 256) (hwb : wb ≤ 1) (hlb : lb ≤ 1) (hv8 : v < 8) :
    ∃ p s2,
      Opcode.forTrie ⟨some (false, i), es, oc, some (false, v), false, vx, some (toString lb),
        some (toString wb)⟩ = [p] ∧
      format_opcode p = .ok s2 ∧
      Opcode.parse s2 = .ok (some ⟨some (false, i), es, oc, some (false, v), false, vx,
        some (toString lb), some (toString wb)⟩) := by
  have hd1 : isHexChar (hexDigitChar (oc / 16)) = true := hexDigitChar_hex _ (by omega)
  have hd2 : isHexChar (hexDigitChar (oc % 16)) = true := hexDigitChar_hex _ (by omega)
  have hb : ((if vx then 1 else 0) : Nat) ≤ 1 := by cases vx <;> decide
  have hbits := escBits es h4 (if vx then 1 else 0) hb
  have hi4 : i % 4 = i := by omega
  have hm2 : (wb + 2 * lb) % 2 = wb := by omega
  have hs1 : (wb + 2 * lb) >>> 1 = lb := by
    rw [Nat.shiftRight_eq_div_pow]
    omega
  have hvst : Opcode.vexStage ⟨some (false, i), es, oc, some (false, v), false, vx,
      some (toString lb), some (toString wb)⟩ = [(.TABLE_VEX, [wb + 2 * lb])] := by
    interval_cases wb <;> interval_cases lb <;>
      simp [Opcode.vexStage, Opcode.vexGuard, show toString (0 : Nat) = "0" from rfl,
        show toString (1 : Nat) = "1" from rfl]
  refine ⟨[(.TABLE_ROOT, es ||| ((if vx then 1 else 0) <<< 2)), (.TABLE256, oc),
      (.TABLE8, v), (.TABLE_PFX, i), (.TABLE_VEX, wb + 2 * lb)],
    String.mk ((if vx then ['V', 'E', 'X', '.'] else []) ++
      ((["NP.", "66.", "F3.", "F2."] : List String).getD i "").toList ++
      ('W' :: (toString wb).toList ++ '.' :: 'L' :: (toString lb).toList ++ '.' ::
        (((["", "0f", "0f38", "0f3a"] : List String).getD es "").toList ++
          ([hexDigitChar (oc / 16), hexDigitChar (oc % 16)] ++ ['/', hexDigitChar v])))),
    ?_, ?_, ?_⟩
  · simp [Opcode.forTrie, Opcode.stages, Opcode.opcextStage, Opcode.pfxStage, hvst, cartProd,
      hv8]
  · simp only [format_opcode, List.foldlM, bind, Except.bind, hbits.1, hbits.2, getVexStr,
      and4_eq_zero i hi, hi4, hm2, hs1, hex2_eq oc h256, hex1_lt16 v (by omega)]
    refine congrArg Except.ok (str_eq_of_toList ?_)
    simp [strToList_append, strToList_mk, vexStrToList, vexStrData, List.append_assoc,
      show ("W" : String).toList = ['W'] from rfl,
      show (".L" : String).toList = ['.', 'L'] from rfl,
      show ("." : String).toList = ['.'] from rfl]
  · have hfront := front_legacy_cc vx i hi (toString wb) (toString lb)
      (toStringBit wb hwb) (toStringBit lb hlb)
      (((["", "0f", "0f38", "0f3a"] : List String).getD es "").toList ++
        ([hexDigitChar (oc / 16), hexDigitChar (oc % 16)] ++ ['/', hexDigitChar v]))
    have hback := back_opcode es h4 _ _ hd1 hd2 ['/', hexDigitChar v]
      (Or.inr ⟨hexDigitChar v, rfl⟩)
    have hmodr : (modrmCands ['/', hexDigitChar v]).head? = some (some (false, v), []) := by
      rw [modrm_slash (hexDigitChar v) v (digit07_hexDigitChar v hv8)]
      rfl
    have hhead := regex_head _ _ _ _ ['/', hexDigitChar v] (some (false, v)) hfront hback hmodr
    show Opcode.parse _ = _
    unfold Opcode.parse
    rw [show (String.mk ((if vx then ['V', 'E', 'X', '.'] else []) ++
      ((["NP.", "66.", "F3.", "F2."] : List String).getD i "").toList ++
      ('W' :: (toString wb).toList ++ '.' :: 'L' :: (toString lb).toList ++ '.' ::
        (((["", "0f", "0f38", "0f3a"] : List String).getD es "").toList ++
          ([hexDigitChar (oc / 16), hexDigitChar (oc % 16)] ++ ['/', hexDigitChar v]))))).toList =
      ((if vx then ['V', 'E', 'X', '.'] else []) ++
      ((["NP.", "66.", "F3.", "F2."] : List String).getD i "").toList ++
      ('W' :: (toString wb).toList ++ '.' :: 'L' :: (toString lb).toList ++ '.' ::
        (((["", "0f", "0f38", "0f3a"] : List String).getD es "").toList ++
          ([hexDigitChar (oc / 16), hexDigitChar (oc % 16)] ++ ['/', hexDigitChar v])))) from
      rfl]
    rw [hhead]
    simp only [Bool.false_and, Bool.and_self, if_false]
    have hlen : ((((["", "0f", "0f38", "0f3a"] : List String).getD es "").toList ++
        [hexDigitChar (oc / 16), hexDigitChar (oc % 16)]).length - 2) =
        (((["", "0f", "0f38", "0f3a"] : List String).getD es "").toList).length := by
      simp [List.length_append]
    rw [hlen, List.take_left, List.drop_left]
    have hmk : String.mk ((["", "0f", "0f38", "0f3a"] : List String).getD es "").toList =
        (["", "0f", "0f38", "0f3a"] : List String).getD es "" := rfl
    rw [hmk, escIndex es h4]
    rw [show hexStrVal [hexDigitChar (oc / 16), hexDigitChar (oc % 16)] = oc from
      hexStrVal_pair oc h256]
    rw [legIndex i hi]
    rfl

/-- C5 (amended): for every opcode string the parser accepts whose
canonical form is not extended, whose opcode extension is absent or of
the single-slash (8-kind) variety, and whose VEX.W and VEX.L constraints
are either both absent or both concrete bits, the canonical form expands
to exactly one trie path, the formatter serializes that path without
error, and parsing the formatted string yields exactly the original
canonical form. -/
theorem c5_roundtrip (s : String) (c : Opcode)
    (hp : Opcode.parse s = .ok (some c))
    (hext : c.extended = false)
    (hoc : c.opcext = none ∨ ∃ v, c.opcext = some (false, v))
    (hwl : (c.vexl = none ∧ c.rexw = none) ∨
      ((c.vexl = some "0" ∨ c.vexl = some "1") ∧
        (c.rexw = some "0" ∨ c.rexw = some "1"))) :
    ∃ p s2, c.forTrie = [p] ∧ format_opcode p = .ok s2 ∧
      Opcode.parse s2 = .ok (some c) := by
  obtain ⟨h4, h256, hocb, hpfx⟩ := parse_facts s c hp
  obtain ⟨pv, es, oc, oe, xt, vx, vl, w0⟩ := c
  dsimp only at hext h4 h256 hocb hoc hwl hpfx
  subst hext
  rcases hpfx with ⟨hpv, hvx, hvl, hw0⟩ | ⟨i, hi, hpv⟩ | ⟨i, hi, hpv, hvx, hvl, hw0⟩
  · subst hpv
    subst hvx
    subst hvl
    subst hw0
    rcases hoc with hoe | ⟨v, hoe⟩ <;> subst hoe
    · exact rt_none es oc h4 h256
    · exact rt_none8 es oc v h4 h256 (hocb v rfl)
  · subst hpv
    rcases hwl with ⟨hvl, hw0⟩ | ⟨hvlc, hw0c⟩
    · subst hvl
      subst hw0
      rcases hoc with hoe | ⟨v, hoe⟩ <;> subst hoe
      · exact rt_leg_nn vx i es oc hi h4 h256
      · exact rt_leg_nn8 vx i es oc v hi h4 h256 (hocb v rfl)
    · rcases hvlc with hvl | hvl <;> subst hvl <;> rcases hw0c with hw0 | hw0 <;> subst hw0 <;>
        rcases hoc with hoe | ⟨v, hoe⟩ <;> subst hoe
      · exact rt_leg_cc vx i es oc 0 0 hi h4 h256 (by omega) (by omega)
      · exact rt_leg_cc8 vx i es oc 0 0 v hi h4 h256 (by omega) (by omega) (hocb v rfl)
      · exact rt_leg_cc vx i es oc 1 0 hi h4 h256 (by omega) (by omega)
      · exact rt_leg_cc8 vx i es oc 1 0 v hi h4 h256 (by omega) (by omega) (hocb v rfl)
      · exact rt_leg_cc vx i es oc 0 1 hi h4 h256 (by omega) (by omega)
      · exact rt_leg_cc8 vx i es oc 0 1 v hi h4 h256 (by omega) (by omega) (hocb v rfl)
      · exact rt_leg_cc vx i es oc 1 1 hi h4 h256 (by omega) (by omega)
      · exact rt_leg_cc8 vx i es oc 1 1 v hi h4 h256 (by omega) (by omega) (hocb v rfl)
  · subst hpv
    subst hvx
    subst hvl
    subst hw0
    rcases hoc with hoe | ⟨v, hoe⟩ <;> subst hoe
    · exact rt_rep i es oc hi h4 h256
    · exact rt_rep8 i es oc v hi h4 h256 (hocb v rfl)

/-- C5 witness: the single-slash pattern c0/0 is parsed, lies in the
amended fragment, and round-trips through for_trie, the formatter and
the parser back to itself. -/
theorem c5_witness :
    (Opcode.parse "c0/0" =
      .ok (some ⟨none, 0, 192, some (false, 0), false, false, none, none⟩)) ∧
    ∃ p s2,
      Opcode.forTrie ⟨none, 0, 192, some (false, 0), false, false, none, none⟩ = [p] ∧
      format_opcode p = .ok s2 ∧
      Opcode.parse s2 =
        .ok (some ⟨none, 0, 192, some (false, 0), false, false, none, none⟩) :=
  ⟨rfl, c5_roundtrip "c0/0" ⟨none, 0, 192, some (false, 0), false, false, none, none⟩ rfl rfl
    (Or.inr ⟨0, rfl⟩) (Or.inl ⟨rfl, rfl⟩)⟩

end Fadec
